import Mathlib

/-! A shallow embedding of the nanos page cache (`src/x86_64/pagecache.c`)

The page cache is embedded as explicit state passing over a `world`: the
`pagecache` handle, the store of page descriptors, the merges, the
scatter-gather lists, and the environment the cache talks to (the two heaps
and the block device).  Fatal assertions and `halt` are the `error` side of
`Except abort`.  Closures are defunctionalised into `status_handler`, and the
functions that apply a closure take the closure application `ap` as an
argument; `apply` ties the knot with a fuel that bounds the nesting of
closure applications.  Machine words are naturals reduced modulo `2 ^ 64`
where the source computes in `u64`.  Locks are not modelled: the embedding is
sequential.
-/

namespace Pagecache

/-! ## Machine words and ranges -/

/-- The value `1ull << x` of the runtime's U64_FROM_BIT. -/
def U64_FROM_BIT (x : Nat) : Nat := (1 <<< x) % 2 ^ 64

/-- The runtime's MASK(x), that is `U64_FROM_BIT(x) - 1`. -/
def MASK (x : Nat) : Nat := U64_FROM_BIT x - 1

/-- Bitwise complement of a 64-bit word (the C operator `~` on a `u64`). -/
def u64_not (x : Nat) : Nat := x ^^^ (2 ^ 64 - 1)

/-- Subtraction of 64-bit words, wrapping as in C. -/
def u64_sub (a b : Nat) : Nat := (a + 2 ^ 64 - b % 2 ^ 64) % 2 ^ 64

/-- Addition of 64-bit words, wrapping as in C. -/
def u64_add (a b : Nat) : Nat := (a + b) % 2 ^ 64

/-- A half-open interval of 64-bit words, the runtime's `range`. -/
structure range where
  start : Nat
  end_ : Nat
deriving DecidableEq

/-- Modelled from the spec: `range.h` is not among the sources; `irange`
builds the half-open interval from its two ends. -/
def irange (s e : Nat) : range := ⟨s, e⟩

/-- Modelled from the spec: `range.h` is not among the sources; the span
`|r|` of a range is `end - start`, computed on 64-bit words. -/
def range_span (r : range) : Nat := u64_sub r.end_ r.start

/-- Modelled from the spec: `range.h` is not among the sources; `a ∩ b` has
the larger start and the smaller end, and an empty intersection is the
range `[0, 0)`. -/
def range_intersection (a b : range) : range :=
  let dest := irange (max a.start b.start) (min a.end_ b.end_)
  if dest.end_ ≤ dest.start then irange 0 0 else dest

/-- Modelled from the spec: `range.h` is not among the sources; a range is
converted to blocks "by right-shifting both ends by `block_order`". -/
def range_rshift (r : range) (order : Nat) : range :=
  irange (r.start >>> order) (r.end_ >>> order)

/-- Modelled from the spec: `range.h` is not among the sources; the byte
range of a block range is `blocks << block_order`, on 64-bit words. -/
def range_lshift (r : range) (order : Nat) : range :=
  irange ((r.start <<< order) % 2 ^ 64) ((r.end_ <<< order) % 2 ^ 64)

/-! ## Page states (`pagecache.h` is not among the sources) -/

/-- Modelled from the spec: `pagecache.h` is not among the sources; the six
states are numbered in the order the spec lists them. -/
def PAGECACHE_PAGESTATE_FREE : Nat := 0

/-- Modelled from the spec: see `PAGECACHE_PAGESTATE_FREE`. -/
def PAGECACHE_PAGESTATE_ALLOC : Nat := 1

/-- Modelled from the spec: see `PAGECACHE_PAGESTATE_FREE`. -/
def PAGECACHE_PAGESTATE_READING : Nat := 2

/-- Modelled from the spec: see `PAGECACHE_PAGESTATE_FREE`. -/
def PAGECACHE_PAGESTATE_NEW : Nat := 3

/-- Modelled from the spec: see `PAGECACHE_PAGESTATE_FREE`. -/
def PAGECACHE_PAGESTATE_ACTIVE : Nat := 4

/-- Modelled from the spec: see `PAGECACHE_PAGESTATE_FREE`. -/
def PAGECACHE_PAGESTATE_DIRTY : Nat := 5

/-- Modelled from the spec: `pagecache.h` is not among the sources; the state
occupies the top three bits of the packed word `state_phys`, the physical
frame number the 61 bits below. -/
def PAGECACHE_PAGESTATE_SHIFT : Nat := 61

/-! ## Statuses and closures -/

/-- Modelled from the spec: statuses are "opaque status values with an
`is_ok` predicate and `timm` / `timm_up` constructors for annotated errors".
An error carries its annotations, innermost last. -/
inductive status where
  | ok : status
  | error : List String → status
deriving DecidableEq

/-- The status STATUS_OK. -/
def STATUS_OK : status := status.ok

/-- Modelled from the spec: the predicate `is_ok`. -/
def is_ok : status → Bool
  | status.ok => true
  | status.error _ => false

/-- Modelled from the spec: `timm("result", msg)` builds an annotated error. -/
def timm (msg : String) : status := status.error [msg]

/-- Modelled from the spec: `timm_up(prev, "result", msg)` annotates `prev`. -/
def timm_up (prev : status) (msg : String) : status :=
  match prev with
  | status.ok => status.error [msg]
  | status.error l => status.error (msg :: l)

/-- The closures of `pagecache.c` that are applied as status handlers,
defunctionalised; each constructor carries the closure's bound variables
(the bound `pc` is the one cache of the `world`).  A page is named by its
index in the descriptor store, a merge by its index in the merge store, a
source buffer `buf` by the bytes found at that address. -/
inductive status_handler where
  /-- A completion supplied by a caller of `sg_read` or `write`. -/
  | completion : Nat → status_handler
  /-- A handler drawn from a merge with `apply_merge`. -/
  | merge_join : Nat → status_handler
  /-- The closure `read_page_complete` bound to a page. -/
  | read_page_complete : Nat → status_handler
  /-- The closure `pagecache_write_page_filled` bound to `pp, buf, q, sh`. -/
  | pagecache_write_page_filled : Nat → List Nat → range → status_handler → status_handler
  /-- The closure `pagecache_write_io_complete` bound to `pp, buf, q, sh`. -/
  | pagecache_write_io_complete : Nat → List Nat → range → status_handler → status_handler
deriving DecidableEq

/-- The reasons for which the kernel stops: a failed `assert`, a `halt`, the
application of a null closure, and the exhaustion of the fuel of `apply`. -/
inductive abort where
  /-- An `assert(old_state == ...)` of `set_page_state_cache_locked`. -/
  | assert_old_state : abort
  /-- The `halt("bad state")` of `set_page_state_cache_locked`. -/
  | halt_bad_state : abort
  /-- The `assert(page_state(pp) == READING)` of `read_page_complete`. -/
  | assert_reading : abort
  /-- The `assert(state == DIRTY)` of the touch. -/
  | assert_dirty : abort
  /-- The `assert(rangemap_insert(...))` of the page allocation. -/
  | assert_rangemap_insert : abort
  /-- The `assert(range_span(q) > 0)` of `pagecache_read_internal`. -/
  | assert_span : abort
  /-- The state assertion of `pagecache_write_page_internal_page_locked`. -/
  | assert_write_state : abort
  /-- The length assertion of `pagecache_write_page_internal_page_locked`. -/
  | assert_write_length : abort
  /-- The `assert(state != ALLOC)` of `pagecache_write_page_io_check`. -/
  | assert_not_alloc : abort
  /-- The `halt` of `pagecache_page_release`. -/
  | halt_release : abort
  /-- The application of the null pointer that `vector_get` returns out of range. -/
  | null_handler : abort
  /-- The fuel of `apply` ran out, or a loop bound was exceeded. -/
  | out_of_fuel : abort
deriving DecidableEq

/-! ## The data model -/

/-- A page descriptor, `struct pagecache_page`.  `kvirt` is the memory the
pointer `pp->kvirt` points into, indexed by the 64-bit offset from that
pointer: offsets below the page size are the page buffer, the other offsets
are the memory around it.  The list link `l` is represented by the
membership of the page in the lists of the cache. -/
structure pagecache_page where
  state_phys : Nat
  node_r : range
  kvirt : Nat → Nat
  refcount : Nat
  completions : List status_handler

/-- Modelled from the spec: `merge.c` is not among the sources.  A merge
counts its pending handlers, keeps the first error, and holds the completion
it fires when the count reaches zero. -/
structure merge where
  count : Nat
  last_status : status
  completion : status_handler

/-- An entry of a scatter-gather list: `buf = pp->kvirt + offset`, `length`,
and `refcount = &pp->refcount`. -/
structure sg_buf where
  pp : Nat
  offset : Nat
  length : Nat
deriving DecidableEq

/-- A request handed to the block device: the direction, the memory address
`pp->kvirt + offset`, the block range and the status handler. -/
structure block_req where
  write : Bool
  pp : Nat
  offset : Nat
  blocks : range
  sh : status_handler
deriving DecidableEq

/-- How the block device answers a request: at once, inside the call, with
the given status, or later. -/
inductive block_policy where
  | sync : status → block_policy
  | deferred : block_policy
deriving DecidableEq

/-- The cache handle, `struct pagecache`: the range index `pages` (the page
descriptors it holds, in ascending order of their ranges), the four lists
(head first), the two orders and the length of the backing store. -/
structure pagecache where
  pages : List Nat
  free : List Nat
  new : List Nat
  active : List Nat
  dirty : List Nat
  page_order : Nat
  block_order : Nat
  length : Nat

/-- The cache together with everything it reaches: the descriptor store, the
merges, the scatter-gather lists of the callers, and the environment.
`backed_avail` and `h_avail` count the allocations the two heaps still
grant, `fresh_kvirt` and `fresh_phys` give the memory and the physical
address of the next buffers of the backed heap, `disk` is the backing store,
`issued` logs every request handed to the block device, `pending` holds the
requests the device has not answered, `fired` logs the caller completions
that were applied. -/
structure world where
  pc : pagecache
  page : Nat → pagecache_page
  npages : Nat
  merges : Nat → merge
  nmerges : Nat
  sg : Nat → List sg_buf
  backed_avail : Nat
  h_avail : Nat
  fresh_kvirt : Nat → Nat → Nat
  fresh_phys : Nat → Nat
  disk : Nat → Nat
  read_policy : block_policy
  write_policy : block_policy
  issued : List block_req
  pending : List block_req
  fired : List (Nat × status)

/-- Replace the descriptor of page `pp`. -/
def set_page (w : world) (pp : Nat) (pg : pagecache_page) : world :=
  { w with page := fun i => if i = pp then pg else w.page i }

/-! ## List primitives (`list.h` is not among the sources) -/

/-- A list of pages without the page `pp`. -/
def list_remove (l : List Nat) (pp : Nat) : List Nat :=
  l.filter (fun x => decide (x ≠ pp))

/-- Modelled from the spec: `list.h` is not among the sources; `list_delete`
unlinks the page from the list it is on. -/
def list_delete (pc : pagecache) (pp : Nat) : pagecache :=
  { pc with
    free := list_remove pc.free pp
    new := list_remove pc.new pp
    active := list_remove pc.active pp
    dirty := list_remove pc.dirty pp }

/-! ## `pagecache.c` -/

/-- The function `pagecache_pagesize`. -/
def pagecache_pagesize (pc : pagecache) : Nat := U64_FROM_BIT pc.page_order

/-- The function `page_state`: the bits of `state_phys` from
PAGECACHE_PAGESTATE_SHIFT up. -/
def page_state (pp : pagecache_page) : Nat :=
  pp.state_phys >>> PAGECACHE_PAGESTATE_SHIFT

/-- The list effect of `set_page_state_cache_locked`: the `switch`, with its
assertions, `list_delete` and `list_insert_before(&pc->..., &pp->l)` (an
insertion before the head, that is at the tail). -/
def set_page_state_lists (pc : pagecache) (pp : Nat) (old_state state : Nat) :
    Except abort pagecache :=
  if state = PAGECACHE_PAGESTATE_FREE then
    if old_state = PAGECACHE_PAGESTATE_NEW ∨ old_state = PAGECACHE_PAGESTATE_ACTIVE then
      let pc1 := list_delete pc pp
      .ok { pc1 with free := pc1.free ++ [pp] }
    else .error abort.assert_old_state
  else if state = PAGECACHE_PAGESTATE_ALLOC then
    if old_state = PAGECACHE_PAGESTATE_FREE then .ok pc else .error abort.assert_old_state
  else if state = PAGECACHE_PAGESTATE_READING then
    if old_state = PAGECACHE_PAGESTATE_ALLOC then .ok pc else .error abort.assert_old_state
  else if state = PAGECACHE_PAGESTATE_NEW then
    if old_state = PAGECACHE_PAGESTATE_READING then .ok { pc with new := pc.new ++ [pp] }
    else .error abort.assert_old_state
  else if state = PAGECACHE_PAGESTATE_ACTIVE then
    if old_state = PAGECACHE_PAGESTATE_NEW then
      let pc1 := list_delete pc pp
      .ok { pc1 with active := pc1.active ++ [pp] }
    else .error abort.assert_old_state
  else .error abort.halt_bad_state

/-- The function `set_page_state_cache_locked`. -/
def set_page_state_cache_locked (pp : Nat) (state : Nat) (w : world) : Except abort world :=
  let old_state := page_state (w.page pp)
  match set_page_state_lists w.pc pp old_state state with
  | .error e => .error e
  | .ok pc1 =>
    let pg := w.page pp
    .ok (set_page { w with pc := pc1 } pp
      { pg with state_phys :=
          ((pg.state_phys &&& MASK PAGECACHE_PAGESTATE_SHIFT) |||
            ((state <<< PAGECACHE_PAGESTATE_SHIFT) % 2 ^ 64)) })

/-- The closure `read_page_complete` walks `pp->completions` with
`vector_foreach`: the length is read once, before the first iteration, and
each iteration fetches the element at the running index from the vector as
it then is (`vector_get` gives the null pointer out of range) and applies
it to the status.  `n` counts the iterations that remain, `i` is the
running index. -/
def completions_foreach (ap : status_handler → status → world → Except abort world)
    (pp : Nat) (s : status) : Nat → Nat → world → Except abort world
  | 0, _, w => .ok w
  | n + 1, i, w =>
    match (w.page pp).completions[i]? with
    | none => .error abort.null_handler
    | some sh =>
      match ap sh s w with
      | .error e => .error e
      | .ok w1 => completions_foreach ap pp s n (i + 1) w1

/-- The branch of `read_page_complete` on the status: an error is only
logged, a success moves the page to New. -/
def read_page_complete_state (pp : Nat) (s : status) (w : world) : Except abort world :=
  if !is_ok s then .ok w
  else set_page_state_cache_locked pp PAGECACHE_PAGESTATE_NEW w

/-- The closure `read_page_complete`, bound to `pp`, applied to `s`. -/
def read_page_complete (ap : status_handler → status → world → Except abort world)
    (pp : Nat) (s : status) (w : world) : Except abort world :=
  if page_state (w.page pp) ≠ PAGECACHE_PAGESTATE_READING then .error abort.assert_reading
  else
    match read_page_complete_state pp s w with
    | .error e => .error e
    | .ok w1 =>
      match completions_foreach ap pp s (w1.page pp).completions.length 0 w1 with
      | .error e => .error e
      | .ok w2 => .ok (set_page w2 pp { w2.page pp with completions := [] })

/-- The function `pagecache_page_touch_if_filled_cache_locked`. -/
def pagecache_page_touch_if_filled_cache_locked (pp : Nat) (w : world) :
    Except abort (Bool × world) :=
  let state := page_state (w.page pp)
  if state = PAGECACHE_PAGESTATE_READING ∨ state = PAGECACHE_PAGESTATE_ALLOC then
    .ok (false, w)
  else if state = PAGECACHE_PAGESTATE_ACTIVE then
    let pc1 := list_delete w.pc pp
    .ok (true, { w with pc := { pc1 with active := pc1.active ++ [pp] } })
  else if state = PAGECACHE_PAGESTATE_NEW then
    match set_page_state_cache_locked pp PAGECACHE_PAGESTATE_ACTIVE w with
    | .error e => .error e
    | .ok w1 => .ok (true, w1)
  else if state = PAGECACHE_PAGESTATE_DIRTY then .ok (true, w)
  else .error abort.assert_dirty

/-- The call `zero(pp->kvirt + off, len)`: the `len` bytes from offset `off`
on, the addresses taken modulo `2 ^ 64`, become zero. -/
def zero (w : world) (pp : Nat) (off len : Nat) : world :=
  let pg := w.page pp
  set_page w pp { pg with kvirt := fun a => if u64_sub a off < len then 0 else pg.kvirt a }

/-- The call `runtime_memcpy(pp->kvirt + off, buf + src, len)`; a byte read
past the end of the bytes known at `buf` reads as zero. -/
def runtime_memcpy (w : world) (pp : Nat) (off : Nat) (buf : List Nat) (src len : Nat) : world :=
  let pg := w.page pp
  set_page w pp { pg with
    kvirt := fun a => if u64_sub a off < len then buf.getD (src + u64_sub a off) 0 else pg.kvirt a }

/-- Modelled from the spec: the block device is not among the sources.  The
number of bytes a request over `blocks` moves: `|blocks|` blocks, nothing for
an empty or inverted block range. -/
def block_bytes (pc : pagecache) (blocks : range) : Nat :=
  (blocks.end_ - blocks.start) * 2 ^ pc.block_order

/-- Modelled from the spec: the block device is not among the sources.  A
successful `block_read(dest, blocks, sh)` "reads `|blocks|` blocks into
`dest`" from the backing store. -/
def block_read_transfer (w : world) (pp : Nat) (off : Nat) (blocks : range) : world :=
  let pg := w.page pp
  set_page w pp { pg with
    kvirt := fun a =>
      if u64_sub a off < block_bytes w.pc blocks
      then w.disk (blocks.start * 2 ^ w.pc.block_order + u64_sub a off)
      else pg.kvirt a }

/-- Modelled from the spec: the block device is not among the sources.  A
successful `block_write(src, blocks, sh)` is "symmetric": it stores
`|blocks|` blocks from `src` into the backing store. -/
def block_write_transfer (w : world) (pp : Nat) (off : Nat) (blocks : range) : world :=
  let base := blocks.start * 2 ^ w.pc.block_order
  { w with
    disk := fun d =>
      if base ≤ d ∧ d < base + block_bytes w.pc blocks
      then (w.page pp).kvirt (u64_add off (d - base))
      else w.disk d }

/-- Modelled from the spec: the block device is not among the sources.  The
transfer of a request. -/
def block_transfer (w : world) (req : block_req) : world :=
  if req.write then block_write_transfer w req.pp req.offset req.blocks
  else block_read_transfer w req.pp req.offset req.blocks

/-- Modelled from the spec: the block device is not among the sources.  How
the device answers a request: reads and writes each have their policy. -/
def device_policy (w : world) (req : block_req) : block_policy :=
  if req.write then w.write_policy else w.read_policy

/-- Modelled from the spec: the block device is not among the sources.  The
device is handed a request: a synchronous device makes the transfer when its
status is OK and "invokes `status_handler(status)`" inside the call, a
deferred one keeps the request pending. -/
def block_answer (ap : status_handler → status → world → Except abort world)
    (req : block_req) (w : world) : Except abort world :=
  match device_policy w req with
  | block_policy.sync s => ap req.sh s (if is_ok s then block_transfer w req else w)
  | block_policy.deferred => .ok { w with pending := w.pending ++ [req] }

/-- The calls `apply(pc->block_read, ...)` and `apply(pc->block_write, ...)`:
the request is logged in `issued` and handed to the device. -/
def block_issue (ap : status_handler → status → world → Except abort world)
    (req : block_req) (w : world) : Except abort world :=
  block_answer ap req { w with issued := w.issued ++ [req] }

/-- Modelled from the spec: the block device is not among the sources.  The
device answers the pending request at position `k` with status `s`. -/
def block_complete (ap : status_handler → status → world → Except abort world)
    (k : Nat) (s : status) (w : world) : Except abort world :=
  match w.pending[k]? with
  | none => .ok w
  | some req =>
    let w1 := { w with pending := w.pending.eraseIdx k }
    ap req.sh s (if is_ok s then block_transfer w1 req else w1)

/-- The function `pagecache_page_fill_cache_locked`. -/
def pagecache_page_fill_cache_locked (ap : status_handler → status → world → Except abort world)
    (pp : Nat) (sh : status_handler) (w : world) : Except abort world :=
  let pg := w.page pp
  let w1 := set_page w pp { pg with completions := pg.completions ++ [sh] }
  if page_state (w1.page pp) = PAGECACHE_PAGESTATE_ALLOC then
    match set_page_state_cache_locked pp PAGECACHE_PAGESTATE_READING w1 with
    | .error e => .error e
    | .ok w2 =>
      let r := (w2.page pp).node_r
      let end0 := r.end_
      let w3 := if end0 > w2.pc.length
        then zero w2 pp (u64_sub w2.pc.length r.start) (u64_sub end0 w2.pc.length) else w2
      let end1 := if end0 > w2.pc.length then w2.pc.length else end0
      let blocks := range_rshift (irange r.start end1) w3.pc.block_order
      block_issue ap ⟨false, pp, 0, blocks, status_handler.read_page_complete pp⟩ w3
  else .ok w1

/-- Modelled from the spec: `merge.c` is not among the sources.
`allocate_merge(h, completion)` makes a merge with no pending handler. -/
def allocate_merge (completion : status_handler) (w : world) : Nat × world :=
  (w.nmerges,
    { w with
      merges := fun i => if i = w.nmerges then ⟨0, STATUS_OK, completion⟩ else w.merges i
      nmerges := w.nmerges + 1 })

/-- Modelled from the spec: `merge.c` is not among the sources.
`apply_merge(m)` "yields a fresh status handler counted toward the pending
set" of `m`. -/
def apply_merge (m : Nat) (w : world) : status_handler × world :=
  (status_handler.merge_join m,
    { w with merges := fun i =>
        if i = m then { w.merges m with count := (w.merges m).count + 1 } else w.merges i })

/-- Modelled from the spec: `merge.c` is not among the sources.  A handler of
a merge, applied to a status, keeps the first error ("first error wins"),
"decrements pending and, when pending reaches zero, invokes
`completion(final_status)`". -/
def merge_join (ap : status_handler → status → world → Except abort world)
    (m : Nat) (s : status) (w : world) : Except abort world :=
  let mg := w.merges m
  let last := if is_ok s then mg.last_status
    else if is_ok mg.last_status then s else mg.last_status
  let w1 := { w with merges := fun i =>
      if i = m then { mg with count := mg.count - 1, last_status := last } else w.merges i }
  if mg.count = 1 then ap mg.completion last w1 else .ok w1

/-- The call `sg_list_tail_add` followed by the three stores into the new
entry. -/
def sg_list_tail_add (w : world) (sg : Nat) (sgb : sg_buf) : world :=
  { w with sg := fun i => if i = sg then w.sg sg ++ [sgb] else w.sg i }

/-- The call `refcount_reserve(&pp->refcount)`. -/
def refcount_reserve (w : world) (pp : Nat) : world :=
  let pg := w.page pp
  set_page w pp { pg with refcount := pg.refcount + 1 }

/-- The function `pagecache_read_page_internal_cache_locked`. -/
def pagecache_read_page_internal_cache_locked
    (ap : status_handler → status → world → Except abort world)
    (pp : Nat) (sg : Nat) (q : range) (m : Nat) (w : world) : Except abort world :=
  let r := (w.page pp).node_r
  let i := range_intersection q r
  let length := range_span i
  let offset := u64_sub i.start r.start
  let w1 := sg_list_tail_add w sg ⟨pp, offset, length⟩
  let w2 := refcount_reserve w1 pp
  match pagecache_page_touch_if_filled_cache_locked pp w2 with
  | .error e => .error e
  | .ok (true, w3) => .ok w3
  | .ok (false, w3) =>
    let (sh, w4) := apply_merge m w3
    pagecache_page_fill_cache_locked ap pp sh w4

/-! ## The range index (`rangemap.c` is not among the sources) -/

/-- Modelled from the spec: `rangemap.c` is not among the sources; two ranges
intersect when the larger start lies below the smaller end. -/
def range_overlaps (a b : range) : Bool :=
  decide (max a.start b.start < min a.end_ b.end_)

/-- Modelled from the spec: `rangemap.c` is not among the sources; the place
of a new node among the nodes, which are kept in ascending order of start. -/
def rangemap_place (page : Nat → pagecache_page) (pp : Nat) : List Nat → List Nat
  | [] => [pp]
  | n :: rest =>
    if (page pp).node_r.start < (page n).node_r.start then pp :: n :: rest
    else n :: rangemap_place page pp rest

/-- Modelled from the spec: `rangemap.c` is not among the sources;
"insertion fails if the new range overlaps an existing node". -/
def rangemap_insert (w : world) (pp : Nat) : Bool × world :=
  if w.pc.pages.any (fun n => range_overlaps (w.page n).node_r (w.page pp).node_r) then (false, w)
  else (true, { w with pc := { w.pc with pages := rangemap_place w.page pp w.pc.pages } })

/-- Modelled from the spec: `rangemap.c` is not among the sources;
`rangemap_remove_node` takes the node out of the index. -/
def rangemap_remove_node (w : world) (pp : Nat) : world :=
  { w with pc := { w.pc with pages := list_remove w.pc.pages pp } }

/-- What a lookup with gaps visits: an indexed page, or a gap. -/
inductive visit where
  | node : Nat → visit
  | gap : range → visit
deriving DecidableEq

/-- Modelled from the spec: `rangemap.c` is not among the sources.  The
visits of a lookup of `q`: "a node-handler on each indexed range
intersecting Q in ascending order, and a gap-handler on each maximal
sub-range of Q not covered by any indexed range".  `edge` is the end of the
part of `q` already visited. -/
def lookup_visits (page : Nat → pagecache_page) (q : range) : List Nat → Nat → List visit
  | [], edge => if edge < q.end_ then [visit.gap (irange edge q.end_)] else []
  | n :: rest, edge =>
    let r := (page n).node_r
    if range_overlaps r q then
      (if edge < r.start then [visit.gap (irange edge r.start)] else []) ++
        visit.node n :: lookup_visits page q rest r.end_
    else lookup_visits page q rest edge

/-- Run the handlers over the visits, in order. -/
def run_visits (nh : Nat → world → Except abort world) (rh : range → world → Except abort world) :
    List visit → world → Except abort world
  | [], w => .ok w
  | visit.node n :: vs, w =>
    match nh n w with
    | .error e => .error e
    | .ok w1 => run_visits nh rh vs w1
  | visit.gap r :: vs, w =>
    match rh r w with
    | .error e => .error e
    | .ok w1 => run_visits nh rh vs w1

/-- Modelled from the spec: `rangemap.c` is not among the sources.
`rangemap_range_lookup_with_gaps(rm, q, nh, rh)` visits the nodes and the gaps
of the index as it is when the lookup starts, and returns false when
"no traversal occurred". -/
def rangemap_range_lookup_with_gaps (q : range) (nh : Nat → world → Except abort world)
    (rh : range → world → Except abort world) (w : world) : Except abort (Bool × world) :=
  let vs := lookup_visits w.page q w.pc.pages q.start
  match run_visits nh rh vs w with
  | .error e => .error e
  | .ok w1 => .ok (!vs.isEmpty, w1)

/-! ## Page release and allocation -/

/-- The part of `pagecache_page_release` that runs under the cache lock. -/
def pagecache_page_release_locked (pp : Nat) (w : world) : Except abort world :=
  let w1 := rangemap_remove_node w pp
  match set_page_state_cache_locked pp PAGECACHE_PAGESTATE_FREE w1 with
  | .error e => .error e
  | .ok w2 => .ok (zero w2 pp 0 (pagecache_pagesize w2.pc))

/-- The closure `pagecache_page_release`, bound to `pp`. -/
def pagecache_page_release (pp : Nat) (w : world) : Except abort world :=
  let state := page_state (w.page pp)
  if state ≠ PAGECACHE_PAGESTATE_NEW ∨ state ≠ PAGECACHE_PAGESTATE_ACTIVE then
    .error abort.halt_release
  else pagecache_page_release_locked pp w

/-- The tail of `allocate_pagecache_page_cache_locked` from the label
`pp_insert` on. -/
def pp_insert (pp : Nat) (r : range) (w : world) : Except abort (Option Nat × world) :=
  let pg := w.page pp
  let w1 := set_page w pp { pg with node_r := r }
  match rangemap_insert w1 pp with
  | (false, _) => .error abort.assert_rangemap_insert
  | (true, w2) => .ok (some pp, w2)

/-- The function `allocate_pagecache_page_cache_locked`; `none` is
INVALID_ADDRESS.  Modelled from the spec: the heaps are not among the
sources; a heap grants an allocation while its count of available
allocations is positive, and a deallocation gives the allocation back. -/
def allocate_pagecache_page_cache_locked (r : range) (w : world) :
    Except abort (Option Nat × world) :=
  match w.pc.free with
  | l :: _ =>
    let w1 := { w with pc := list_delete w.pc l }
    match set_page_state_cache_locked l PAGECACHE_PAGESTATE_ALLOC w1 with
    | .error e => .error e
    | .ok w2 => pp_insert l r (refcount_reserve w2 l)
  | [] =>
    if w.backed_avail = 0 then .ok (none, w)
    else
      let w1 := { w with backed_avail := w.backed_avail - 1 }
      if w1.h_avail = 0 then .ok (none, { w1 with backed_avail := w1.backed_avail + 1 })
      else
        let w2 := { w1 with h_avail := w1.h_avail - 1 }
        if w2.h_avail = 0 then
          .ok (none, { w2 with h_avail := w2.h_avail + 1, backed_avail := w2.backed_avail + 1 })
        else
          let w3 := { w2 with h_avail := w2.h_avail - 1 }
          let pp := w3.npages
          let pg : pagecache_page :=
            { state_phys :=
                ((PAGECACHE_PAGESTATE_ALLOC <<< PAGECACHE_PAGESTATE_SHIFT) % 2 ^ 64) |||
                  (w3.fresh_phys pp >>> w3.pc.page_order)
              node_r := (w3.page pp).node_r
              kvirt := w3.fresh_kvirt pp
              refcount := 1
              completions := [] }
          pp_insert pp r (set_page { w3 with npages := w3.npages + 1 } pp pg)

/-! ## The read path -/

/-- The loop of the closure `pagecache_read_gap_cache_locked`: `n` bounds the
number of iterations, `offset` is the loop variable. -/
def pagecache_read_gap_loop (ap : status_handler → status → world → Except abort world)
    (sg : Nat) (q : range) (m : Nat) (r : range) (pagesize : Nat) :
    Nat → Nat → world → Except abort world
  | 0, offset, w => if offset < r.end_ then .error abort.out_of_fuel else .ok w
  | n + 1, offset, w =>
    if offset < r.end_ then
      match allocate_pagecache_page_cache_locked (irange offset (u64_add offset pagesize)) w with
      | .error e => .error e
      | .ok (none, w1) =>
        let (sh, w2) := apply_merge m w1
        ap sh (timm "failed to allocate pagecache_page") w2
      | .ok (some pp, w1) =>
        match pagecache_read_page_internal_cache_locked ap pp sg q m w1 with
        | .error e => .error e
        | .ok w2 => pagecache_read_gap_loop ap sg q m r pagesize n (u64_add offset pagesize) w2
    else .ok w

/-- The closure `pagecache_read_gap_cache_locked`, bound to `pc, sg, q, m`,
applied to the gap `r`.  A loop over 64-bit offsets that allocates a page in
each iteration ends within `2 ^ 64` iterations. -/
def pagecache_read_gap_cache_locked (ap : status_handler → status → world → Except abort world)
    (sg : Nat) (q : range) (m : Nat) (r : range) (w : world) : Except abort world :=
  let order := w.pc.page_order
  let pagesize := U64_FROM_BIT order
  let start := r.start &&& u64_not (MASK order)
  pagecache_read_gap_loop ap sg q m r pagesize (2 ^ 64) start w

/-- The function `pagecache_read_internal`. -/
def pagecache_read_internal (ap : status_handler → status → world → Except abort world)
    (sg : Nat) (q : range) (completion : status_handler) (w : world) :
    Except abort (Bool × world) :=
  if ¬ (range_span q > 0) then .error abort.assert_span
  else
    let (m, w1) := allocate_merge completion w
    let (sh, w2) := apply_merge m w1
    match rangemap_range_lookup_with_gaps q
        (fun node => pagecache_read_page_internal_cache_locked ap node sg q m)
        (fun r => pagecache_read_gap_cache_locked ap sg q m r) w2 with
    | .error e => .error e
    | .ok (false, w3) =>
      match ap sh (timm "pagecache_read_internal: no matching pages for range") w3 with
      | .error e => .error e
      | .ok w4 => .ok (false, w4)
    | .ok (true, w3) =>
      match ap sh STATUS_OK w3 with
      | .error e => .error e
      | .ok w4 => .ok (true, w4)

/-- The closure `pagecache_read_sg`. -/
def pagecache_read_sg (ap : status_handler → status → world → Except abort world)
    (sg : Nat) (q : range) (sh : status_handler) (w : world) : Except abort world :=
  match pagecache_read_internal ap sg q sh w with
  | .error e => .error e
  | .ok (_, w1) => .ok w1

/-! ## The write path -/

/-- The function `pagecache_write_page_internal_page_locked`. -/
def pagecache_write_page_internal_page_locked
    (ap : status_handler → status → world → Except abort world)
    (pp : Nat) (buf : List Nat) (q : range) (sh : status_handler) (w : world) :
    Except abort world :=
  let state := page_state (w.page pp)
  let r := (w.page pp).node_r
  let i := range_intersection q r
  let len := range_span i
  let page_offset := u64_sub i.start r.start
  let src := u64_sub i.start q.start
  if ¬ (state = PAGECACHE_PAGESTATE_ALLOC ∨ state = PAGECACHE_PAGESTATE_NEW ∨
      state = PAGECACHE_PAGESTATE_ACTIVE ∨ state = PAGECACHE_PAGESTATE_DIRTY) then
    .error abort.assert_write_state
  else if ¬ (u64_add r.start len ≤ w.pc.length) then .error abort.assert_write_length
  else
    let w1 := runtime_memcpy w pp page_offset buf src len
    let blocks := range_rshift i w1.pc.block_order
    block_issue ap ⟨true, pp, page_offset, blocks, sh⟩ w1

/-- The closure `pagecache_write_io_complete`, bound to `pp, buf, q, sh`; it
takes no argument, and the status it is applied to when it sits in the
completions of a page is not looked at. -/
def pagecache_write_io_complete (ap : status_handler → status → world → Except abort world)
    (pp : Nat) (buf : List Nat) (q : range) (sh : status_handler) (w : world) :
    Except abort world :=
  pagecache_write_page_internal_page_locked ap pp buf q sh w

/-- The function `pagecache_write_page_io_check`. -/
def pagecache_write_page_io_check (ap : status_handler → status → world → Except abort world)
    (pp : Nat) (buf : List Nat) (q : range) (sh : status_handler) (w : world) :
    Except abort world :=
  let state := page_state (w.page pp)
  if ¬ (state ≠ PAGECACHE_PAGESTATE_ALLOC) then .error abort.assert_not_alloc
  else if state = PAGECACHE_PAGESTATE_READING then
    let pg := w.page pp
    .ok (set_page w pp { pg with
      completions := pg.completions ++ [status_handler.pagecache_write_io_complete pp buf q sh] })
  else pagecache_write_page_internal_page_locked ap pp buf q sh w

/-- The closure `pagecache_write_page_cache_locked`, bound to `pc, buf, q, m`,
applied to a node. -/
def pagecache_write_page_cache_locked (ap : status_handler → status → world → Except abort world)
    (buf : List Nat) (q : range) (m : Nat) (node : Nat) (w : world) : Except abort world :=
  let (sh, w1) := apply_merge m w
  pagecache_write_page_io_check ap node buf q sh w1

/-- The closure `pagecache_write_page_filled`, bound to `pp, buf, q, sh`,
applied to `s`. -/
def pagecache_write_page_filled (ap : status_handler → status → world → Except abort world)
    (pp : Nat) (buf : List Nat) (q : range) (sh : status_handler) (s : status) (w : world) :
    Except abort world :=
  if !is_ok s then ap sh (timm_up s "pagecache_write_page_filled: fill failed") w
  else pagecache_write_page_io_check ap pp buf q sh w

/-- The body of the loop of `pagecache_write_gap_cache_locked` for the page
`pp` just allocated: a write that covers the page is written through, any
other write waits for the fill of the page. -/
def pagecache_write_gap_page (ap : status_handler → status → world → Except abort world)
    (buf : List Nat) (q : range) (m : Nat) (pp : Nat) (w : world) : Except abort world :=
  let i := range_intersection (w.page pp).node_r q
  if i.start = (w.page pp).node_r.start ∧
      i.end_ = min (w.page pp).node_r.end_ w.pc.length then
    let (sh, w1) := apply_merge m w
    pagecache_write_page_internal_page_locked ap pp buf q sh w1
  else
    let (sh, w1) := apply_merge m w
    pagecache_page_fill_cache_locked ap pp
      (status_handler.pagecache_write_page_filled pp buf q sh) w1

/-- The loop of the closure `pagecache_write_gap_cache_locked`: `n` bounds
the number of iterations, `offset` is the loop variable. -/
def pagecache_write_gap_loop (ap : status_handler → status → world → Except abort world)
    (buf : List Nat) (q : range) (m : Nat) (r : range) (pagesize : Nat) :
    Nat → Nat → world → Except abort world
  | 0, offset, w => if offset < r.end_ then .error abort.out_of_fuel else .ok w
  | n + 1, offset, w =>
    if offset < r.end_ then
      match allocate_pagecache_page_cache_locked (irange offset (u64_add offset pagesize)) w with
      | .error e => .error e
      | .ok (none, w1) =>
        let (sh, w2) := apply_merge m w1
        ap sh (timm "failed to allocate pagecache_page") w2
      | .ok (some pp, w1) =>
        match pagecache_write_gap_page ap buf q m pp w1 with
        | .error e => .error e
        | .ok w3 => pagecache_write_gap_loop ap buf q m r pagesize n (u64_add offset pagesize) w3
    else .ok w

/-- The closure `pagecache_write_gap_cache_locked`, bound to `pc, buf, q, m`,
applied to the gap `r`. -/
def pagecache_write_gap_cache_locked (ap : status_handler → status → world → Except abort world)
    (buf : List Nat) (q : range) (m : Nat) (r : range) (w : world) : Except abort world :=
  let order := w.pc.page_order
  let pagesize := U64_FROM_BIT order
  let start := r.start &&& u64_not (MASK order)
  pagecache_write_gap_loop ap buf q m r pagesize (2 ^ 64) start w

/-- The closure `pagecache_write`. -/
def pagecache_write (ap : status_handler → status → world → Except abort world)
    (buf : List Nat) (blocks : range) (completion : status_handler) (w : world) :
    Except abort world :=
  let q := range_lshift blocks w.pc.block_order
  let (m, w1) := allocate_merge completion w
  let (sh, w2) := apply_merge m w1
  match rangemap_range_lookup_with_gaps q
      (fun node => pagecache_write_page_cache_locked ap buf q m node)
      (fun r => pagecache_write_gap_cache_locked ap buf q m r) w2 with
  | .error e => .error e
  | .ok (false, w3) => ap sh (timm "pagecache_write: no matching pages for range") w3
  | .ok (true, w3) => ap sh STATUS_OK w3

/-! ## Closure application -/

/-- The application `apply(sh, s)` of a status handler.  The fuel bounds the
nesting of applications; a caller's completion is logged in `fired`. -/
def apply : Nat → status_handler → status → world → Except abort world
  | 0, _, _, _ => .error abort.out_of_fuel
  | n + 1, sh, s, w =>
    match sh with
    | status_handler.completion c => .ok { w with fired := w.fired ++ [(c, s)] }
    | status_handler.merge_join m => merge_join (apply n) m s w
    | status_handler.read_page_complete pp => read_page_complete (apply n) pp s w
    | status_handler.pagecache_write_page_filled pp buf q sh1 =>
      pagecache_write_page_filled (apply n) pp buf q sh1 s w
    | status_handler.pagecache_write_io_complete pp buf q sh1 =>
      pagecache_write_io_complete (apply n) pp buf q sh1 w

/-- The entry point `pc->sg_read`. -/
def sg_read (fuel : Nat) (sg : Nat) (q : range) (completion : Nat) (w : world) :
    Except abort world :=
  pagecache_read_sg (apply fuel) sg q (status_handler.completion completion) w

/-- The entry point `pc->write`. -/
def write (fuel : Nat) (buf : List Nat) (blocks : range) (completion : Nat) (w : world) :
    Except abort world :=
  pagecache_write (apply fuel) buf blocks (status_handler.completion completion) w

/-- Modelled from the spec: `find_order` is not among the sources; the order
of a size is the least `n` with `size ≤ 2 ^ n`. -/
def find_order (x : Nat) : Nat := if x > 1 then Nat.log2 (x - 1) + 1 else 0

/-- The environment a cache is created in: the two heaps and the block
device. -/
structure environment where
  backed_avail : Nat
  h_avail : Nat
  fresh_kvirt : Nat → Nat → Nat
  fresh_phys : Nat → Nat
  disk : Nat → Nat
  read_policy : block_policy
  write_policy : block_policy

/-- The state `allocate_pagecache` builds: an empty index, four empty lists,
no page descriptor, no merge, nothing issued to the device.  The places of
the descriptor store where no descriptor has been allocated hold a word of
ones, whose state bits are none of the six states. -/
def initial_world (env : environment) (length page_order block_order : Nat) : world :=
  { pc := { pages := [], free := [], new := [], active := [], dirty := [],
            page_order := page_order, block_order := block_order, length := length }
    page := fun _ => ⟨2 ^ 64 - 1, irange 0 0, fun _ => 0, 0, []⟩
    npages := 0
    merges := fun _ => ⟨0, STATUS_OK, status_handler.completion 0⟩
    nmerges := 0
    sg := fun _ => []
    backed_avail := env.backed_avail
    h_avail := env.h_avail
    fresh_kvirt := env.fresh_kvirt
    fresh_phys := env.fresh_phys
    disk := env.disk
    read_policy := env.read_policy
    write_policy := env.write_policy
    issued := []
    pending := []
    fired := [] }

/-- The function `allocate_pagecache`; `none` is a failed assertion on the
page size or the block size.  The allocations of the handle and of the
range index are taken to succeed. -/
def allocate_pagecache (env : environment) (length pagesize block_size : Nat) : Option world :=
  let page_order := find_order pagesize
  let block_order := find_order block_size
  if pagesize = U64_FROM_BIT page_order ∧ block_size = U64_FROM_BIT block_order then
    some (initial_world env length page_order block_order)
  else none

/-! ## Definitions used in the statements -/

/-- An environment for examples: heaps that grant sixteen allocations, fresh
buffers filled with the byte 7, a backing store whose byte at `d` is
`d % 5 + 1`, and a device that answers at once with STATUS_OK. -/
def example_env : environment :=
  { backed_avail := 16
    h_avail := 16
    fresh_kvirt := fun _ _ => 7
    fresh_phys := fun n => (n * 4) % 2 ^ 32
    disk := fun d => d % 5 + 1
    read_policy := block_policy.sync STATUS_OK
    write_policy := block_policy.sync STATUS_OK }

/-- An empty cache for examples: pages of four bytes, blocks of two bytes, a
backing store of sixteen bytes. -/
def example_world : world := initial_world example_env 16 2 1

/-- The example cache with one descriptor, page 0, in state Free and linked
on the Free list. -/
def free_page_world : world :=
  { set_page example_world 0 ⟨0, irange 0 0, fun _ => 0, 0, []⟩ with
    pc := { example_world.pc with free := [0] }
    npages := 1 }

/-- The transitions the page state machine allows. -/
def legal_transition (old_state state : Nat) : Prop :=
  (old_state = PAGECACHE_PAGESTATE_FREE ∧ state = PAGECACHE_PAGESTATE_ALLOC) ∨
  (old_state = PAGECACHE_PAGESTATE_ALLOC ∧ state = PAGECACHE_PAGESTATE_READING) ∨
  (old_state = PAGECACHE_PAGESTATE_READING ∧ state = PAGECACHE_PAGESTATE_NEW) ∨
  (old_state = PAGECACHE_PAGESTATE_NEW ∧ state = PAGECACHE_PAGESTATE_ACTIVE) ∨
  (old_state = PAGECACHE_PAGESTATE_NEW ∧ state = PAGECACHE_PAGESTATE_FREE) ∨
  (old_state = PAGECACHE_PAGESTATE_ACTIVE ∧ state = PAGECACHE_PAGESTATE_FREE)

instance (a b : Nat) : Decidable (legal_transition a b) := by
  unfold legal_transition; infer_instance

/-- What a test observes of an outcome: the caller completions applied so
far, the requests the device has not answered, and for each indexed page its
range, its state and its completions queue. -/
def observe (r : Except abort world) :
    Except abort (List (Nat × status) × List block_req ×
      List (range × Nat × List status_handler)) :=
  match r with
  | .error e => .error e
  | .ok w => .ok (w.fired, w.pending,
      w.pc.pages.map (fun p => ((w.page p).node_r, page_state (w.page p), (w.page p).completions)))

/-- The empty example cache over a device whose reads fail at once. -/
def failing_read_world : world :=
  { example_world with read_policy := block_policy.sync (timm "I/O error") }

/-- Two reads of the first page in a row, with completions 1 and 2, over
the device whose reads fail. -/
def read_after_failed_fill (fuel : Nat) : Except abort world :=
  match sg_read fuel 0 (irange 0 4) 1 failing_read_world with
  | .error e => .error e
  | .ok w1 => sg_read fuel 1 (irange 0 4) 2 w1

/-- Two worlds with the same cache handle, the same number of descriptors,
the same scatter-gather lists, and in every descriptor the same packed state
word, the same range and the same reference count. -/
def same_core (w w1 : world) : Prop :=
  w1.pc = w.pc ∧ w1.npages = w.npages ∧ w1.sg = w.sg ∧
    ∀ p, (w1.page p).state_phys = (w.page p).state_phys ∧
      (w1.page p).node_r = (w.page p).node_r ∧ (w1.page p).refcount = (w.page p).refcount

/-- A property of worlds that only looks at what `same_core` compares. -/
def stable (P : world → Prop) : Prop := ∀ w w1, same_core w w1 → P w → P w1

/-- A closure application that keeps a property of worlds. -/
def ap_preserves (P : world → Prop)
    (ap : status_handler → status → world → Except abort world) : Prop :=
  ∀ sh s w w1, ap sh s w = .ok w1 → P w → P w1

/-- A property of worlds that every completed state change to Reading, to
New and to Active keeps: the state changes of the fill, of the fill
completion and of the touch. -/
def set_state_preserves (P : world → Prop) : Prop :=
  ∀ pp state w w1,
    (state = PAGECACHE_PAGESTATE_READING ∨ state = PAGECACHE_PAGESTATE_NEW ∨
      state = PAGECACHE_PAGESTATE_ACTIVE) →
    set_page_state_cache_locked pp state w = .ok w1 → P w → P w1

/-- The list membership of page `p` matches its state: it is linked once on
the list of its state when that is Free, New, Active or Dirty, and on no
other list; in every other state it is on no list. -/
def linked_ok (w : world) (p : Nat) : Prop :=
  w.pc.free.count p = (if page_state (w.page p) = PAGECACHE_PAGESTATE_FREE then 1 else 0) ∧
  w.pc.new.count p = (if page_state (w.page p) = PAGECACHE_PAGESTATE_NEW then 1 else 0) ∧
  w.pc.active.count p = (if page_state (w.page p) = PAGECACHE_PAGESTATE_ACTIVE then 1 else 0) ∧
  w.pc.dirty.count p = (if page_state (w.page p) = PAGECACHE_PAGESTATE_DIRTY then 1 else 0)

/-- No descriptor has been allocated beyond `npages`: the places of the
store from there on hold a state that is none of the six. -/
def store_ok (w : world) : Prop :=
  ∀ p, w.npages ≤ p → 5 < page_state (w.page p)

/-- The invariant I1 on every page, over a well-formed descriptor store. -/
def lists_invariant (w : world) : Prop :=
  (∀ p, linked_ok w p) ∧ store_ok w

/-- The physical frame number of every buffer the backed heap hands out fits
below the state bits of the packed word. -/
def phys_ok (w : world) : Prop :=
  ∀ n, w.fresh_phys n >>> w.pc.page_order < 2 ^ PAGECACHE_PAGESTATE_SHIFT

/-- The world of an outcome, or `d` when the kernel stopped. -/
def world_of (r : Except abort world) (d : world) : world :=
  match r with
  | .ok w => w
  | .error _ => d

/-- The world of an outcome that carries a result, or `d` when the kernel
stopped. -/
def world_of_result {α : Type} (r : Except abort (α × world)) (d : world) : world :=
  match r with
  | .ok (_, w) => w
  | .error _ => d

/-- The handlers of a list applied one after the other, in order, each once,
to the status `s`. -/
def apply_all (ap : status_handler → status → world → Except abort world) (s : status) :
    List status_handler → world → Except abort world
  | [], w => .ok w
  | sh :: rest, w =>
    match ap sh s w with
    | .error e => .error e
    | .ok w1 => apply_all ap s rest w1

/-- The example cache over a device that answers later. -/
def deferred_world : world :=
  { example_world with
    read_policy := block_policy.deferred, write_policy := block_policy.deferred }

/-- The example cache after `sg_read` of `[0, 4)` over the deferred device:
page 0 is in Reading and the merge handler of the read waits in its queue. -/
def reading_world : world :=
  world_of (sg_read 4 0 (irange 0 4) 1 deferred_world) deferred_world

/-- The example cache after a write of the whole page `[4, 8)`: page 0 holds
the range `[4, 8)` and is in state Alloc. -/
def written_world : world :=
  world_of (write 4 [170, 171, 172, 173] (irange 2 4) 1 example_world) example_world

/-- The block read a fill of page `pp` hands to the device. -/
def fill_request (w : world) (pp : Nat) : block_req :=
  ⟨false, pp, 0,
    irange ((w.page pp).node_r.start >>> w.pc.block_order)
      (min (w.page pp).node_r.end_ w.pc.length >>> w.pc.block_order),
    status_handler.read_page_complete pp⟩

/-- The world in which a fill of the Alloc page `pp` hands its block read to
the device: `sh` is queued, the state is Reading, and the part of the buffer
past the end of the backing store is zeroed. -/
def fill_prepared (w : world) (pp : Nat) (sh : status_handler) : world :=
  let w1 := set_page w pp { w.page pp with completions := (w.page pp).completions ++ [sh] }
  let w2 := set_page w1 pp { w1.page pp with state_phys :=
    (((w1.page pp).state_phys &&& MASK PAGECACHE_PAGESTATE_SHIFT) |||
      ((PAGECACHE_PAGESTATE_READING <<< PAGECACHE_PAGESTATE_SHIFT) % 2 ^ 64)) }
  let r := (w.page pp).node_r
  if r.end_ > w.pc.length then
    zero w2 pp (u64_sub w.pc.length r.start) (u64_sub r.end_ w.pc.length)
  else w2

/-- The example cache over the deferred device after `sg_read` of `[20, 24)`,
a range that starts a page past the end of the backing store of sixteen
bytes: the fill of page 0, for `[20, 24)`, has been issued. -/
def past_end_world : world :=
  world_of (sg_read 4 0 (irange 20 24) 1 deferred_world) deferred_world

/-- The range `r` is a page of the cache: `[k * page_size, (k + 1) * page_size)`. -/
def page_aligned (pc : pagecache) (r : range) : Prop :=
  ∃ k, r.start = k * pagecache_pagesize pc ∧ r.end_ = (k + 1) * pagecache_pagesize pc

/-- The invariants P2 and P1 of the index: the range of every indexed page is
a page of the cache, and the ranges of the indexed pages are pairwise
disjoint. -/
def index_invariant (w : world) : Prop :=
  (∀ p ∈ w.pc.pages, page_aligned w.pc (w.page p).node_r) ∧
  w.pc.pages.Pairwise (fun a b => range_overlaps (w.page a).node_r (w.page b).node_r = false)

/-- The index is well formed: the indexed pages and the pages on the Free
list are allocated descriptors, no page on the Free list is indexed, and the
page order is that of a 64-bit page size. -/
def index_wf (w : world) : Prop :=
  (∀ p ∈ w.pc.pages, p < w.npages) ∧ (∀ p ∈ w.pc.free, p ∉ w.pc.pages ∧ p < w.npages) ∧
    w.pc.page_order < 64

/-- The world `w` has the index, the page order, the descriptors' ranges and
the number of descriptors of `w0`, and no page on its Free list that `w0`
has not. -/
def index_frame (w0 w : world) : Prop :=
  w.pc.pages = w0.pc.pages ∧ w.pc.page_order = w0.pc.page_order ∧ w.npages = w0.npages ∧
    (∀ p, (w.page p).node_r = (w0.page p).node_r) ∧ (∀ x ∈ w.pc.free, x ∈ w0.pc.free)

/-- The part of `allocate_pagecache_page_cache_locked` before the label
`pp_insert`: a descriptor taken from the Free list, or a fresh one, or none
when a heap refuses. -/
def allocate_descriptor (w : world) : Except abort (Option Nat × world) :=
  match w.pc.free with
  | l :: _ =>
    let w1 := { w with pc := list_delete w.pc l }
    match set_page_state_cache_locked l PAGECACHE_PAGESTATE_ALLOC w1 with
    | .error e => .error e
    | .ok w2 => .ok (some l, refcount_reserve w2 l)
  | [] =>
    if w.backed_avail = 0 then .ok (none, w)
    else
      let w1 := { w with backed_avail := w.backed_avail - 1 }
      if w1.h_avail = 0 then .ok (none, { w1 with backed_avail := w1.backed_avail + 1 })
      else
        let w2 := { w1 with h_avail := w1.h_avail - 1 }
        if w2.h_avail = 0 then
          .ok (none, { w2 with h_avail := w2.h_avail + 1, backed_avail := w2.backed_avail + 1 })
        else
          let w3 := { w2 with h_avail := w2.h_avail - 1 }
          let pp := w3.npages
          let pg : pagecache_page :=
            { state_phys :=
                ((PAGECACHE_PAGESTATE_ALLOC <<< PAGECACHE_PAGESTATE_SHIFT) % 2 ^ 64) |||
                  (w3.fresh_phys pp >>> w3.pc.page_order)
              node_r := (w3.page pp).node_r
              kvirt := w3.fresh_kvirt pp
              refcount := 1
              completions := [] }
          .ok (some pp, set_page { w3 with npages := w3.npages + 1 } pp pg)

/-- The world after the descriptor `pp`, given the range `r`, has been put
into the index. -/
def inserted (w : world) (pp : Nat) (r : range) : world :=
  { set_page w pp { w.page pp with node_r := r } with
    pc := { w.pc with
      pages := (rangemap_place (set_page w pp { w.page pp with node_r := r }).page pp
        w.pc.pages) } }

/-- The invariant of the loops of the gap handlers over the gap `g`, with
`offset` the loop variable: the index invariants hold, `offset` is a
multiple of the page size `ps` with `g.start` below `offset + ps`, and no
indexed page meets the rest `[max offset g.start, g.end)` of the gap. -/
def gap_invariant (g : range) (ps : Nat) (offset : Nat) (w : world) : Prop :=
  index_invariant w ∧ index_wf w ∧ pagecache_pagesize w.pc = ps ∧ offset % ps = 0 ∧
    g.start < offset + ps ∧
    ∀ n ∈ w.pc.pages,
      range_overlaps (w.page n).node_r (irange (max offset g.start) g.end_) = false

/-- The outcome is not a failed insertion assertion, and a world it ends in
satisfies the index invariants. -/
def keeps_index (res : Except abort world) : Prop :=
  res ≠ .error abort.assert_rangemap_insert ∧
    ∀ w1, res = .ok w1 → index_invariant w1 ∧ index_wf w1

/-- The example cache after `sg_read` of `[4, 8)`: page 0, for `[4, 8)`, is
indexed. -/
def one_page_world : world :=
  world_of (sg_read 4 0 (irange 4 8) 1 example_world) example_world

/-- The world after a handler of the merge `m` has been applied to `s` and
the count of the merge has been taken down; the completion of the merge is
not applied here. -/
def merge_done (w : world) (m : Nat) (s : status) : world :=
  { w with merges := fun i =>
      if i = m then
        { w.merges m with
          count := (w.merges m).count - 1
          last_status := if is_ok s then (w.merges m).last_status
            else if is_ok (w.merges m).last_status then s else (w.merges m).last_status }
      else w.merges i }

/-- The world after a request has been logged in `issued`. -/
def logged (w : world) (req : block_req) : world :=
  { w with issued := w.issued ++ [req] }

/-- The block write of `pagecache_write_page_internal_page_locked`. -/
def write_request (w : world) (pp : Nat) (q : range) (sh : status_handler) : block_req :=
  ⟨true, pp,
    u64_sub (range_intersection q (w.page pp).node_r).start (w.page pp).node_r.start,
    range_rshift (range_intersection q (w.page pp).node_r) w.pc.block_order, sh⟩

/-- The world after the copy of `pagecache_write_page_internal_page_locked`
and after a device that answers at once with STATUS_OK has stored the
blocks. -/
def written_through (w : world) (pp : Nat) (buf : List Nat) (q : range) (sh : status_handler) :
    world :=
  let w1 := runtime_memcpy w pp
    (u64_sub (range_intersection q (w.page pp).node_r).start (w.page pp).node_r.start) buf
    (u64_sub (range_intersection q (w.page pp).node_r).start q.start)
    (range_span (range_intersection q (w.page pp).node_r))
  block_transfer (logged w1 (write_request w pp q sh)) (write_request w pp q sh)

/-- The bytes the entries of a scatter-gather list present, in order: each
entry presents `length` bytes of the buffer of its page, from `offset` on. -/
def sg_bytes (w : world) : List sg_buf → List Nat
  | [] => []
  | e :: es =>
    (List.range e.length).map (fun k => (w.page e.pp).kvirt (e.offset + k)) ++ sg_bytes w es

/-- The pages of `l` are consecutive pages of `ps` bytes, the first from `o`
on, the last up to `o_end`. -/
def page_run (w : world) (ps : Nat) : Nat → Nat → List Nat → Prop
  | o, o_end, [] => o = o_end
  | o, o_end, p :: l => (w.page p).node_r = irange o (o + ps) ∧ page_run w ps (o + ps) o_end l

/-- What neither a write nor a read changes in a cache with an empty Free
list: the orders, the length of the backing store, the way the device
answers, the frames of the backed heap, and the Free list. -/
def settings (w : world) :
    Nat × Nat × Nat × block_policy × block_policy × (Nat → Nat) × List Nat :=
  (w.pc.page_order, w.pc.block_order, w.pc.length, w.read_policy, w.write_policy,
    w.fresh_phys, w.pc.free)

/-- What the handling of the page `pp` leaves as it is: the settings, the
index, the heaps, the number of descriptors and of merges, the log of the
completions applied, every other descriptor, and the range of `pp`. -/
def light_frame (w w2 : world) (pp : Nat) : Prop :=
  settings w2 = settings w ∧ w2.pc.pages = w.pc.pages ∧ w2.npages = w.npages ∧
    w2.backed_avail = w.backed_avail ∧ w2.h_avail = w.h_avail ∧ w2.nmerges = w.nmerges ∧
    w2.fired = w.fired ∧ (∀ p, p ≠ pp → w2.page p = w.page p) ∧
    (w2.page pp).node_r = (w.page pp).node_r

/-- The world after `set_page_state_cache_locked` has moved the Reading page
`pp` to New. -/
def moved_to_new (w : world) (pp : Nat) : world :=
  set_page { w with pc := { w.pc with new := w.pc.new ++ [pp] } } pp
    { w.page pp with state_phys :=
        (((w.page pp).state_phys &&& MASK PAGECACHE_PAGESTATE_SHIFT) |||
          ((PAGECACHE_PAGESTATE_NEW <<< PAGECACHE_PAGESTATE_SHIFT) % 2 ^ 64)) }

/-- The world after `set_page_state_cache_locked` has moved the New page `pp`
to Active. -/
def moved_to_active (w : world) (pp : Nat) : world :=
  set_page { w with pc :=
      { list_delete w.pc pp with active := (list_delete w.pc pp).active ++ [pp] } } pp
    { w.page pp with state_phys :=
        (((w.page pp).state_phys &&& MASK PAGECACHE_PAGESTATE_SHIFT) |||
          ((PAGECACHE_PAGESTATE_ACTIVE <<< PAGECACHE_PAGESTATE_SHIFT) % 2 ^ 64)) }

/-- The world after `read_page_complete` has cleared the queue of `pp`. -/
def queue_cleared (w : world) (pp : Nat) : world :=
  set_page w pp { w.page pp with completions := [] }

/-- The byte `d` lies in the range `r` and in the range `q`. -/
def covered (r q : range) (d : Nat) : Prop :=
  r.start ≤ d ∧ q.start ≤ d ∧ d < r.end_ ∧ d < q.end_

/-- The page `pp` and the bytes `q` of a transfer: the range of the page is
not empty and ends below `2 ^ 64`, it meets `q`, `q` ends within the backing
store, and the ends of both are multiples of the block size. -/
def page_geometry (w : world) (q : range) (pp : Nat) : Prop :=
  (w.page pp).node_r.start < (w.page pp).node_r.end_ ∧ (w.page pp).node_r.end_ < 2 ^ 64 ∧
    q.start < q.end_ ∧ (w.page pp).node_r.start < q.end_ ∧ q.start < (w.page pp).node_r.end_ ∧
    q.end_ ≤ w.pc.length ∧ w.pc.length < 2 ^ 64 ∧ w.pc.block_order < 64 ∧
    (w.page pp).node_r.start % 2 ^ w.pc.block_order = 0 ∧
    (w.page pp).node_r.end_ % 2 ^ w.pc.block_order = 0 ∧
    q.start % 2 ^ w.pc.block_order = 0 ∧ q.end_ % 2 ^ w.pc.block_order = 0

/-- The world after the fill of the Alloc page `pp`, with `sh` queued, has
been answered at once by the device: the page is Reading and its buffer
holds the blocks read. -/
def filled (w : world) (pp : Nat) (sh : status_handler) : world :=
  block_transfer (logged (fill_prepared w pp sh) (fill_request w pp)) (fill_request w pp)

/-- After a write of `buf` to the bytes `q`, the indexed page `p` holds its
part: the page meets `q`, it is Alloc or New with an empty queue, the bytes
of `buf` that fall into the page are on the backing store, and they are in
the buffer of the page when the page is New. -/
def page_holds (w : world) (q : range) (buf : List Nat) (p : Nat) : Prop :=
  page_geometry w q p ∧
    (page_state (w.page p) = PAGECACHE_PAGESTATE_ALLOC ∨
      page_state (w.page p) = PAGECACHE_PAGESTATE_NEW) ∧
    (w.page p).completions = [] ∧
    (∀ d, covered (w.page p).node_r q d → w.disk d = buf.getD (d - q.start) 0) ∧
    (page_state (w.page p) = PAGECACHE_PAGESTATE_NEW →
      ∀ d, covered (w.page p).node_r q d →
        (w.page p).kvirt (d - (w.page p).node_r.start) = buf.getD (d - q.start) 0)

/-- The bytes of `buf`, a buffer for the bytes `q`, from the offset `x` of
the backing store up to the offset `y`. -/
def buffer_slice (q : range) (buf : List Nat) (x y : Nat) : List Nat :=
  (List.range' x (y - x)).map (fun d => buf.getD (d - q.start) 0)

/-- The setting of a write and of the read that follows it: the device
answers reads and writes at once with STATUS_OK, the Free list is empty, the
frames of the backed heap fit the packed word, a block is not larger than a
page, and the bytes `q` are a range of whole blocks, not empty, within a
backing store that ends a page below `2 ^ 64`. -/
def sync_setting (w : world) (q : range) : Prop :=
  w.read_policy = block_policy.sync STATUS_OK ∧ w.write_policy = block_policy.sync STATUS_OK ∧
    w.pc.free = [] ∧ phys_ok w ∧ w.pc.block_order ≤ w.pc.page_order ∧ w.pc.page_order < 64 ∧
    q.start < q.end_ ∧ q.end_ ≤ w.pc.length ∧ w.pc.length + 2 ^ w.pc.page_order ≤ 2 ^ 64 ∧
    q.start % 2 ^ w.pc.block_order = 0 ∧ q.end_ % 2 ^ w.pc.block_order = 0

/-- The invariant of the loop of the write gap handler over the gap `q` of an
index that was empty, with `offset` the loop variable and `w0` the world the
loop started in: the indexed pages are the pages from `a` to `offset`, each
holds its part of `buf`, the heaps have a page for each page still to come,
and the merge, the log of the completions and the lists are as in `w0`. -/
def write_invariant (q : range) (buf : List Nat) (m : Nat) (w0 : world) (ps a offset : Nat)
    (w : world) : Prop :=
  settings w = settings w0 ∧ w.merges m = w0.merges m ∧ w.fired = w0.fired ∧ w.sg = w0.sg ∧
    page_run w ps a offset w.pc.pages ∧
    (∀ p ∈ w.pc.pages, p < w.npages ∧ page_holds w q buf p) ∧
    (∃ k, q.end_ ≤ offset + k * ps ∧ k ≤ w.backed_avail ∧ 2 * k ≤ w.h_avail) ∧
    offset % ps = 0 ∧ q.start < offset + ps

/-- A write of `buf` to the blocks `blocks`, with the completion `c1`, then a
read of the same bytes into the list `sg`, with the completion `c2`: the
bytes the list presents after the read, and the completions applied, with
their statuses. -/
def round_trip (fuel : Nat) (buf : List Nat) (blocks : range) (sg c1 c2 : Nat) (w : world) :
    Except abort (List Nat × List (Nat × status)) :=
  match write fuel buf blocks c1 w with
  | .error e => .error e
  | .ok w1 =>
    match sg_read fuel sg (range_lshift blocks w1.pc.block_order) c2 w1 with
    | .error e => .error e
    | .ok w2 => .ok (sg_bytes w2 (w2.sg sg), w2.fired)

/-- An empty cache for examples over a backing store of fifteen bytes: pages
of four bytes, blocks of two bytes. -/
def short_world : world := initial_world example_env 15 2 1

/-- The example cache over the deferred device after `sg_read` of `[0, 4)`
and then a write of the bytes 170, 171 to the block `[0, 1)`: page 0 is in
Reading, and the deferred write closure of the write waits in its queue,
behind the merge handler of the read. -/
def deferred_write_world : world :=
  world_of (write 4 [170, 171] (irange 0 1) 2 reading_world) reading_world

/-- The empty example cache with a backed heap that grants one page. -/
def one_page_heap_world : world :=
  initial_world { example_env with backed_avail := 1 } 16 2 1

/-- What an allocation failure in a gap handler leaves of the world `w` it
happened in: the cache handle with its index and lists, the descriptors, the
requests issued and pending, the scatter-gather lists, the completions
applied and the heaps are as they were, the merge `m` has its count again,
and its status is an error: "failed to allocate pagecache_page" when it was
OK before. -/
def allocation_failed (m : Nat) (w w2 : world) : Prop :=
  w2.pc = w.pc ∧ w2.page = w.page ∧ w2.npages = w.npages ∧ w2.issued = w.issued ∧
    w2.pending = w.pending ∧ w2.sg = w.sg ∧ w2.fired = w.fired ∧
    w2.backed_avail = w.backed_avail ∧ w2.h_avail = w.h_avail ∧
    (w2.merges m).count = (w.merges m).count ∧
    is_ok (w2.merges m).last_status = false ∧
    (is_ok (w.merges m).last_status = true →
      (w2.merges m).last_status = timm "failed to allocate pagecache_page")

/-- The example cache with one descriptor, page 0, linked on the Free list,
whose packed word holds the state Free over the frame number 12345. -/
def framed_page_world : world :=
  { set_page example_world 0 ⟨12345, irange 0 0, fun _ => 0, 0, []⟩ with
    pc := { example_world.pc with free := [0] }
    npages := 1 }

/-! ## `runtime/vector.h` and `runtime/format.c`

A pointer (`void *`) and a `bytes` count are 64-bit words, an `int` is an
integer, a byte of memory is a natural number below 256. -/

/-- The conversion of an `int` to a 64-bit word, as C does it where an `int`
meets a `bytes` or a `u64` in an operation. -/
def u64_of_int (i : Int) : Nat := (i % 2 ^ 64).toNat

/-- The conversion of a 64-bit word to an `int`: the low 32 bits, read as a
two's complement number. -/
def int_of_u64 (x : Nat) : Int := (((x + 2 ^ 31) % 2 ^ 32 : Nat) : Int) - 2 ^ 31

/-- Modelled from the spec: the runtime's `buffer` (`buffer.h`) is not among
the sources.  A buffer is a window `[start, end)` into `contents`, an
allocation of `length` bytes taken from the heap `h`; the heap is given by
the memory it hands out for a size. -/
structure buffer where
  contents : Nat → Nat
  start : Nat
  end_ : Nat
  length : Nat
  h : Nat → Nat → Nat

/-- The type `vector` is `buffer` (`typedef buffer vector`). -/
abbrev vector := buffer

/-- Modelled from the spec: `buffer_length` of the missing `buffer.h`, the
number of bytes in the window. -/
def buffer_length (b : buffer) : Nat := u64_sub b.end_ b.start

/-- Modelled from the spec: `buffer_extend` of the missing `buffer.h` makes
room for `len` more bytes after `end`: when the allocation is too short, the
window moves to the front of a new allocation of twice the bytes needed. -/
def buffer_extend (b : buffer) (len : Nat) : buffer :=
  if b.length < u64_add b.end_ len then
    let used := u64_sub b.end_ b.start
    let length := (2 * u64_add used len) % 2 ^ 64
    { b with
      contents := fun i => if i < used then b.contents (b.start + i) else b.h length i
      start := 0
      end_ := used
      length := length }
  else b

/-- Modelled from the spec: `extend_total` of the missing `buffer.h` makes
`end` at least `offset`, the bytes added to the window being zero. -/
def extend_total (b : buffer) (offset : Nat) : buffer :=
  if b.end_ < offset then
    let b1 := buffer_extend b (u64_sub offset b.end_)
    { b1 with
      contents := fun i => if b1.end_ ≤ i ∧ i < offset then 0 else b1.contents i
      end_ := offset }
  else b

/-- Modelled from the spec: `allocate_buffer` of the missing `buffer.h`, an
empty buffer over an allocation of `length` bytes. -/
def allocate_buffer (h : Nat → Nat → Nat) (length : Nat) : buffer :=
  { contents := h length, start := 0, end_ := 0, length := length, h := h }

/-- Modelled from the spec: `push_character` of the missing `buffer.h` puts
one character (a `u8`) at the end of the buffer. -/
def push_character (b : buffer) (x : Nat) : buffer :=
  let b1 := buffer_extend b 1
  { b1 with
    contents := fun i => if i = b1.end_ then x % 256 else b1.contents i
    end_ := u64_add b1.end_ 1 }

/-- The bytes in the window of a buffer, first to last. -/
def buffer_bytes (b : buffer) : List Nat :=
  (List.range (buffer_length b)).map (fun i => b.contents (b.start + i))

/-- The call `runtime_memcpy(&res, contents + off, sizeof(void *))`: the
pointer held by the eight bytes at `off`, low byte first. -/
def read_pointer (contents : Nat → Nat) (off : Nat) : Nat :=
  ((List.range 8).map (fun k => contents (off + k) * 256 ^ k)).sum

/-- The call `runtime_memcpy(contents + off, &value, sizeof(void *))`: the
eight bytes at `off` become those of `value`, low byte first. -/
def write_pointer (contents : Nat → Nat) (off value : Nat) : Nat → Nat :=
  fun i => if off ≤ i ∧ i < off + 8 then (value / 256 ^ (i - off)) % 256 else contents i

/-- The function `vector_get`. -/
def vector_get (v : vector) (offset : Int) : Nat :=
  let base := u64_add v.start (u64_of_int (offset * 8))
  if u64_add base 8 > v.end_ then 0
  else read_pointer v.contents base

/-- The function `vector_set`. -/
def vector_set (v : vector) (offset : Int) (value : Nat) : vector :=
  let v1 := extend_total v (u64_of_int ((offset + 1) * 8))
  { v1 with contents := write_pointer v1.contents (u64_of_int (offset * 8)) value }

/-- The function `vector_length`. -/
def vector_length (v : vector) : Int := int_of_u64 (buffer_length v / 8)

/-- The function `allocate_vector`. -/
def allocate_vector (h : Nat → Nat → Nat) (length : Int) : vector :=
  allocate_buffer h (u64_of_int (length * 8))

/-- The function `vector_push`. -/
def vector_push (v : vector) (i : Nat) : vector :=
  let v1 := buffer_extend v 8
  { v1 with
    contents := write_pointer v1.contents v1.end_ i
    end_ := u64_add v1.end_ 8 }

/-- The function `vector_pop`: the value returned and the vector left. -/
def vector_pop (v : vector) : Nat × vector :=
  if u64_sub v.end_ v.start < 8 then (0, v)
  else (read_pointer v.contents v.start, { v with start := u64_add v.start 8 })

/-- Successive calls of `vector_push`, one for each element of a list. -/
def push_all (v : vector) (xs : List Nat) : vector := xs.foldl vector_push v

/-- Successive calls of `vector_pop`: the values returned, in the order of
the calls, and the vector left. -/
def pop_all : Nat → vector → List Nat × vector
  | 0, v => ([], v)
  | n + 1, v =>
    let r := vector_pop v
    let rest := pop_all n r.2
    (r.1 :: rest.1, rest.2)

/-- The string `hex_digits`, "0123456789abcdef", as character codes. -/
def hex_digits : List Nat :=
  [48, 49, 50, 51, 52, 53, 54, 55, 56, 57, 97, 98, 99, 100, 101, 102]

/-- Subtraction of `int`s.  C leaves the overflow of a signed subtraction
undefined; the compiled code wraps at 32 bits, and so does this. -/
def int_sub (a b : Int) : Int := (a - b + 2 ^ 31) % 2 ^ 32 - 2 ^ 31

/-- The function `format_number`; `none` when the `fuel`, a bound on the
depth of the recursion, runs out, or when the division is by zero.  The
arguments `base` and `pad` are `int`s, and `pad - 1` is the subtraction of
`int`s. -/
def format_number : Nat → buffer → Nat → Int → Int → Option buffer
  | 0, _, _, _, _ => none
  | fuel + 1, s, x, base, pad =>
    if 0 < x ∨ 0 < pad then
      if u64_of_int base = 0 then none
      else
        match format_number fuel s (x / u64_of_int base) base (int_sub pad 1) with
        | none => none
        | some s1 => some (push_character s1 (hex_digits.getD (x % u64_of_int base) 0))
    else some s

/-- The buffer is in order: the window lies inside the allocation, whose
length is below `2 ^ 63`. -/
def buffer_ok (b : buffer) : Prop :=
  b.start ≤ b.end_ ∧ b.end_ ≤ b.length ∧ b.length < 2 ^ 63

/-- The vector `v` holds the pointers `xs`, in this order. -/
def vector_holds (v : vector) (xs : List Nat) : Prop :=
  buffer_ok v ∧ v.end_ = v.start + 8 * xs.length ∧
    ∀ k, k < xs.length → read_pointer v.contents (v.start + 8 * k) = xs.getD k 0

/-- The heap of the examples: its memory holds the byte 170 everywhere. -/
def example_heap : Nat → Nat → Nat := fun _ _ => 170

/-- The example vector: 17, 34 and 51 pushed onto a new vector, then one
element popped. -/
def popped_vector : vector :=
  (vector_pop (push_all (allocate_vector example_heap 4) [17, 34, 51])).2

/-- The base-`b` representation of `x` with `pad`: the digits of `x`, most
significant first, as characters of `hex_digits`, after as many characters
'0' as make `pad` characters in all. -/
def padded_digits (x b : Nat) (pad : Int) : List Nat :=
  List.replicate (pad.toNat - (Nat.digits b x).length) 48 ++
    (Nat.digits b x).reverse.map (fun k => hex_digits.getD k 0)

instance (b : buffer) : Decidable (buffer_ok b) := by
  unfold buffer_ok; infer_instance

/-! ## Lemmas on the packed state word -/

theorem mask_shift_eq : MASK PAGECACHE_PAGESTATE_SHIFT = 2 ^ 61 - 1 := by
  decide

/-- Packing a state below eight over the low bits of a word and reading the
state back gives that state. -/
theorem page_state_pack (x state : Nat) (h : state < 8) :
    ((x &&& MASK PAGECACHE_PAGESTATE_SHIFT) |||
      ((state <<< PAGECACHE_PAGESTATE_SHIFT) % 2 ^ 64)) >>> PAGECACHE_PAGESTATE_SHIFT = state := by
  rw [mask_shift_eq, Nat.and_pow_two_sub_one_eq_mod]
  have hs : (state <<< PAGECACHE_PAGESTATE_SHIFT) % 2 ^ 64 = 2 ^ 61 * state := by
    simp only [PAGECACHE_PAGESTATE_SHIFT, Nat.shiftLeft_eq]
    omega
  rw [hs, Nat.lor_comm]
  have hlt : x % 2 ^ 61 < 2 ^ 61 := Nat.mod_lt _ (by norm_num)
  rw [← Nat.mul_add_lt_is_or hlt state]
  simp only [PAGECACHE_PAGESTATE_SHIFT, Nat.shiftRight_eq_div_pow]
  omega

/-- The descriptor of `pp` after `set_page`. -/
theorem set_page_same (w : world) (pp : Nat) (pg : pagecache_page) :
    (set_page w pp pg).page pp = pg := by
  simp [set_page]

/-- The descriptors of the other pages after `set_page`. -/
theorem set_page_other (w : world) (pp p : Nat) (pg : pagecache_page) (h : p ≠ pp) :
    (set_page w pp pg).page p = w.page p := by
  simp [set_page, h]

/-- The list part of a state change succeeds exactly on the legal
transitions of the six states. -/
theorem set_page_state_lists_ok_iff (pc : pagecache) (pp old_state state : Nat)
    (ho : old_state ≤ 5) (hs : state ≤ 5) :
    (∃ pc1, set_page_state_lists pc pp old_state state = .ok pc1) ↔
      legal_transition old_state state := by
  interval_cases old_state <;> interval_cases state <;>
    simp [set_page_state_lists, legal_transition, PAGECACHE_PAGESTATE_FREE,
      PAGECACHE_PAGESTATE_ALLOC, PAGECACHE_PAGESTATE_READING, PAGECACHE_PAGESTATE_NEW,
      PAGECACHE_PAGESTATE_ACTIVE, PAGECACHE_PAGESTATE_DIRTY]

/-- A state change that completes leaves the requested state in the page,
keeps the other fields of the page and the other pages, and changes the
cache by the list part alone. -/
theorem set_page_state_ok_inv (pp state : Nat) (w w1 : world)
    (h : set_page_state_cache_locked pp state w = .ok w1) :
    ∃ pc1, set_page_state_lists w.pc pp (page_state (w.page pp)) state = .ok pc1 ∧
      w1 = set_page { w with pc := pc1 } pp
        { w.page pp with state_phys :=
            (((w.page pp).state_phys &&& MASK PAGECACHE_PAGESTATE_SHIFT) |||
              ((state <<< PAGECACHE_PAGESTATE_SHIFT) % 2 ^ 64)) } := by
  unfold set_page_state_cache_locked at h
  cases hl : set_page_state_lists w.pc pp (page_state (w.page pp)) state with
  | error e => simp [hl] at h
  | ok pc1 =>
    simp [hl] at h
    exact ⟨pc1, rfl, h.symm⟩

/-- The list part of a state change only succeeds for a state below six. -/
theorem set_page_state_lists_ok_lt (pc pc1 : pagecache) (pp old_state state : Nat)
    (h : set_page_state_lists pc pp old_state state = .ok pc1) : state < 5 := by
  unfold set_page_state_lists at h
  simp only [PAGECACHE_PAGESTATE_FREE, PAGECACHE_PAGESTATE_ALLOC, PAGECACHE_PAGESTATE_READING,
    PAGECACHE_PAGESTATE_NEW, PAGECACHE_PAGESTATE_ACTIVE] at h
  split_ifs at h <;> omega

/-- C1: `set_page_state_cache_locked` completes exactly on the six legal
transitions Free->Alloc, Alloc->Reading, Reading->New, New->Active,
New->Free and Active->Free; on every other pair of the six states (a
request for Dirty and Active->Active among them) it stops with a failed
assertion or a halt; and when it completes, `page_state` of the page is the
requested state. -/
theorem set_page_state_cache_locked_legal (w : world) (pp old_state state : Nat)
    (hold : page_state (w.page pp) = old_state) (ho : old_state ≤ 5) (hs : state ≤ 5) :
    ((∃ w1, set_page_state_cache_locked pp state w = .ok w1) ↔
        legal_transition old_state state) ∧
      (¬ legal_transition old_state state →
        set_page_state_cache_locked pp state w = .error abort.assert_old_state ∨
        set_page_state_cache_locked pp state w = .error abort.halt_bad_state) ∧
      (∀ w1, set_page_state_cache_locked pp state w = .ok w1 →
        page_state (w1.page pp) = state) := by
  refine ⟨?_, ?_, ?_⟩
  · rw [← set_page_state_lists_ok_iff w.pc pp old_state state ho hs]
    constructor
    · rintro ⟨w1, h1⟩
      obtain ⟨pc1, h2, _⟩ := set_page_state_ok_inv pp state w w1 h1
      exact ⟨pc1, hold ▸ h2⟩
    · rintro ⟨pc1, h1⟩
      unfold set_page_state_cache_locked
      simp [hold, h1]
  · intro hn
    unfold set_page_state_cache_locked
    rw [hold]
    interval_cases old_state <;> interval_cases state <;>
      simp_all [set_page_state_lists, legal_transition, PAGECACHE_PAGESTATE_FREE,
        PAGECACHE_PAGESTATE_ALLOC, PAGECACHE_PAGESTATE_READING, PAGECACHE_PAGESTATE_NEW,
        PAGECACHE_PAGESTATE_ACTIVE, PAGECACHE_PAGESTATE_DIRTY]
  · intro w1 h1
    obtain ⟨pc1, _, h3⟩ := set_page_state_ok_inv pp state w w1 h1
    rw [h3, set_page_same]
    exact page_state_pack _ _ (by omega)

theorem set_page_state_cache_locked_legal_witness :
    (page_state (free_page_world.page 0) = 0 ∧ 0 ≤ 5 ∧ 1 ≤ 5) ∧
    (((∃ w1, set_page_state_cache_locked 0 1 free_page_world = .ok w1) ↔ legal_transition 0 1) ∧
      (¬ legal_transition 0 1 →
        set_page_state_cache_locked 0 1 free_page_world = .error abort.assert_old_state ∨
        set_page_state_cache_locked 0 1 free_page_world = .error abort.halt_bad_state) ∧
      (∀ w1, set_page_state_cache_locked 0 1 free_page_world = .ok w1 →
        page_state (w1.page 0) = 1)) :=
  ⟨⟨by decide, by decide, by decide⟩,
    set_page_state_cache_locked_legal free_page_world 0 0 1 (by decide) (by decide) (by decide)⟩

/-- C2 at a failing input: on an empty cache whose device fails the fill of
page `[0, 4)` (and applies the fill's handler once), the first read fires its
completion once, with the error; a second read of the same range then fires
no completion at all: nothing is pending at the device, the page is still in
Reading and the second read's merge handler sits in its queue. -/
theorem read_after_failed_fill_never_completes (fuel : Nat) :
    observe (read_after_failed_fill (fuel + 4)) =
      .ok ([(1, status.error ["I/O error"])], [],
        [(irange 0 4, PAGECACHE_PAGESTATE_READING, [status_handler.merge_join 1])]) := by
  rfl
/-! ## Frame lemmas: what the primitives leave alone -/

theorem same_core_refl (w : world) : same_core w w :=
  ⟨rfl, rfl, rfl, fun _ => ⟨rfl, rfl, rfl⟩⟩

theorem same_core_trans {w w1 w2 : world} (h1 : same_core w w1) (h2 : same_core w1 w2) :
    same_core w w2 :=
  ⟨h2.1.trans h1.1, h2.2.1.trans h1.2.1, h2.2.2.1.trans h1.2.2.1,
    fun p => ⟨(h2.2.2.2 p).1.trans (h1.2.2.2 p).1, (h2.2.2.2 p).2.1.trans (h1.2.2.2 p).2.1,
      (h2.2.2.2 p).2.2.trans (h1.2.2.2 p).2.2⟩⟩

theorem same_core_set_page (w : world) (pp : Nat) (pg : pagecache_page)
    (h1 : pg.state_phys = (w.page pp).state_phys) (h2 : pg.node_r = (w.page pp).node_r)
    (h3 : pg.refcount = (w.page pp).refcount) :
    same_core w (set_page w pp pg) := by
  refine ⟨rfl, rfl, rfl, fun p => ?_⟩
  by_cases hp : p = pp
  · subst hp; simp [set_page, h1, h2, h3]
  · simp [set_page, hp]

theorem same_core_zero (w : world) (pp off len : Nat) : same_core w (zero w pp off len) :=
  same_core_set_page w pp _ rfl rfl rfl

theorem same_core_memcpy (w : world) (pp off : Nat) (buf : List Nat) (src len : Nat) :
    same_core w (runtime_memcpy w pp off buf src len) :=
  same_core_set_page w pp _ rfl rfl rfl

theorem same_core_apply_merge (m : Nat) (w : world) : same_core w (apply_merge m w).2 :=
  ⟨rfl, rfl, rfl, fun _ => ⟨rfl, rfl, rfl⟩⟩

theorem same_core_block_transfer (w : world) (req : block_req) :
    same_core w (block_transfer w req) := by
  unfold block_transfer
  split
  · exact ⟨rfl, rfl, rfl, fun _ => ⟨rfl, rfl, rfl⟩⟩
  · exact same_core_set_page w _ _ rfl rfl rfl

/-! ## Closure application keeps stable properties -/

theorem block_issue_preserves (P : world → Prop) (hst : stable P)
    (ap : status_handler → status → world → Except abort world) (hap : ap_preserves P ap)
    (req : block_req) (w w1 : world) (h : block_issue ap req w = .ok w1) (hP : P w) : P w1 := by
  unfold block_issue block_answer at h
  have h0 : P { w with issued := w.issued ++ [req] } :=
    hst w _ ⟨rfl, rfl, rfl, fun _ => ⟨rfl, rfl, rfl⟩⟩ hP
  simp only at h
  split at h
  · rename_i s _
    refine hap _ _ _ _ h ?_
    split
    · exact hst _ _ (same_core_block_transfer _ _) h0
    · exact h0
  · simp only [Except.ok.injEq] at h
    subst h
    exact hst w _ ⟨rfl, rfl, rfl, fun _ => ⟨rfl, rfl, rfl⟩⟩ hP

theorem block_complete_preserves (P : world → Prop) (hst : stable P)
    (ap : status_handler → status → world → Except abort world) (hap : ap_preserves P ap)
    (k : Nat) (s : status) (w w1 : world) (h : block_complete ap k s w = .ok w1) (hP : P w) :
    P w1 := by
  unfold block_complete at h
  split at h
  · simp only [Except.ok.injEq] at h
    subst h; exact hP
  · have h0 : P { w with pending := w.pending.eraseIdx k } :=
      hst w _ ⟨rfl, rfl, rfl, fun _ => ⟨rfl, rfl, rfl⟩⟩ hP
    refine hap _ _ _ _ h ?_
    split
    · exact hst _ _ (same_core_block_transfer _ _) h0
    · exact h0

theorem merge_join_preserves (P : world → Prop) (hst : stable P)
    (ap : status_handler → status → world → Except abort world) (hap : ap_preserves P ap)
    (m : Nat) (s : status) (w w1 : world) (h : merge_join ap m s w = .ok w1) (hP : P w) :
    P w1 := by
  unfold merge_join at h
  simp only at h
  split at h
  · exact hap _ _ _ _ h (hst w _ ⟨rfl, rfl, rfl, fun _ => ⟨rfl, rfl, rfl⟩⟩ hP)
  · simp only [Except.ok.injEq] at h
    subst h
    exact hst w _ ⟨rfl, rfl, rfl, fun _ => ⟨rfl, rfl, rfl⟩⟩ hP

theorem completions_foreach_preserves (P : world → Prop)
    (ap : status_handler → status → world → Except abort world) (hap : ap_preserves P ap)
    (pp : Nat) (s : status) :
    ∀ (n i : Nat) (w w1 : world), completions_foreach ap pp s n i w = .ok w1 → P w → P w1 := by
  intro n
  induction n with
  | zero =>
    intro i w w1 h hP
    simp only [completions_foreach, Except.ok.injEq] at h
    subst h; exact hP
  | succ n ih =>
    intro i w w1 h hP
    simp only [completions_foreach] at h
    split at h
    · simp at h
    · split at h
      · simp at h
      · rename_i sh _ w2 h2
        exact ih _ _ _ h (hap _ _ _ _ h2 hP)

theorem read_page_complete_preserves (P : world → Prop) (hst : stable P)
    (hset : set_state_preserves P)
    (ap : status_handler → status → world → Except abort world) (hap : ap_preserves P ap)
    (pp : Nat) (s : status) (w w1 : world) (h : read_page_complete ap pp s w = .ok w1)
    (hP : P w) : P w1 := by
  unfold read_page_complete at h
  split at h
  · simp at h
  · split at h
    · simp at h
    · rename_i w2 h2
      split at h
      · simp at h
      · rename_i w3 h3
        simp only [Except.ok.injEq] at h
        subst h
        have hP2 : P w2 := by
          unfold read_page_complete_state at h2
          split at h2
          · simp only [Except.ok.injEq] at h2
            subst h2; exact hP
          · exact hset _ _ _ _ (Or.inr (Or.inl rfl)) h2 hP
        have hP3 : P w3 := completions_foreach_preserves P ap hap pp s _ _ _ _ h3 hP2
        exact hst _ _ (same_core_set_page _ _ _ rfl rfl rfl) hP3

theorem write_page_internal_preserves (P : world → Prop) (hst : stable P)
    (ap : status_handler → status → world → Except abort world) (hap : ap_preserves P ap)
    (pp : Nat) (buf : List Nat) (q : range) (sh : status_handler) (w w1 : world)
    (h : pagecache_write_page_internal_page_locked ap pp buf q sh w = .ok w1) (hP : P w) :
    P w1 := by
  unfold pagecache_write_page_internal_page_locked at h
  simp only at h
  split at h
  · simp at h
  · split at h
    · simp at h
    · exact block_issue_preserves P hst ap hap _ _ _ h (hst _ _ (same_core_memcpy _ _ _ _ _ _) hP)

theorem write_page_io_check_preserves (P : world → Prop) (hst : stable P)
    (ap : status_handler → status → world → Except abort world) (hap : ap_preserves P ap)
    (pp : Nat) (buf : List Nat) (q : range) (sh : status_handler) (w w1 : world)
    (h : pagecache_write_page_io_check ap pp buf q sh w = .ok w1) (hP : P w) : P w1 := by
  unfold pagecache_write_page_io_check at h
  simp only at h
  split at h
  · simp at h
  · split at h
    · simp only [Except.ok.injEq] at h
      subst h
      exact hst _ _ (same_core_set_page _ _ _ rfl rfl rfl) hP
    · exact write_page_internal_preserves P hst ap hap _ _ _ _ _ _ h hP

theorem write_page_filled_preserves (P : world → Prop) (hst : stable P)
    (ap : status_handler → status → world → Except abort world) (hap : ap_preserves P ap)
    (pp : Nat) (buf : List Nat) (q : range) (sh : status_handler) (s : status) (w w1 : world)
    (h : pagecache_write_page_filled ap pp buf q sh s w = .ok w1) (hP : P w) : P w1 := by
  unfold pagecache_write_page_filled at h
  split at h
  · exact hap _ _ _ _ h hP
  · exact write_page_io_check_preserves P hst ap hap _ _ _ _ _ _ h hP

/-- Every closure application keeps a stable property that the state changes
keep, whatever the fuel. -/
theorem apply_preserves (P : world → Prop) (hst : stable P) (hset : set_state_preserves P) :
    ∀ n, ap_preserves P (apply n) := by
  intro n
  induction n with
  | zero => intro sh s w w1 h _; simp [apply] at h
  | succ n ih =>
    intro sh s w w1 h hP
    cases sh with
    | completion c =>
      simp only [apply, Except.ok.injEq] at h
      subst h
      exact hst w _ ⟨rfl, rfl, rfl, fun _ => ⟨rfl, rfl, rfl⟩⟩ hP
    | merge_join m => exact merge_join_preserves P hst _ ih _ _ _ _ h hP
    | read_page_complete pp => exact read_page_complete_preserves P hst hset _ ih _ _ _ _ h hP
    | pagecache_write_page_filled pp buf q sh1 =>
      exact write_page_filled_preserves P hst _ ih _ _ _ _ _ _ _ h hP
    | pagecache_write_io_complete pp buf q sh1 =>
      exact write_page_internal_preserves P hst _ ih _ _ _ _ _ _ h hP

theorem fill_preserves (P : world → Prop) (hst : stable P) (hset : set_state_preserves P)
    (ap : status_handler → status → world → Except abort world) (hap : ap_preserves P ap)
    (pp : Nat) (sh : status_handler) (w w1 : world)
    (h : pagecache_page_fill_cache_locked ap pp sh w = .ok w1) (hP : P w) : P w1 := by
  unfold pagecache_page_fill_cache_locked at h
  simp only at h
  have h0 : P (set_page w pp { w.page pp with completions := (w.page pp).completions ++ [sh] }) :=
    hst _ _ (same_core_set_page _ _ _ rfl rfl rfl) hP
  split at h
  · split at h
    · simp at h
    · rename_i w2 h2
      have hP2 : P w2 := hset _ _ _ _ (Or.inl rfl) h2 h0
      refine block_issue_preserves P hst ap hap _ _ _ h ?_
      split
      · exact hst _ _ (same_core_zero _ _ _ _) hP2
      · exact hP2
  · simp only [Except.ok.injEq] at h
    subst h; exact h0

theorem touch_preserves (P : world → Prop) (hset : set_state_preserves P)
    (hact : ∀ w pp, page_state (w.page pp) = PAGECACHE_PAGESTATE_ACTIVE → P w →
      P { w with pc := { list_delete w.pc pp with
        active := (list_delete w.pc pp).active ++ [pp] } })
    (pp : Nat) (w w1 : world) (b : Bool)
    (h : pagecache_page_touch_if_filled_cache_locked pp w = .ok (b, w1)) (hP : P w) : P w1 := by
  unfold pagecache_page_touch_if_filled_cache_locked at h
  simp only at h
  split at h
  · simp only [Except.ok.injEq, Prod.mk.injEq] at h
    rw [← h.2]; exact hP
  · split at h
    · rename_i hs
      simp only [Except.ok.injEq, Prod.mk.injEq] at h
      rw [← h.2]; exact hact w pp hs hP
    · split at h
      · split at h
        · simp at h
        · rename_i w2 h2
          simp only [Except.ok.injEq, Prod.mk.injEq] at h
          rw [← h.2]; exact hset _ _ _ _ (Or.inr (Or.inr rfl)) h2 hP
      · split at h
        · simp only [Except.ok.injEq, Prod.mk.injEq] at h
          rw [← h.2]; exact hP
        · simp at h

theorem read_page_internal_preserves (P : world → Prop) (hst : stable P)
    (hset : set_state_preserves P)
    (hact : ∀ w pp, page_state (w.page pp) = PAGECACHE_PAGESTATE_ACTIVE → P w →
      P { w with pc := { list_delete w.pc pp with
        active := (list_delete w.pc pp).active ++ [pp] } })
    (hsg : ∀ w sg sgb pp, P w → P (refcount_reserve (sg_list_tail_add w sg sgb) pp))
    (ap : status_handler → status → world → Except abort world) (hap : ap_preserves P ap)
    (pp sg : Nat) (q : range) (m : Nat) (w w1 : world)
    (h : pagecache_read_page_internal_cache_locked ap pp sg q m w = .ok w1) (hP : P w) :
    P w1 := by
  unfold pagecache_read_page_internal_cache_locked at h
  simp only at h
  have h0 := hsg w sg
      ⟨pp, u64_sub (range_intersection q (w.page pp).node_r).start (w.page pp).node_r.start,
        range_span (range_intersection q (w.page pp).node_r)⟩ pp hP
  split at h
  · simp at h
  · rename_i w3 h3
    simp only [Except.ok.injEq] at h
    subst h
    exact touch_preserves P hset hact _ _ _ _ h3 h0
  · rename_i w3 h3
    have hP3 := touch_preserves P hset hact _ _ _ _ h3 h0
    exact fill_preserves P hst hset ap hap _ _ _ _ h (hst _ _ (same_core_apply_merge m w3) hP3)
/-! ## The list invariant I1 -/

theorem count_list_remove_self (l : List Nat) (pp : Nat) : (list_remove l pp).count pp = 0 := by
  rw [List.count_eq_zero]
  simp [list_remove, List.mem_filter]

theorem count_list_remove_other (l : List Nat) (pp p : Nat) (h : p ≠ pp) :
    (list_remove l pp).count p = l.count p := by
  unfold list_remove
  induction l with
  | nil => rfl
  | cons a l ih =>
    by_cases ha : a = pp
    · subst ha
      simp only [List.filter_cons, ne_eq, not_true_eq_false, decide_False, Bool.false_eq_true,
        if_false, ih]
      rw [List.count_cons_of_ne h]
    · simp only [List.filter_cons, ne_eq, ha, not_false_eq_true, decide_True, if_true,
        List.count_cons, ih]

theorem count_append_singleton (l : List Nat) (pp p : Nat) :
    (l ++ [pp]).count p = l.count p + (if pp = p then 1 else 0) := by
  simp [List.count_append, List.count_cons]

theorem stable_lists_invariant : stable lists_invariant := by
  intro w w1 hc h
  obtain ⟨hpc, hn, _, hp⟩ := hc
  refine ⟨fun p => ?_, fun p hge => ?_⟩
  · have := h.1 p
    simp only [linked_ok, page_state, hpc, (hp p).1] at this ⊢
    exact this
  · have := h.2 p (hn ▸ hge)
    simp only [page_state, (hp p).1] at this ⊢
    exact this

/-- The state a page is in after a completed state change. -/
theorem page_state_after_set (pp state : Nat) (w w1 : world)
    (h : set_page_state_cache_locked pp state w = .ok w1) (p : Nat) :
    page_state (w1.page p) = if p = pp then state else page_state (w.page p) := by
  obtain ⟨pc1, h2, h3⟩ := set_page_state_ok_inv pp state w w1 h
  have hlt := set_page_state_lists_ok_lt _ _ _ _ _ h2
  subst h3
  by_cases hp : p = pp
  · subst hp
    rw [set_page_same, if_pos rfl]
    exact page_state_pack _ _ (by omega)
  · rw [set_page_other _ _ _ _ hp, if_neg hp]

theorem set_state_lists_invariant (pp state : Nat) (w w1 : world)
    (hne : state ≠ PAGECACHE_PAGESTATE_ALLOC)
    (h : set_page_state_cache_locked pp state w = .ok w1) (hinv : lists_invariant w) :
    lists_invariant w1 := by
  have hst := page_state_after_set pp state w w1 h
  obtain ⟨pc1, h2, h3⟩ := set_page_state_ok_inv pp state w w1 h
  have hpc : w1.pc = pc1 := by subst h3; rfl
  have hnp : w1.npages = w.npages := by subst h3; rfl
  have hold := hinv.1 pp
  refine ⟨fun p => ?_, fun p hge => ?_⟩
  · have hp := hinv.1 p
    unfold linked_ok at hp hold ⊢
    rw [hst p, hpc]
    unfold set_page_state_lists at h2
    simp only [PAGECACHE_PAGESTATE_FREE, PAGECACHE_PAGESTATE_ALLOC, PAGECACHE_PAGESTATE_READING,
      PAGECACHE_PAGESTATE_NEW, PAGECACHE_PAGESTATE_ACTIVE, PAGECACHE_PAGESTATE_DIRTY] at h2 hp hold hne ⊢
    by_cases hpp : p = pp
    · subst hpp
      split_ifs at h2 <;> simp only [Except.ok.injEq, reduceCtorEq] at h2 <;> subst h2 <;>
        simp_all [list_delete, count_list_remove_self, count_append_singleton]
    · split_ifs at h2 <;> simp only [Except.ok.injEq, reduceCtorEq] at h2 <;> subst h2 <;>
        simp_all [list_delete, count_list_remove_other, count_append_singleton, Ne.symm hpp]
  · rw [hst p]
    have hge2 : w.npages ≤ p := hnp ▸ hge
    by_cases hpp : p = pp
    · subst hpp
      exfalso
      have hbad := hinv.2 p hge2
      unfold set_page_state_lists at h2
      simp only [PAGECACHE_PAGESTATE_FREE, PAGECACHE_PAGESTATE_ALLOC, PAGECACHE_PAGESTATE_READING,
        PAGECACHE_PAGESTATE_NEW, PAGECACHE_PAGESTATE_ACTIVE, PAGECACHE_PAGESTATE_DIRTY] at h2
      split_ifs at h2 <;> omega
    · rw [if_neg hpp]
      exact hinv.2 p hge2
theorem set_state_preserves_lists_invariant : set_state_preserves lists_invariant := by
  intro pp state w w1 hs h hinv
  refine set_state_lists_invariant pp state w w1 ?_ h hinv
  rcases hs with hs | hs | hs <;> rw [hs] <;> decide

/-- The list invariant only looks at the four lists, the number of
descriptors and the packed state words. -/
theorem lists_invariant_of_eq (w w1 : world) (hf : w1.pc.free = w.pc.free)
    (hn : w1.pc.new = w.pc.new) (ha : w1.pc.active = w.pc.active)
    (hd : w1.pc.dirty = w.pc.dirty) (hnp : w1.npages = w.npages)
    (hs : ∀ p, (w1.page p).state_phys = (w.page p).state_phys) (h : lists_invariant w) :
    lists_invariant w1 := by
  refine ⟨fun p => ?_, fun p hge => ?_⟩
  · have := h.1 p
    simp only [linked_ok, page_state, hf, hn, ha, hd, hs p] at this ⊢
    exact this
  · have := h.2 p (hnp ▸ hge)
    simp only [page_state, hs p] at this ⊢
    exact this

theorem pp_insert_ok_inv (pp : Nat) (r : range) (w w1 : world) (res : Option Nat)
    (h : pp_insert pp r w = .ok (res, w1)) :
    res = some pp ∧
      w1 = { set_page w pp { w.page pp with node_r := r } with
        pc := { w.pc with
          pages := (rangemap_place (set_page w pp { w.page pp with node_r := r }).page pp
            w.pc.pages) } } := by
  unfold pp_insert rangemap_insert at h
  simp only at h
  split at h
  · simp at h
  · rename_i w2 h2
    simp only [Except.ok.injEq, Prod.mk.injEq] at h
    split at h2
    · simp at h2
    · simp only [Prod.mk.injEq, true_and] at h2
      refine ⟨h.1.symm, ?_⟩
      rw [← h.2, ← h2]
      rfl

theorem pp_insert_lists_invariant (pp : Nat) (r : range) (w w1 : world) (res : Option Nat)
    (h : pp_insert pp r w = .ok (res, w1)) (hinv : lists_invariant w) : lists_invariant w1 := by
  obtain ⟨_, h2⟩ := pp_insert_ok_inv pp r w w1 res h
  subst h2
  refine lists_invariant_of_eq w _ rfl rfl rfl rfl rfl (fun p => ?_) hinv
  by_cases hp : p = pp
  · subst hp; simp [set_page]
  · simp [set_page, hp]

/-- The state of a freshly built descriptor is Alloc when the frame number
fits below the state bits. -/
theorem page_state_fresh (frame : Nat) (h : frame < 2 ^ PAGECACHE_PAGESTATE_SHIFT) :
    (((PAGECACHE_PAGESTATE_ALLOC <<< PAGECACHE_PAGESTATE_SHIFT) % 2 ^ 64) ||| frame) >>>
      PAGECACHE_PAGESTATE_SHIFT = PAGECACHE_PAGESTATE_ALLOC := by
  have hs : (PAGECACHE_PAGESTATE_ALLOC <<< PAGECACHE_PAGESTATE_SHIFT) % 2 ^ 64 = 2 ^ 61 * 1 := by
    decide
  rw [hs, ← Nat.mul_add_lt_is_or (by simpa [PAGECACHE_PAGESTATE_SHIFT] using h) 1]
  simp only [PAGECACHE_PAGESTATE_SHIFT, Nat.shiftRight_eq_div_pow, PAGECACHE_PAGESTATE_ALLOC] at h ⊢
  omega

/-- What a completed state change to Alloc tells. -/
theorem set_page_state_lists_alloc (pc pc1 : pagecache) (pp old_state : Nat)
    (h : set_page_state_lists pc pp old_state PAGECACHE_PAGESTATE_ALLOC = .ok pc1) :
    old_state = PAGECACHE_PAGESTATE_FREE ∧ pc1 = pc := by
  unfold set_page_state_lists at h
  rw [if_neg (by decide), if_pos rfl] at h
  split at h
  · rename_i h1
    simp only [Except.ok.injEq] at h
    exact ⟨h1, h.symm⟩
  · simp at h

/-- What a completed state change to Reading tells. -/
theorem set_page_state_lists_reading (pc pc1 : pagecache) (pp old_state : Nat)
    (h : set_page_state_lists pc pp old_state PAGECACHE_PAGESTATE_READING = .ok pc1) :
    old_state = PAGECACHE_PAGESTATE_ALLOC ∧ pc1 = pc := by
  unfold set_page_state_lists at h
  rw [if_neg (by decide), if_neg (by decide), if_pos rfl] at h
  split at h
  · rename_i h1
    simp only [Except.ok.injEq] at h
    exact ⟨h1, h.symm⟩
  · simp at h

/-- What a completed state change to New tells. -/
theorem set_page_state_lists_new (pc pc1 : pagecache) (pp old_state : Nat)
    (h : set_page_state_lists pc pp old_state PAGECACHE_PAGESTATE_NEW = .ok pc1) :
    old_state = PAGECACHE_PAGESTATE_READING ∧ pc1 = { pc with new := pc.new ++ [pp] } := by
  unfold set_page_state_lists at h
  rw [if_neg (by decide), if_neg (by decide), if_neg (by decide), if_pos rfl] at h
  split at h
  · rename_i h1
    simp only [Except.ok.injEq] at h
    exact ⟨h1, h.symm⟩
  · simp at h

/-- What a completed state change to Active tells. -/
theorem set_page_state_lists_active (pc pc1 : pagecache) (pp old_state : Nat)
    (h : set_page_state_lists pc pp old_state PAGECACHE_PAGESTATE_ACTIVE = .ok pc1) :
    old_state = PAGECACHE_PAGESTATE_NEW ∧
      pc1 = { list_delete pc pp with active := (list_delete pc pp).active ++ [pp] } := by
  unfold set_page_state_lists at h
  rw [if_neg (by decide), if_neg (by decide), if_neg (by decide), if_neg (by decide),
    if_pos rfl] at h
  split at h
  · rename_i h1
    simp only [Except.ok.injEq] at h
    exact ⟨h1, h.symm⟩
  · simp at h

/-- What a completed state change to Free tells. -/
theorem set_page_state_lists_free (pc pc1 : pagecache) (pp old_state : Nat)
    (h : set_page_state_lists pc pp old_state PAGECACHE_PAGESTATE_FREE = .ok pc1) :
    (old_state = PAGECACHE_PAGESTATE_NEW ∨ old_state = PAGECACHE_PAGESTATE_ACTIVE) ∧
      pc1 = { list_delete pc pp with free := (list_delete pc pp).free ++ [pp] } := by
  unfold set_page_state_lists at h
  rw [if_pos rfl] at h
  split at h
  · rename_i h1
    simp only [Except.ok.injEq] at h
    exact ⟨h1, h.symm⟩
  · simp at h

theorem allocate_lists_invariant (r : range) (w w1 : world) (res : Option Nat)
    (hphys : phys_ok w)
    (h : allocate_pagecache_page_cache_locked r w = .ok (res, w1)) (hinv : lists_invariant w) :
    lists_invariant w1 := by
  unfold allocate_pagecache_page_cache_locked at h
  split at h
  · rename_i l rest hfree
    simp only at h
    split at h
    · simp at h
    · rename_i w2 h2
      refine pp_insert_lists_invariant _ _ _ _ _ h ?_
      refine lists_invariant_of_eq w2 _ rfl rfl rfl rfl rfl (fun p => ?_) ?_
      · by_cases hp : p = l
        · subst hp; simp [refcount_reserve, set_page]
        · simp [refcount_reserve, set_page, hp]
      have hst := page_state_after_set _ _ _ _ h2
      obtain ⟨pc1, h3, h4⟩ := set_page_state_ok_inv _ _ _ _ h2
      obtain ⟨hold, hpc1⟩ := set_page_state_lists_alloc _ _ _ _ h3
      have hold2 : page_state (w.page l) = PAGECACHE_PAGESTATE_FREE := hold
      have hpc : w2.pc = list_delete w.pc l := by rw [h4, hpc1]; rfl
      have hnp : w2.npages = w.npages := by rw [h4]; rfl
      refine ⟨fun p => ?_, fun p hge => ?_⟩
      · have hp := hinv.1 p
        unfold linked_ok at hp ⊢
        rw [hst p, hpc]
        by_cases hpl : p = l
        · subst hpl
          simp [list_delete, count_list_remove_self, PAGECACHE_PAGESTATE_FREE,
            PAGECACHE_PAGESTATE_ALLOC, PAGECACHE_PAGESTATE_NEW, PAGECACHE_PAGESTATE_ACTIVE,
            PAGECACHE_PAGESTATE_DIRTY]
        · simp only [list_delete, count_list_remove_other _ _ _ hpl, if_neg hpl]
          exact hp
      · rw [hst p]
        have hge2 : w.npages ≤ p := hnp ▸ hge
        by_cases hpl : p = l
        · subst hpl
          have := hinv.2 p hge2
          rw [hold2] at this
          simp [PAGECACHE_PAGESTATE_FREE] at this
        · rw [if_neg hpl]; exact hinv.2 p hge2
  · rename_i hfree
    split at h
    · simp only [Except.ok.injEq, Prod.mk.injEq] at h
      rw [← h.2]; exact hinv
    · simp only at h
      split at h
      · simp only [Except.ok.injEq, Prod.mk.injEq] at h
        rw [← h.2]
        exact lists_invariant_of_eq w _ rfl rfl rfl rfl rfl (fun _ => rfl) hinv
      · split at h
        · simp only [Except.ok.injEq, Prod.mk.injEq] at h
          rw [← h.2]
          exact lists_invariant_of_eq w _ rfl rfl rfl rfl rfl (fun _ => rfl) hinv
        · refine pp_insert_lists_invariant _ _ _ _ _ h ?_
          have hfr := page_state_fresh _ (hphys w.npages)
          refine ⟨fun p => ?_, fun p hge => ?_⟩
          · have hp := hinv.1 p
            unfold linked_ok at hp ⊢
            by_cases hpl : p = w.npages
            · subst hpl
              have hbad := hinv.2 _ (le_refl _)
              simp only [set_page, if_true, page_state] at hfr ⊢
              rw [hfr]
              simp only [page_state] at hp hbad
              simp only [PAGECACHE_PAGESTATE_FREE, PAGECACHE_PAGESTATE_ALLOC,
                PAGECACHE_PAGESTATE_NEW, PAGECACHE_PAGESTATE_ACTIVE,
                PAGECACHE_PAGESTATE_DIRTY] at hp ⊢
              refine ⟨?_, ?_, ?_, ?_⟩
              · rw [hp.1, if_neg (by omega), if_neg (by decide)]
              · rw [hp.2.1, if_neg (by omega), if_neg (by decide)]
              · rw [hp.2.2.1, if_neg (by omega), if_neg (by decide)]
              · rw [hp.2.2.2, if_neg (by omega), if_neg (by decide)]
            · simp only [set_page, if_neg hpl]
              exact hp
          · have hge2 : w.npages + 1 ≤ p := hge
            have hpl : p ≠ w.npages := by omega
            simp only [set_page, if_neg hpl]
            exact hinv.2 p (by omega)
theorem relink_active_lists_invariant (w : world) (pp : Nat)
    (hs : page_state (w.page pp) = PAGECACHE_PAGESTATE_ACTIVE) (hinv : lists_invariant w) :
    lists_invariant { w with pc := { list_delete w.pc pp with
      active := (list_delete w.pc pp).active ++ [pp] } } := by
  refine ⟨fun p => ?_, fun p hge => hinv.2 p hge⟩
  have hp := hinv.1 p
  unfold linked_ok at hp ⊢
  by_cases hpp : p = pp
  · subst hpp
    simp only [hs] at hp ⊢
    simp [list_delete, count_list_remove_self, count_append_singleton,
      PAGECACHE_PAGESTATE_FREE, PAGECACHE_PAGESTATE_NEW, PAGECACHE_PAGESTATE_ACTIVE,
      PAGECACHE_PAGESTATE_DIRTY]
  · simp only [list_delete, count_list_remove_other _ _ _ hpp, count_append_singleton,
      if_neg (Ne.symm hpp), Nat.add_zero]
    exact hp

theorem release_locked_lists_invariant (pp : Nat) (w w1 : world)
    (h : pagecache_page_release_locked pp w = .ok w1) (hinv : lists_invariant w) :
    lists_invariant w1 := by
  unfold pagecache_page_release_locked at h
  simp only at h
  split at h
  · simp at h
  · rename_i w2 h2
    simp only [Except.ok.injEq] at h
    subst h
    refine stable_lists_invariant _ _ (same_core_zero _ _ _ _) ?_
    refine set_state_lists_invariant _ _ _ _ (by decide) h2 ?_
    exact lists_invariant_of_eq w _ rfl rfl rfl rfl rfl (fun _ => rfl) hinv

theorem lists_invariant_free_page_world : lists_invariant free_page_world := by
  refine ⟨fun p => ?_, fun p hge => ?_⟩
  · by_cases hp : p = 0
    · subst hp; unfold linked_ok; decide
    · simp [linked_ok, free_page_world, set_page, example_world, initial_world, hp, page_state,
        PAGECACHE_PAGESTATE_SHIFT, PAGECACHE_PAGESTATE_FREE, PAGECACHE_PAGESTATE_NEW,
        PAGECACHE_PAGESTATE_ACTIVE, PAGECACHE_PAGESTATE_DIRTY, Nat.shiftRight_eq_div_pow]
  · have hp : p ≠ 0 := by
      have : 1 ≤ p := hge
      omega
    simp [free_page_world, set_page, example_world, initial_world, hp, page_state,
      PAGECACHE_PAGESTATE_SHIFT, Nat.shiftRight_eq_div_pow]

theorem phys_ok_example (w : world) (h1 : w.fresh_phys = example_env.fresh_phys) : phys_ok w := by
  intro n
  rw [h1]
  simp only [example_env, Nat.shiftRight_eq_div_pow, PAGECACHE_PAGESTATE_SHIFT]
  have h2 : n * 4 % 2 ^ 32 < 2 ^ 32 := Nat.mod_lt _ (by norm_num)
  have h3 : n * 4 % 2 ^ 32 / 2 ^ w.pc.page_order ≤ n * 4 % 2 ^ 32 := Nat.div_le_self _ _
  omega

/-- C5: the predicate "a page is linked on exactly one of the Free, New,
Active and Dirty lists, the one of its state, when its state is one of
these four, and on no list when its state is Alloc or Reading" is kept by
the page allocation (from the free list and fresh, the frame numbers
fitting below the state bits), by the issue of a fill, by the fill
completion, by the touch and by the release, each with the closures they
apply run to their end. -/
theorem lists_invariant_preserved (w : world) (hinv : lists_invariant w) :
    (∀ r res w1, phys_ok w →
      allocate_pagecache_page_cache_locked r w = .ok (res, w1) → lists_invariant w1) ∧
    (∀ fuel pp sh w1,
      pagecache_page_fill_cache_locked (apply fuel) pp sh w = .ok w1 → lists_invariant w1) ∧
    (∀ fuel pp s w1, read_page_complete (apply fuel) pp s w = .ok w1 → lists_invariant w1) ∧
    (∀ pp b w1,
      pagecache_page_touch_if_filled_cache_locked pp w = .ok (b, w1) → lists_invariant w1) ∧
    (∀ pp w1, pagecache_page_release_locked pp w = .ok w1 → lists_invariant w1) ∧
    (∀ pp w1, pagecache_page_release pp w = .ok w1 → lists_invariant w1) := by
  have hap := apply_preserves lists_invariant stable_lists_invariant
    set_state_preserves_lists_invariant
  refine ⟨?_, ?_, ?_, ?_, ?_, ?_⟩
  · intro r res w1 hphys h
    exact allocate_lists_invariant r w w1 res hphys h hinv
  · intro fuel pp sh w1 h
    exact fill_preserves _ stable_lists_invariant set_state_preserves_lists_invariant _
      (hap fuel) _ _ _ _ h hinv
  · intro fuel pp s w1 h
    exact read_page_complete_preserves _ stable_lists_invariant
      set_state_preserves_lists_invariant _ (hap fuel) _ _ _ _ h hinv
  · intro pp b w1 h
    exact touch_preserves _ set_state_preserves_lists_invariant
      relink_active_lists_invariant _ _ _ _ h hinv
  · intro pp w1 h
    exact release_locked_lists_invariant pp w w1 h hinv
  · intro pp w1 h
    unfold pagecache_page_release at h
    simp only at h
    split at h
    · simp at h
    · exact release_locked_lists_invariant pp w w1 h hinv

theorem lists_invariant_preserved_witness :
    lists_invariant free_page_world ∧ phys_ok free_page_world ∧
      allocate_pagecache_page_cache_locked (irange 0 4) free_page_world =
        .ok (some 0, world_of_result
          (allocate_pagecache_page_cache_locked (irange 0 4) free_page_world) free_page_world) ∧
      lists_invariant (world_of_result
        (allocate_pagecache_page_cache_locked (irange 0 4) free_page_world) free_page_world) :=
  ⟨lists_invariant_free_page_world, phys_ok_example _ rfl, rfl,
    (lists_invariant_preserved free_page_world lists_invariant_free_page_world).1 _ _ _
      (phys_ok_example _ rfl) rfl⟩
/-! ## The fill completion -/

/-- The walk of `vector_foreach` over a queue that the handlers leave as it
is applies the handlers from the running index on, in order. -/
theorem completions_foreach_eq (ap : status_handler → status → world → Except abort world)
    (pp : Nat) (s : status) (hs : List status_handler) :
    ∀ (n i : Nat) (w : world), i + n ≤ hs.length →
      (∀ k wk, k ≤ n → apply_all ap s ((hs.drop i).take k) w = .ok wk →
        (wk.page pp).completions = hs) →
      completions_foreach ap pp s n i w = apply_all ap s ((hs.drop i).take n) w := by
  intro n
  induction n with
  | zero => intro i w _ _; simp [completions_foreach, apply_all]
  | succ n ih =>
    intro i w hlen hkeep
    have hq : (w.page pp).completions = hs := hkeep 0 w (Nat.zero_le _) (by simp [apply_all])
    have hi : i < hs.length := by omega
    have hdrop : hs.drop i = hs[i] :: hs.drop (i + 1) := List.drop_eq_getElem_cons hi
    have hget : (w.page pp).completions[i]? = some hs[i] := by
      rw [hq]; exact List.getElem?_eq_getElem hi
    simp only [completions_foreach, hget, hdrop, List.take_succ_cons, apply_all]
    cases hap : ap hs[i] s w with
    | error e => rfl
    | ok w1 =>
      simp only
      refine ih (i + 1) w1 (by omega) ?_
      intro k wk hk hrun
      refine hkeep (k + 1) wk (by omega) ?_
      simp only [hdrop, List.take_succ_cons, apply_all, hap]
      exact hrun

/-- C6: for a page in state Reading whose completions queue holds `hs`, the
fill completion with status `s` first moves the page to New at the tail of
the New list when `s` is OK and leaves state and lists alone when it is not,
then applies each handler of `hs` once, in the order of the queue, to `s`,
and then leaves the queue empty; this as long as the handlers, along that
run, leave the queue of the page as it is. -/
theorem read_page_complete_drains (ap : status_handler → status → world → Except abort world)
    (pp : Nat) (s : status) (w : world) (hs : List status_handler)
    (hstate : page_state (w.page pp) = PAGECACHE_PAGESTATE_READING)
    (hq : (w.page pp).completions = hs)
    (hkeep : ∀ k wk, k ≤ hs.length →
      apply_all ap s (hs.take k) (world_of (read_page_complete_state pp s w) w) = .ok wk →
      (wk.page pp).completions = hs) :
    ∃ w1, read_page_complete_state pp s w = .ok w1 ∧
      page_state (w1.page pp) =
        (if is_ok s then PAGECACHE_PAGESTATE_NEW else PAGECACHE_PAGESTATE_READING) ∧
      w1.pc = (if is_ok s then { w.pc with new := w.pc.new ++ [pp] } else w.pc) ∧
      (w1.page pp).completions = hs ∧
      read_page_complete ap pp s w =
        (match apply_all ap s hs w1 with
         | .error e => .error e
         | .ok w2 => .ok (set_page w2 pp { w2.page pp with completions := [] })) := by
  have hw1 : ∃ w1, read_page_complete_state pp s w = .ok w1 ∧
      page_state (w1.page pp) =
        (if is_ok s then PAGECACHE_PAGESTATE_NEW else PAGECACHE_PAGESTATE_READING) ∧
      w1.pc = (if is_ok s then { w.pc with new := w.pc.new ++ [pp] } else w.pc) ∧
      (w1.page pp).completions = hs := by
    unfold read_page_complete_state
    cases hok : is_ok s with
    | false => exact ⟨w, by simp, by simpa using hstate, by simp, hq⟩
    | true =>
      have hex : ∃ w1, set_page_state_cache_locked pp PAGECACHE_PAGESTATE_NEW w = .ok w1 := by
        unfold set_page_state_cache_locked
        simp only [hstate]
        exact ⟨_, rfl⟩
      obtain ⟨w1, h1⟩ := hex
      obtain ⟨pc1, h2, h3⟩ := set_page_state_ok_inv _ _ _ _ h1
      refine ⟨w1, by simpa using h1, ?_, ?_, ?_⟩
      · simpa using page_state_after_set _ _ _ _ h1 pp
      · obtain ⟨_, h4⟩ := set_page_state_lists_new _ _ _ _ h2
        subst h3
        simpa using h4
      · subst h3
        rw [set_page_same]
        exact hq
  obtain ⟨w1, h1, h2, h3, hq1⟩ := hw1
  have hw0 : world_of (read_page_complete_state pp s w) w = w1 := by rw [h1]; rfl
  rw [hw0] at hkeep
  refine ⟨w1, h1, h2, h3, hq1, ?_⟩
  unfold read_page_complete
  rw [if_neg (by simp [hstate]), h1]
  simp only
  rw [hq1, completions_foreach_eq ap pp s hs hs.length 0 w1 (by omega)
    (by simpa using hkeep)]
  simp

theorem read_page_complete_drains_witness :
    (page_state (reading_world.page 0) = PAGECACHE_PAGESTATE_READING ∧
      (reading_world.page 0).completions = [status_handler.merge_join 0] ∧
      (∀ k wk, k ≤ [status_handler.merge_join 0].length →
        apply_all (apply 3) STATUS_OK ([status_handler.merge_join 0].take k)
          (world_of (read_page_complete_state 0 STATUS_OK reading_world) reading_world) = .ok wk →
        (wk.page 0).completions = [status_handler.merge_join 0])) ∧
    ∃ w1, read_page_complete_state 0 STATUS_OK reading_world = .ok w1 ∧
      page_state (w1.page 0) =
        (if is_ok STATUS_OK then PAGECACHE_PAGESTATE_NEW else PAGECACHE_PAGESTATE_READING) ∧
      w1.pc = (if is_ok STATUS_OK then { reading_world.pc with new := reading_world.pc.new ++ [0] }
        else reading_world.pc) ∧
      (w1.page 0).completions = [status_handler.merge_join 0] ∧
      read_page_complete (apply 3) 0 STATUS_OK reading_world =
        (match apply_all (apply 3) STATUS_OK [status_handler.merge_join 0] w1 with
         | .error e => .error e
         | .ok w2 => .ok (set_page w2 0 { w2.page 0 with completions := [] })) :=
  have hkeep : ∀ k wk, k ≤ [status_handler.merge_join 0].length →
      apply_all (apply 3) STATUS_OK ([status_handler.merge_join 0].take k)
        (world_of (read_page_complete_state 0 STATUS_OK reading_world) reading_world) = .ok wk →
      (wk.page 0).completions = [status_handler.merge_join 0] := by
    intro k wk hk h
    have hk1 : k = 0 ∨ k = 1 := by
      have : k ≤ 1 := hk
      omega
    rcases hk1 with hk0 | hk0
    · subst hk0
      injection h with h
      subst h
      rfl
    · subst hk0
      injection h with h
      subst h
      rfl
  ⟨⟨rfl, rfl, hkeep⟩,
    read_page_complete_drains (apply 3) 0 STATUS_OK reading_world [status_handler.merge_join 0]
      rfl rfl hkeep⟩
/-! ## The fill -/

/-- A state change from Alloc to Reading completes, and only rewrites the
packed word of the page. -/
theorem set_page_state_reading_ok (pp : Nat) (w : world)
    (hs : page_state (w.page pp) = PAGECACHE_PAGESTATE_ALLOC) :
    set_page_state_cache_locked pp PAGECACHE_PAGESTATE_READING w =
      .ok (set_page w pp { w.page pp with state_phys :=
        (((w.page pp).state_phys &&& MASK PAGECACHE_PAGESTATE_SHIFT) |||
          ((PAGECACHE_PAGESTATE_READING <<< PAGECACHE_PAGESTATE_SHIFT) % 2 ^ 64)) }) := by
  unfold set_page_state_cache_locked
  simp only [hs]
  rfl

/-- The fill of a page in state Alloc, step by step. -/
theorem fill_alloc_eq (ap : status_handler → status → world → Except abort world)
    (pp : Nat) (sh : status_handler) (w : world)
    (hs : page_state (w.page pp) = PAGECACHE_PAGESTATE_ALLOC) :
    pagecache_page_fill_cache_locked ap pp sh w =
      block_issue ap (fill_request w pp) (fill_prepared w pp sh) := by
  have hs1 : page_state ((set_page w pp
      { w.page pp with completions := (w.page pp).completions ++ [sh] }).page pp) =
      PAGECACHE_PAGESTATE_ALLOC := by
    rw [set_page_same]; exact hs
  unfold pagecache_page_fill_cache_locked
  simp only [hs1, if_true, set_page_state_reading_ok _ _ hs1]
  by_cases hlen : (w.page pp).node_r.end_ > w.pc.length
  · have hmin : min (w.page pp).node_r.end_ w.pc.length = w.pc.length :=
      Nat.min_eq_right (by omega)
    simp [fill_prepared, fill_request, hlen, hmin, set_page, zero, range_rshift, irange]
  · have hmin : min (w.page pp).node_r.end_ w.pc.length = (w.page pp).node_r.end_ :=
      Nat.min_eq_left (by omega)
    simp [fill_prepared, fill_request, hlen, hmin, set_page, range_rshift, irange]

theorem fill_prepared_completions (w : world) (pp : Nat) (sh : status_handler) :
    ((fill_prepared w pp sh).page pp).completions = (w.page pp).completions ++ [sh] := by
  unfold fill_prepared
  simp only
  split <;> simp [zero, set_page]

theorem fill_prepared_state (w : world) (pp : Nat) (sh : status_handler) :
    page_state ((fill_prepared w pp sh).page pp) = PAGECACHE_PAGESTATE_READING := by
  unfold fill_prepared
  simp only
  split
  · simp only [zero, set_page, if_true, page_state]
    exact page_state_pack _ _ (by decide)
  · simp only [set_page, if_true, page_state]
    exact page_state_pack _ _ (by decide)

theorem fill_prepared_issued (w : world) (pp : Nat) (sh : status_handler) :
    (fill_prepared w pp sh).issued = w.issued ∧ (fill_prepared w pp sh).pending = w.pending := by
  unfold fill_prepared
  simp only
  split <;> exact ⟨rfl, rfl⟩

/-- The fill of a page that is not in state Alloc only queues the handler. -/
theorem fill_other_state (ap : status_handler → status → world → Except abort world)
    (pp : Nat) (sh : status_handler) (w : world)
    (hs : page_state (w.page pp) ≠ PAGECACHE_PAGESTATE_ALLOC) :
    pagecache_page_fill_cache_locked ap pp sh w =
      .ok (set_page w pp { w.page pp with completions := (w.page pp).completions ++ [sh] }) := by
  have hs1 : ¬ page_state ((set_page w pp
      { w.page pp with completions := (w.page pp).completions ++ [sh] }).page pp) =
      PAGECACHE_PAGESTATE_ALLOC := by
    rw [set_page_same]; exact hs
  unfold pagecache_page_fill_cache_locked
  simp only [hs1, if_false]

/-- C8: `pagecache_page_fill_cache_locked` appends the handler at the tail of
the completions queue of the page.  For a page in state Alloc with range
`[s, e)` the state is Reading and exactly one request has been added to the
requests issued, a block read into the page buffer over the blocks
`[s >> block_order, min(e, length) >> block_order)`, when the device gets to
answer it.  For a page in any other state, Reading among them, nothing is
issued and the state stays as it is. -/
theorem fill_issues_one_block_read (ap : status_handler → status → world → Except abort world)
    (pp : Nat) (sh : status_handler) (w : world) :
    (page_state (w.page pp) = PAGECACHE_PAGESTATE_ALLOC →
      ∃ w3, (w3.page pp).completions = (w.page pp).completions ++ [sh] ∧
        page_state (w3.page pp) = PAGECACHE_PAGESTATE_READING ∧
        w3.issued = w.issued ++ [fill_request w pp] ∧
        w3.pending = w.pending ∧
        pagecache_page_fill_cache_locked ap pp sh w = block_answer ap (fill_request w pp) w3) ∧
    (page_state (w.page pp) ≠ PAGECACHE_PAGESTATE_ALLOC →
      ∃ w1, pagecache_page_fill_cache_locked ap pp sh w = .ok w1 ∧
        (w1.page pp).completions = (w.page pp).completions ++ [sh] ∧
        page_state (w1.page pp) = page_state (w.page pp) ∧
        w1.issued = w.issued ∧ w1.pending = w.pending) := by
  constructor
  · intro hs
    refine ⟨{ fill_prepared w pp sh with
        issued := (fill_prepared w pp sh).issued ++ [fill_request w pp] }, ?_, ?_, ?_, ?_, ?_⟩
    · exact fill_prepared_completions w pp sh
    · exact fill_prepared_state w pp sh
    · simp only [(fill_prepared_issued w pp sh).1]
    · exact (fill_prepared_issued w pp sh).2
    · rw [fill_alloc_eq ap pp sh w hs]
      rfl
  · intro hs
    rw [fill_other_state ap pp sh w hs]
    exact ⟨_, rfl, by simp [set_page], by simp [set_page, page_state], rfl, rfl⟩

theorem fill_issues_one_block_read_witness :
    page_state (written_world.page 0) = PAGECACHE_PAGESTATE_ALLOC ∧
      ∃ w3, (w3.page 0).completions =
          (written_world.page 0).completions ++ [status_handler.completion 9] ∧
        page_state (w3.page 0) = PAGECACHE_PAGESTATE_READING ∧
        w3.issued = written_world.issued ++ [fill_request written_world 0] ∧
        w3.pending = written_world.pending ∧
        pagecache_page_fill_cache_locked (apply 4) 0 (status_handler.completion 9)
          written_world = block_answer (apply 4) (fill_request written_world 0) w3 :=
  ⟨rfl, (fill_issues_one_block_read (apply 4) 0 (status_handler.completion 9)
    written_world).1 rfl⟩
/-- Subtraction of 64-bit words without a wrap. -/
theorem u64_sub_of_le (a b : Nat) (hba : b ≤ a) (ha : a < 2 ^ 64) : u64_sub a b = a - b := by
  unfold u64_sub
  have hb : b % 2 ^ 64 = b := Nat.mod_eq_of_lt (by omega)
  rw [hb]
  have : a + 2 ^ 64 - b = (a - b) + 2 ^ 64 := by omega
  rw [this, Nat.add_mod_right]
  exact Nat.mod_eq_of_lt (by omega)

/-- The zeroing of a fill when the range of the page starts within the
backing store: the buffer offsets of the file offsets `[length, end)` become
zero, every other byte of the memory at `kvirt` stays as it is; and nothing
changes when the range ends within the backing store. -/
theorem fill_prepared_kvirt (w : world) (pp : Nat) (sh : status_handler) (a : Nat)
    (ha : a < 2 ^ 64) (hse : (w.page pp).node_r.start ≤ (w.page pp).node_r.end_)
    (he : (w.page pp).node_r.end_ < 2 ^ 64)
    (hsl : (w.page pp).node_r.start ≤ w.pc.length) :
    ((fill_prepared w pp sh).page pp).kvirt a =
      if w.pc.length < (w.page pp).node_r.end_ ∧
          w.pc.length - (w.page pp).node_r.start ≤ a ∧
          a < (w.page pp).node_r.end_ - (w.page pp).node_r.start
      then 0 else (w.page pp).kvirt a := by
  unfold fill_prepared
  simp only
  by_cases hlen : (w.page pp).node_r.end_ > w.pc.length
  · rw [if_pos hlen]
    simp only [zero, set_page, if_true]
    rw [u64_sub_of_le _ _ hsl (by omega), u64_sub_of_le _ _ (by omega) he]
    by_cases hal : w.pc.length - (w.page pp).node_r.start ≤ a
    · rw [u64_sub_of_le _ _ hal ha]
      by_cases hae : a < (w.page pp).node_r.end_ - (w.page pp).node_r.start
      · rw [if_pos (by omega), if_pos ⟨by omega, hal, hae⟩]
      · rw [if_neg (by omega), if_neg (by omega)]
    · have hw : u64_sub a (w.pc.length - (w.page pp).node_r.start) =
          a + 2 ^ 64 - (w.pc.length - (w.page pp).node_r.start) := by
        unfold u64_sub
        rw [Nat.mod_eq_of_lt (show w.pc.length - (w.page pp).node_r.start < 2 ^ 64 by omega)]
        exact Nat.mod_eq_of_lt (by omega)
      rw [hw, if_neg (by omega), if_neg (by omega)]
  · rw [if_neg hlen, if_neg (by omega)]
    simp [set_page]

/-- C7 at a failing input: with pages of four bytes and a backing store of
sixteen bytes, a read of `[20, 24)` allocates page 0 for `[20, 24)`, which
starts past the end of the store, and issues its fill; the fill zeroes
eight bytes from four bytes before the page buffer on, so the four bytes of
memory in front of the buffer, which held 7, are zero. -/
theorem fill_past_end_zeroes_before_buffer :
    (past_end_world.page 0).node_r = irange 20 24 ∧
      past_end_world.pc.length = 16 ∧ pagecache_pagesize past_end_world.pc = 4 ∧
      past_end_world.issued =
        [⟨false, 0, 0, irange 10 8, status_handler.read_page_complete 0⟩] ∧
      deferred_world.fresh_kvirt 0 (2 ^ 64 - 4) = 7 ∧
      deferred_world.fresh_kvirt 0 (2 ^ 64 - 1) = 7 ∧
      (past_end_world.page 0).kvirt (2 ^ 64 - 4) = 0 ∧
      (past_end_world.page 0).kvirt (2 ^ 64 - 1) = 0 :=
  ⟨rfl, rfl, rfl, rfl, rfl, rfl, rfl, rfl⟩
/-! ## The read node handler -/

/-- The intersection of two ranges that intersect. -/
theorem range_intersection_of_overlaps (a b : range) (h : range_overlaps a b = true) :
    range_intersection a b = irange (max a.start b.start) (min a.end_ b.end_) ∧
      max a.start b.start < min a.end_ b.end_ := by
  unfold range_overlaps at h
  have h1 : max a.start b.start < min a.end_ b.end_ := by simpa using h
  refine ⟨?_, h1⟩
  unfold range_intersection
  simp only [irange]
  rw [if_neg (by omega)]

theorem U64_FROM_BIT_eq (order : Nat) (ho : order < 64) : U64_FROM_BIT order = 2 ^ order := by
  unfold U64_FROM_BIT
  rw [Nat.shiftLeft_eq, Nat.one_mul]
  exact Nat.mod_eq_of_lt (Nat.pow_lt_pow_right (by norm_num) ho)

/-- The start of the page of `x`: `x & ~MASK(order)` clears the low `order`
bits of a 64-bit word. -/
theorem align_down_eq (x order : Nat) (hx : x < 2 ^ 64) (ho : order < 64) :
    x &&& u64_not (MASK order) = x / 2 ^ order * 2 ^ order := by
  have hm : MASK order = 2 ^ order - 1 := by unfold MASK; rw [U64_FROM_BIT_eq order ho]
  rw [hm]
  unfold u64_not
  apply Nat.eq_of_testBit_eq
  intro i
  rw [Nat.testBit_and, Nat.testBit_xor, Nat.testBit_two_pow_sub_one, Nat.testBit_two_pow_sub_one,
    ← Nat.shiftRight_eq_div_pow, ← Nat.shiftLeft_eq, Nat.testBit_shiftLeft, Nat.testBit_shiftRight]
  by_cases h1 : i < order
  · have h2 : i < 64 := by omega
    have h3 : ¬ i ≥ order := by omega
    simp [h1, h2, h3]
  · have h3 : i ≥ order := by omega
    have h4 : order + (i - order) = i := by omega
    by_cases h2 : i < 64
    · simp [h1, h2, h3, h4]
    · have h5 : x.testBit i = false := by
        apply Nat.testBit_lt_two_pow
        calc x < 2 ^ 64 := hx
          _ ≤ 2 ^ i := Nat.pow_le_pow_right (by norm_num) (by omega)
      simp [h1, h2, h3, h4, h5]

theorem u64_add_of_lt (a b : Nat) (h : a + b < 2 ^ 64) : u64_add a b = a + b := by
  unfold u64_add
  exact Nat.mod_eq_of_lt h
/-! ## The index: frames -/

theorem index_frame_refl (w : world) : index_frame w w :=
  ⟨rfl, rfl, rfl, fun _ => rfl, fun _ h => h⟩

theorem index_frame_trans {w0 w1 w2 : world} (h1 : index_frame w0 w1) (h2 : index_frame w1 w2) :
    index_frame w0 w2 :=
  ⟨h2.1.trans h1.1, h2.2.1.trans h1.2.1, h2.2.2.1.trans h1.2.2.1,
    fun p => (h2.2.2.2.1 p).trans (h1.2.2.2.1 p), fun x hx => h1.2.2.2.2 x (h2.2.2.2.2 x hx)⟩

theorem stable_index_frame (w0 : world) : stable (index_frame w0) := by
  intro w w1 hc h
  obtain ⟨hpc, hn, _, hp⟩ := hc
  refine ⟨by rw [hpc]; exact h.1, by rw [hpc]; exact h.2.1, hn.trans h.2.2.1,
    fun p => ((hp p).2.1).trans (h.2.2.2.1 p), fun x hx => h.2.2.2.2 x (by rw [← hpc]; exact hx)⟩

theorem mem_list_remove (l : List Nat) (pp x : Nat) (h : x ∈ list_remove l pp) : x ∈ l ∧ x ≠ pp := by
  unfold list_remove at h
  simpa [List.mem_filter] using h

theorem set_state_preserves_index_frame (w0 : world) : set_state_preserves (index_frame w0) := by
  intro pp state w w1 hs h hv
  obtain ⟨pc1, h2, h3⟩ := set_page_state_ok_inv pp state w w1 h
  have hnode : ∀ p, (w1.page p).node_r = (w.page p).node_r := by
    intro p
    subst h3
    by_cases hp : p = pp
    · subst hp; rw [set_page_same]
    · rw [set_page_other _ _ _ _ hp]
  have hpc : w1.pc = pc1 := by subst h3; rfl
  have hnp : w1.npages = w.npages := by subst h3; rfl
  have hpc1 : pc1.pages = w.pc.pages ∧ pc1.page_order = w.pc.page_order ∧
      ∀ x ∈ pc1.free, x ∈ w.pc.free := by
    rcases hs with hs | hs | hs
    · subst hs
      obtain ⟨_, h4⟩ := set_page_state_lists_reading _ _ _ _ h2
      subst h4; exact ⟨rfl, rfl, fun _ hx => hx⟩
    · subst hs
      obtain ⟨_, h4⟩ := set_page_state_lists_new _ _ _ _ h2
      subst h4; exact ⟨rfl, rfl, fun _ hx => hx⟩
    · subst hs
      obtain ⟨_, h4⟩ := set_page_state_lists_active _ _ _ _ h2
      subst h4
      exact ⟨rfl, rfl, fun x hx => (mem_list_remove _ _ _ hx).1⟩
  rw [← hpc] at hpc1
  exact ⟨hpc1.1.trans hv.1, hpc1.2.1.trans hv.2.1, hnp.trans hv.2.2.1,
    fun p => (hnode p).trans (hv.2.2.2.1 p), fun x hx => hv.2.2.2.2 x (hpc1.2.2 x hx)⟩

theorem relink_active_index_frame (w0 w : world) (pp : Nat)
    (_hs : page_state (w.page pp) = PAGECACHE_PAGESTATE_ACTIVE) (hv : index_frame w0 w) :
    index_frame w0 { w with pc := { list_delete w.pc pp with
      active := (list_delete w.pc pp).active ++ [pp] } } :=
  ⟨hv.1, hv.2.1, hv.2.2.1, hv.2.2.2.1,
    fun x hx => hv.2.2.2.2 x (mem_list_remove _ _ _ hx).1⟩

theorem sg_refcount_index_frame (w0 w : world) (sg : Nat) (sgb : sg_buf) (pp : Nat)
    (hv : index_frame w0 w) : index_frame w0 (refcount_reserve (sg_list_tail_add w sg sgb) pp) := by
  refine ⟨hv.1, hv.2.1, hv.2.2.1, fun p => ?_, hv.2.2.2.2⟩
  rw [← hv.2.2.2.1 p]
  by_cases hp : p = pp
  · subst hp; simp [refcount_reserve, sg_list_tail_add, set_page]
  · simp [refcount_reserve, sg_list_tail_add, set_page, hp]

/-- Every closure application keeps the index, the ranges and the number of
descriptors. -/
theorem apply_index_frame (w0 : world) (fuel : Nat) : ap_preserves (index_frame w0) (apply fuel) :=
  apply_preserves _ (stable_index_frame w0) (set_state_preserves_index_frame w0) fuel

theorem read_page_internal_index_frame (fuel pp sg : Nat) (q : range) (m : Nat) (w w1 : world)
    (h : pagecache_read_page_internal_cache_locked (apply fuel) pp sg q m w = .ok w1) :
    index_frame w w1 :=
  read_page_internal_preserves _ (stable_index_frame w) (set_state_preserves_index_frame w)
    (relink_active_index_frame w) (sg_refcount_index_frame w) _ (apply_index_frame w fuel)
    _ _ _ _ _ _ h (index_frame_refl w)

theorem index_invariant_of_frame (w0 w : world) (hf : index_frame w0 w)
    (h : index_invariant w0) : index_invariant w := by
  obtain ⟨hp, hpo, _, hr, _⟩ := hf
  refine ⟨fun p hm => ?_, ?_⟩
  · have := h.1 p (hp ▸ hm)
    simp only [page_aligned, pagecache_pagesize, hr p, hpo] at this ⊢
    exact this
  · rw [hp]
    refine h.2.imp ?_
    intro a b hab
    rw [hr a, hr b]; exact hab

theorem index_wf_of_frame (w0 w : world) (hf : index_frame w0 w) (h : index_wf w0) :
    index_wf w := by
  obtain ⟨hp, hpo, hn, _, hfree⟩ := hf
  refine ⟨fun p hm => ?_, fun p hm => ?_, by rw [hpo]; exact h.2.2⟩
  · rw [hn]; exact h.1 p (hp ▸ hm)
  · rw [hp, hn]; exact h.2.1 p (hfree p hm)
/-! ## Page allocation -/

theorem allocate_eq (r : range) (w : world) :
    allocate_pagecache_page_cache_locked r w =
      match allocate_descriptor w with
      | .error e => .error e
      | .ok (none, w1) => .ok (none, w1)
      | .ok (some pp, w1) => pp_insert pp r w1 := by
  unfold allocate_pagecache_page_cache_locked allocate_descriptor
  split
  · simp only
    split <;> rfl
  · simp only
    split_ifs <;> rfl

theorem pp_insert_eq (pp : Nat) (r : range) (w : world) :
    pp_insert pp r w =
      if w.pc.pages.any (fun n => range_overlaps
          ((set_page w pp { w.page pp with node_r := r }).page n).node_r r)
      then .error abort.assert_rangemap_insert
      else .ok (some pp, inserted w pp r) := by
  unfold pp_insert rangemap_insert inserted
  simp only [set_page_same]
  split_ifs with h1
  all_goals first
    | rfl
    | (rename_i h2; exact absurd h1 h2)
    | (rename_i h2; exact absurd h2 h1)

/-- The pages on the Free list after a descriptor has been taken. -/
theorem allocate_descriptor_inv (w w1 : world) (pp : Nat) (hwf : index_wf w)
    (h : allocate_descriptor w = .ok (some pp, w1)) :
    pp ∉ w.pc.pages ∧ pp < w1.npages ∧ w.npages ≤ w1.npages ∧
      w1.pc.pages = w.pc.pages ∧ w1.pc.page_order = w.pc.page_order ∧
      (∀ p, (w1.page p).node_r = (w.page p).node_r) ∧
      (∀ x ∈ w1.pc.free, x ∈ w.pc.free ∧ x ≠ pp) ∧ w1.sg = w.sg := by
  unfold allocate_descriptor at h
  split at h
  · rename_i l rest hfree
    simp only at h
    split at h
    · simp at h
    · rename_i w2 h2
      simp only [Except.ok.injEq, Prod.mk.injEq, Option.some.injEq] at h
      obtain ⟨hl, hw⟩ := h
      subst hl
      obtain ⟨pc1, h3, h4⟩ := set_page_state_ok_inv _ _ _ _ h2
      obtain ⟨_, hpc1⟩ := set_page_state_lists_alloc _ _ _ _ h3
      have hmem : l ∈ w.pc.free := by rw [hfree]; exact List.mem_cons_self _ _
      subst hw h4 hpc1
      refine ⟨(hwf.2.1 l hmem).1, (hwf.2.1 l hmem).2, le_refl _, rfl, rfl, fun p => ?_,
        fun x hx => mem_list_remove _ _ _ hx, rfl⟩
      by_cases hp : p = l
      · subst hp; simp [refcount_reserve, set_page]
      · simp [refcount_reserve, set_page, hp]
  · split at h
    · simp at h
    · simp only at h
      split at h
      · simp at h
      · split at h
        · simp at h
        · simp only [Except.ok.injEq, Prod.mk.injEq, Option.some.injEq] at h
          obtain ⟨hl, hw⟩ := h
          subst hl hw
          rename_i hfree _ _ _
          refine ⟨fun hm => Nat.lt_irrefl _ (hwf.1 _ hm), Nat.lt_succ_self _, Nat.le_succ _, rfl,
            rfl, fun p => ?_, fun x hx => ?_, rfl⟩
          · by_cases hp : p = w.npages
            · subst hp; simp [set_page]
            · simp [set_page, hp]
          · have hx2 : x ∈ w.pc.free := hx
            rw [hfree] at hx2
            simp at hx2

theorem allocate_descriptor_none (w w1 : world)
    (h : allocate_descriptor w = .ok (none, w1)) :
    w1.pc = w.pc ∧ w1.page = w.page ∧ w1.npages = w.npages ∧ w1.sg = w.sg ∧
      w1.merges = w.merges ∧ w1.fired = w.fired := by
  unfold allocate_descriptor at h
  split at h
  · simp only at h
    split at h <;> simp at h
  · split at h
    · simp only [Except.ok.injEq, Prod.mk.injEq, true_and] at h
      subst h; exact ⟨rfl, rfl, rfl, rfl, rfl, rfl⟩
    · simp only at h
      split at h
      · simp only [Except.ok.injEq, Prod.mk.injEq, true_and] at h
        subst h; exact ⟨rfl, rfl, rfl, rfl, rfl, rfl⟩
      · split at h
        · simp only [Except.ok.injEq, Prod.mk.injEq, true_and] at h
          subst h; exact ⟨rfl, rfl, rfl, rfl, rfl, rfl⟩
        · simp at h

/-- The descriptor step of an allocation never fails the insertion
assertion. -/
theorem allocate_descriptor_no_insert_abort (w : world) :
    allocate_descriptor w ≠ .error abort.assert_rangemap_insert := by
  unfold allocate_descriptor
  split
  · simp only
    split
    · rename_i e h2
      intro h
      simp only [Except.error.injEq] at h
      subst h
      unfold set_page_state_cache_locked at h2
      simp only at h2
      split at h2
      · rename_i e2 h3
        simp only [Except.error.injEq] at h2
        subst h2
        unfold set_page_state_lists at h3
        split_ifs at h3 <;> simp at h3
      · simp at h2
    · simp
  · simp only
    split_ifs <;> simp

theorem any_overlap_false (w : world) (pp : Nat) (r : range) (hnot : pp ∉ w.pc.pages)
    (hno : ∀ n ∈ w.pc.pages, range_overlaps (w.page n).node_r r = false) :
    w.pc.pages.any (fun n => range_overlaps
      ((set_page w pp { w.page pp with node_r := r }).page n).node_r r) = false := by
  rw [List.any_eq_false]
  intro n hn
  have hne : n ≠ pp := fun h => hnot (h ▸ hn)
  rw [set_page_other _ _ _ _ hne, hno n hn]
  simp

/-- What a completed allocation of a page tells about the index. -/
theorem allocate_some_inv (r : range) (w w1 : world) (pp : Nat) (hwf : index_wf w)
    (h : allocate_pagecache_page_cache_locked r w = .ok (some pp, w1)) :
    pp ∉ w.pc.pages ∧ pp < w1.npages ∧ w.npages ≤ w1.npages ∧
      w1.pc.pages = rangemap_place w1.page pp w.pc.pages ∧
      w1.pc.page_order = w.pc.page_order ∧
      (w1.page pp).node_r = r ∧
      (∀ p, p ≠ pp → (w1.page p).node_r = (w.page p).node_r) ∧
      (∀ x ∈ w1.pc.free, x ∈ w.pc.free ∧ x ≠ pp) ∧ w1.sg = w.sg ∧
      (∀ n ∈ w.pc.pages, range_overlaps (w.page n).node_r r = false) := by
  rw [allocate_eq] at h
  split at h
  · simp at h
  · simp at h
  · rename_i pp1 w2 h2
    obtain ⟨h3, h4, h5, h6, h7, h8, h9, h10⟩ := allocate_descriptor_inv w w2 pp1 hwf h2
    rw [pp_insert_eq] at h
    split at h
    · simp at h
    · rename_i hany
      simp only [Except.ok.injEq, Prod.mk.injEq, Option.some.injEq] at h
      obtain ⟨hl, hw⟩ := h
      subst hl hw
      refine ⟨h3, h4, h5, ?_, h7, ?_, ?_, h9, h10, ?_⟩
      · simp only [inserted, h6]
      · simp [inserted, set_page]
      · intro p hp
        simp only [inserted, set_page, if_neg hp]
        exact h8 p
      · intro n hn
        have hany2 := hany
        simp only [Bool.not_eq_true] at hany2
        rw [List.any_eq_false] at hany2
        have hn2 : n ∈ w2.pc.pages := by rw [h6]; exact hn
        have hne : n ≠ pp1 := fun hh => h3 (hh ▸ hn)
        have := hany2 n hn2
        rw [set_page_other _ _ _ _ hne, h8 n] at this
        simpa using this

theorem allocate_none_inv (r : range) (w w1 : world)
    (h : allocate_pagecache_page_cache_locked r w = .ok (none, w1)) :
    w1.pc = w.pc ∧ w1.page = w.page ∧ w1.npages = w.npages ∧ w1.sg = w.sg ∧
      w1.merges = w.merges ∧ w1.fired = w.fired := by
  rw [allocate_eq] at h
  split at h
  · simp at h
  · rename_i w2 h2
    simp only [Except.ok.injEq, Prod.mk.injEq, true_and] at h
    subst h
    exact allocate_descriptor_none w w2 h2
  · rename_i pp1 w2 h2
    rw [pp_insert_eq] at h
    split at h <;> simp at h

/-- The allocation of a page for a range that no indexed page intersects
never fails the insertion assertion. -/
theorem allocate_no_insert_abort (r : range) (w : world) (hwf : index_wf w)
    (hno : ∀ n ∈ w.pc.pages, range_overlaps (w.page n).node_r r = false) :
    allocate_pagecache_page_cache_locked r w ≠ .error abort.assert_rangemap_insert := by
  rw [allocate_eq]
  split
  · rename_i e h2
    intro h
    simp only [Except.error.injEq] at h
    subst h
    exact allocate_descriptor_no_insert_abort w h2
  · simp
  · rename_i pp1 w2 h2
    obtain ⟨h3, _, _, h6, _, h8, _, _⟩ := allocate_descriptor_inv w w2 pp1 hwf h2
    rw [pp_insert_eq, any_overlap_false w2 pp1 r (by rw [h6]; exact h3)
      (by intro n hn; rw [h8 n]; exact hno n (by rw [← h6]; exact hn))]
    simp
/-! ## No closure fails the insertion assertion -/

theorem set_page_state_not_insert (pp state : Nat) (w : world) :
    set_page_state_cache_locked pp state w ≠ .error abort.assert_rangemap_insert := by
  unfold set_page_state_cache_locked
  simp only
  split
  · rename_i e h3
    intro h
    simp only [Except.error.injEq] at h
    subst h
    unfold set_page_state_lists at h3
    split_ifs at h3 <;> simp at h3
  · simp

theorem block_issue_not_insert (ap : status_handler → status → world → Except abort world)
    (hap : ∀ sh s w, ap sh s w ≠ .error abort.assert_rangemap_insert)
    (req : block_req) (w : world) :
    block_issue ap req w ≠ .error abort.assert_rangemap_insert := by
  unfold block_issue block_answer
  simp only
  split
  · exact hap _ _ _
  · simp

theorem merge_join_not_insert (ap : status_handler → status → world → Except abort world)
    (hap : ∀ sh s w, ap sh s w ≠ .error abort.assert_rangemap_insert)
    (m : Nat) (s : status) (w : world) :
    merge_join ap m s w ≠ .error abort.assert_rangemap_insert := by
  unfold merge_join
  simp only
  split
  · exact hap _ _ _
  · simp

theorem completions_foreach_not_insert
    (ap : status_handler → status → world → Except abort world)
    (hap : ∀ sh s w, ap sh s w ≠ .error abort.assert_rangemap_insert)
    (pp : Nat) (s : status) :
    ∀ (n i : Nat) (w : world),
      completions_foreach ap pp s n i w ≠ .error abort.assert_rangemap_insert := by
  intro n
  induction n with
  | zero => intro i w; simp [completions_foreach]
  | succ n ih =>
    intro i w
    simp only [completions_foreach]
    split
    · simp
    · split
      · rename_i e h2
        intro h
        simp only [Except.error.injEq] at h
        subst h
        exact hap _ _ _ h2
      · exact ih _ _

theorem read_page_complete_not_insert
    (ap : status_handler → status → world → Except abort world)
    (hap : ∀ sh s w, ap sh s w ≠ .error abort.assert_rangemap_insert)
    (pp : Nat) (s : status) (w : world) :
    read_page_complete ap pp s w ≠ .error abort.assert_rangemap_insert := by
  unfold read_page_complete
  split
  · simp
  · split
    · rename_i e h2
      intro h
      simp only [Except.error.injEq] at h
      subst h
      unfold read_page_complete_state at h2
      split at h2
      · simp at h2
      · exact set_page_state_not_insert _ _ _ h2
    · split
      · rename_i e h3
        intro h
        simp only [Except.error.injEq] at h
        subst h
        exact completions_foreach_not_insert ap hap _ _ _ _ _ h3
      · simp

theorem write_page_internal_not_insert
    (ap : status_handler → status → world → Except abort world)
    (hap : ∀ sh s w, ap sh s w ≠ .error abort.assert_rangemap_insert)
    (pp : Nat) (buf : List Nat) (q : range) (sh : status_handler) (w : world) :
    pagecache_write_page_internal_page_locked ap pp buf q sh w ≠
      .error abort.assert_rangemap_insert := by
  unfold pagecache_write_page_internal_page_locked
  simp only
  split
  · simp
  · split
    · simp
    · exact block_issue_not_insert ap hap _ _

theorem write_page_io_check_not_insert
    (ap : status_handler → status → world → Except abort world)
    (hap : ∀ sh s w, ap sh s w ≠ .error abort.assert_rangemap_insert)
    (pp : Nat) (buf : List Nat) (q : range) (sh : status_handler) (w : world) :
    pagecache_write_page_io_check ap pp buf q sh w ≠ .error abort.assert_rangemap_insert := by
  unfold pagecache_write_page_io_check
  simp only
  split
  · simp
  · split
    · simp
    · exact write_page_internal_not_insert ap hap _ _ _ _ _

theorem write_page_filled_not_insert
    (ap : status_handler → status → world → Except abort world)
    (hap : ∀ sh s w, ap sh s w ≠ .error abort.assert_rangemap_insert)
    (pp : Nat) (buf : List Nat) (q : range) (sh : status_handler) (s : status) (w : world) :
    pagecache_write_page_filled ap pp buf q sh s w ≠ .error abort.assert_rangemap_insert := by
  unfold pagecache_write_page_filled
  split
  · exact hap _ _ _
  · exact write_page_io_check_not_insert ap hap _ _ _ _ _

/-- No closure application fails the insertion assertion of the page
allocation. -/
theorem apply_not_insert : ∀ (fuel : Nat) (sh : status_handler) (s : status) (w : world),
    apply fuel sh s w ≠ .error abort.assert_rangemap_insert := by
  intro fuel
  induction fuel with
  | zero => intro sh s w; simp [apply]
  | succ n ih =>
    intro sh s w
    cases sh with
    | completion c => simp [apply]
    | merge_join m => exact merge_join_not_insert _ ih _ _ _
    | read_page_complete pp => exact read_page_complete_not_insert _ ih _ _ _
    | pagecache_write_page_filled pp buf q sh1 =>
      exact write_page_filled_not_insert _ ih _ _ _ _ _ _
    | pagecache_write_io_complete pp buf q sh1 =>
      exact write_page_internal_not_insert _ ih _ _ _ _ _

theorem fill_not_insert (ap : status_handler → status → world → Except abort world)
    (hap : ∀ sh s w, ap sh s w ≠ .error abort.assert_rangemap_insert)
    (pp : Nat) (sh : status_handler) (w : world) :
    pagecache_page_fill_cache_locked ap pp sh w ≠ .error abort.assert_rangemap_insert := by
  unfold pagecache_page_fill_cache_locked
  simp only
  split
  · split
    · rename_i e h2
      intro h
      simp only [Except.error.injEq] at h
      subst h
      exact set_page_state_not_insert _ _ _ h2
    · exact block_issue_not_insert ap hap _ _
  · simp

theorem touch_not_insert (pp : Nat) (w : world) :
    pagecache_page_touch_if_filled_cache_locked pp w ≠ .error abort.assert_rangemap_insert := by
  unfold pagecache_page_touch_if_filled_cache_locked
  simp only
  split
  · simp
  · split
    · simp
    · split
      · split
        · rename_i e h2
          intro h
          simp only [Except.error.injEq] at h
          subst h
          exact set_page_state_not_insert _ _ _ h2
        · simp
      · split <;> simp

theorem read_page_internal_not_insert
    (ap : status_handler → status → world → Except abort world)
    (hap : ∀ sh s w, ap sh s w ≠ .error abort.assert_rangemap_insert)
    (pp sg : Nat) (q : range) (m : Nat) (w : world) :
    pagecache_read_page_internal_cache_locked ap pp sg q m w ≠
      .error abort.assert_rangemap_insert := by
  unfold pagecache_read_page_internal_cache_locked
  simp only
  split
  · rename_i e h2
    intro h
    simp only [Except.error.injEq] at h
    subst h
    exact touch_not_insert _ _ h2
  · simp
  · exact fill_not_insert ap hap _ _ _
/-! ## The index: geometry of pages -/

theorem pagesize_pos (pc : pagecache) (ho : pc.page_order < 64) : 0 < pagecache_pagesize pc := by
  unfold pagecache_pagesize
  rw [U64_FROM_BIT_eq _ ho]
  exact Nat.pos_pow_of_pos _ (by norm_num)

theorem range_overlaps_comm (a b : range) : range_overlaps a b = range_overlaps b a := by
  unfold range_overlaps
  rw [Nat.max_comm, Nat.min_comm]

theorem range_overlaps_true_iff (a b : range) :
    range_overlaps a b = true ↔
      a.start < a.end_ ∧ b.start < b.end_ ∧ a.start < b.end_ ∧ b.start < a.end_ := by
  unfold range_overlaps
  rw [decide_eq_true_iff, max_lt_iff, lt_min_iff, lt_min_iff]
  constructor
  · rintro ⟨⟨h1, h2⟩, h3, h4⟩; exact ⟨h1, h4, h2, h3⟩
  · rintro ⟨h1, h2, h3, h4⟩; exact ⟨⟨h1, h3⟩, h4, h2⟩

theorem range_overlaps_false_iff (a b : range) :
    range_overlaps a b = false ↔
      (a.end_ ≤ a.start ∨ b.end_ ≤ b.start ∨ b.end_ ≤ a.start ∨ a.end_ ≤ b.start) := by
  rw [← Bool.not_eq_true, range_overlaps_true_iff]
  omega

/-- The page that starts at a multiple of the page size. -/
theorem page_aligned_of_mod (pc : pagecache) (offset : Nat)
    (h : offset % pagecache_pagesize pc = 0) :
    page_aligned pc (irange offset (offset + pagecache_pagesize pc)) := by
  refine ⟨offset / pagecache_pagesize pc, ?_, ?_⟩
  · exact (Nat.div_mul_cancel (Nat.dvd_of_mod_eq_zero h)).symm
  · rw [Nat.add_mul, Nat.one_mul, Nat.div_mul_cancel (Nat.dvd_of_mod_eq_zero h)]
    rfl

/-- Two pages of the cache that intersect are the same page. -/
theorem page_aligned_overlap_eq (pc : pagecache) (a b : range) (ha : page_aligned pc a)
    (hb : page_aligned pc b) (hov : range_overlaps a b = true) : a.start = b.start := by
  obtain ⟨j, hj1, hj2⟩ := ha
  obtain ⟨k, hk1, hk2⟩ := hb
  rw [range_overlaps_true_iff] at hov
  obtain ⟨_, _, h1, h2⟩ := hov
  rw [hj1, hk2] at h1
  rw [hk1, hj2] at h2
  have h3 : j < k + 1 := Nat.lt_of_mul_lt_mul_right h1
  have h4 : k < j + 1 := Nat.lt_of_mul_lt_mul_right h2
  have h5 : j = k := by omega
  rw [hj1, hk1, h5]

/-- The page at `offset` meets no indexed page, when `offset` is a multiple
of the page size, the page reaches into the rest `[max offset g.start,
g.end)` of a gap, and no indexed page meets that rest. -/
theorem gap_page_no_overlap (w : world) (g : range) (offset : Nat)
    (hinv : index_invariant w)
    (hmod : offset % pagecache_pagesize w.pc = 0) (hlt : offset < g.end_)
    (hg : g.start < g.end_) (hst : g.start < offset + pagecache_pagesize w.pc)
    (hunc : ∀ n ∈ w.pc.pages,
      range_overlaps (w.page n).node_r (irange (max offset g.start) g.end_) = false) :
    ∀ n ∈ w.pc.pages, range_overlaps (w.page n).node_r
      (irange offset (offset + pagecache_pagesize w.pc)) = false := by
  intro n hn
  by_contra hov
  have hov2 : range_overlaps (w.page n).node_r
      (irange offset (offset + pagecache_pagesize w.pc)) = true := by
    simpa using hov
  have heq := page_aligned_overlap_eq w.pc _ _ (hinv.1 n hn) (page_aligned_of_mod w.pc offset hmod)
    hov2
  have hend : (w.page n).node_r.end_ = offset + pagecache_pagesize w.pc := by
    obtain ⟨k, hk1, hk2⟩ := hinv.1 n hn
    rw [hk2, Nat.add_mul, Nat.one_mul, ← hk1, heq]
    rfl
  have hstart : (w.page n).node_r.start = offset := heq
  have hps : 0 < pagecache_pagesize w.pc := by
    rcases Nat.eq_zero_or_pos (pagecache_pagesize w.pc) with h0 | h0
    · rw [range_overlaps_true_iff] at hov2
      simp only [irange, h0] at hov2
      omega
    · exact h0
  have := hunc n hn
  rw [range_overlaps_false_iff] at this
  simp only [irange, hend, hstart] at this
  rcases Nat.le_total offset g.start with h4 | h4
  · rw [Nat.max_eq_right h4] at this; omega
  · rw [Nat.max_eq_left h4] at this; omega

theorem rangemap_place_perm (page : Nat → pagecache_page) (pp : Nat) (l : List Nat) :
    (rangemap_place page pp l).Perm (pp :: l) := by
  induction l with
  | nil => exact List.Perm.refl _
  | cons a l ih =>
    simp only [rangemap_place]
    split
    · exact List.Perm.refl _
    · exact (List.Perm.cons a ih).trans (List.Perm.swap pp a l)

/-- A completed allocation of a page of the cache keeps the index invariants
and the well-formedness of the index. -/
theorem allocate_index_invariant (r : range) (w w1 : world) (pp : Nat)
    (hinv : index_invariant w) (hwf : index_wf w) (hr : page_aligned w.pc r)
    (h : allocate_pagecache_page_cache_locked r w = .ok (some pp, w1)) :
    index_invariant w1 ∧ index_wf w1 := by
  obtain ⟨h1, h2, h3, h4, h5, h6, h7, h8, _, h10⟩ := allocate_some_inv r w w1 pp hwf h
  have hperm := rangemap_place_perm w1.page pp w.pc.pages
  rw [← h4] at hperm
  have hmem : ∀ p, p ∈ w1.pc.pages ↔ p = pp ∨ p ∈ w.pc.pages := by
    intro p
    rw [hperm.mem_iff]
    simp
  have hps : pagecache_pagesize w1.pc = pagecache_pagesize w.pc := by
    unfold pagecache_pagesize; rw [h5]
  refine ⟨⟨fun p hp => ?_, ?_⟩, ⟨fun p hp => ?_, fun p hp => ?_, by rw [h5]; exact hwf.2.2⟩⟩
  · rcases (hmem p).1 hp with hpp | hpp
    · subst hpp
      rw [h6]
      simpa only [page_aligned, hps] using hr
    · have hne : p ≠ pp := fun hh => h1 (hh ▸ hpp)
      rw [h7 p hne]
      simpa only [page_aligned, hps] using hinv.1 p hpp
  · have hsymm : Symmetric (fun a b : Nat =>
        range_overlaps (w1.page a).node_r (w1.page b).node_r = false) := by
      intro a b hab
      rw [range_overlaps_comm]; exact hab
    rw [List.Perm.pairwise_iff (fun hab => hsymm hab) hperm, List.pairwise_cons]
    refine ⟨fun n hn => ?_, ?_⟩
    · have hne : n ≠ pp := fun hh => h1 (hh ▸ hn)
      show range_overlaps (w1.page pp).node_r (w1.page n).node_r = false
      rw [h6, h7 n hne, range_overlaps_comm]
      exact h10 n hn
    · refine hinv.2.imp_of_mem ?_
      intro a b ha hb hab
      have hna : a ≠ pp := fun hh => h1 (hh ▸ ha)
      have hnb : b ≠ pp := fun hh => h1 (hh ▸ hb)
      show range_overlaps (w1.page a).node_r (w1.page b).node_r = false
      rw [h7 a hna, h7 b hnb]; exact hab
  · rcases (hmem p).1 hp with hpp | hpp
    · subst hpp; exact h2
    · exact Nat.lt_of_lt_of_le (hwf.1 p hpp) h3
  · obtain ⟨hf1, hf2⟩ := h8 p hp
    refine ⟨fun hm => ?_, Nat.lt_of_lt_of_le (hwf.2.1 p hf1).2 h3⟩
    rcases (hmem p).1 hm with hpp | hpp
    · exact hf2 hpp
    · exact (hwf.2.1 p hf1).1 hpp
/-! ## The loops of the gap handlers -/

/-- A rule for the loop of the read gap handler: an invariant `I` of the
loop variable and the world that every iteration keeps, and a property
`Post` of the outcome that holds wherever the loop is left. -/
theorem read_gap_loop_rule (ap : status_handler → status → world → Except abort world)
    (sg : Nat) (q : range) (m : Nat) (r : range) (ps : Nat)
    (I : Nat → world → Prop) (Post : Except abort world → Prop)
    (hnw : r.end_ + ps ≤ 2 ^ 64)
    (hexit : ∀ offset w, I offset w → ¬ offset < r.end_ → Post (.ok w))
    (herr : ∀ offset w e, I offset w → offset < r.end_ →
      allocate_pagecache_page_cache_locked (irange offset (offset + ps)) w = .error e →
      Post (.error e))
    (hnone : ∀ offset w w1, I offset w → offset < r.end_ →
      allocate_pagecache_page_cache_locked (irange offset (offset + ps)) w = .ok (none, w1) →
      Post (ap (apply_merge m w1).1 (timm "failed to allocate pagecache_page")
        (apply_merge m w1).2))
    (hbody_err : ∀ offset w pp w1 e, I offset w → offset < r.end_ →
      allocate_pagecache_page_cache_locked (irange offset (offset + ps)) w = .ok (some pp, w1) →
      pagecache_read_page_internal_cache_locked ap pp sg q m w1 = .error e → Post (.error e))
    (hbody : ∀ offset w pp w1 w2, I offset w → offset < r.end_ →
      allocate_pagecache_page_cache_locked (irange offset (offset + ps)) w = .ok (some pp, w1) →
      pagecache_read_page_internal_cache_locked ap pp sg q m w1 = .ok w2 → I (offset + ps) w2) :
    ∀ (n offset : Nat) (w : world), I offset w → r.end_ ≤ offset + n * ps →
      Post (pagecache_read_gap_loop ap sg q m r ps n offset w) := by
  intro n
  induction n with
  | zero =>
    intro offset w hI hb
    have hnot : ¬ offset < r.end_ := by omega
    simp only [pagecache_read_gap_loop, if_neg hnot]
    exact hexit offset w hI hnot
  | succ n ih =>
    intro offset w hI hb
    simp only [pagecache_read_gap_loop]
    by_cases hlt : offset < r.end_
    · rw [if_pos hlt, u64_add_of_lt offset ps (by omega)]
      cases ha : allocate_pagecache_page_cache_locked (irange offset (offset + ps)) w with
      | error e => exact herr offset w e hI hlt ha
      | ok res =>
        obtain ⟨o, w1⟩ := res
        cases o with
        | none => exact hnone offset w w1 hI hlt ha
        | some pp =>
          simp only
          cases hr : pagecache_read_page_internal_cache_locked ap pp sg q m w1 with
          | error e => exact hbody_err offset w pp w1 e hI hlt ha hr
          | ok w2 =>
            simp only
            refine ih (offset + ps) w2 (hbody offset w pp w1 w2 hI hlt ha hr) ?_
            rw [Nat.succ_mul] at hb
            omega
    · rw [if_neg hlt]
      exact hexit offset w hI hlt

/-- The same rule for the loop of the write gap handler. -/
theorem write_gap_loop_rule (ap : status_handler → status → world → Except abort world)
    (buf : List Nat) (q : range) (m : Nat) (r : range) (ps : Nat)
    (I : Nat → world → Prop) (Post : Except abort world → Prop)
    (hnw : r.end_ + ps ≤ 2 ^ 64)
    (hexit : ∀ offset w, I offset w → ¬ offset < r.end_ → Post (.ok w))
    (herr : ∀ offset w e, I offset w → offset < r.end_ →
      allocate_pagecache_page_cache_locked (irange offset (offset + ps)) w = .error e →
      Post (.error e))
    (hnone : ∀ offset w w1, I offset w → offset < r.end_ →
      allocate_pagecache_page_cache_locked (irange offset (offset + ps)) w = .ok (none, w1) →
      Post (ap (apply_merge m w1).1 (timm "failed to allocate pagecache_page")
        (apply_merge m w1).2))
    (hbody_err : ∀ offset w pp w1 e, I offset w → offset < r.end_ →
      allocate_pagecache_page_cache_locked (irange offset (offset + ps)) w = .ok (some pp, w1) →
      pagecache_write_gap_page ap buf q m pp w1 = .error e → Post (.error e))
    (hbody : ∀ offset w pp w1 w2, I offset w → offset < r.end_ →
      allocate_pagecache_page_cache_locked (irange offset (offset + ps)) w = .ok (some pp, w1) →
      pagecache_write_gap_page ap buf q m pp w1 = .ok w2 → I (offset + ps) w2) :
    ∀ (n offset : Nat) (w : world), I offset w → r.end_ ≤ offset + n * ps →
      Post (pagecache_write_gap_loop ap buf q m r ps n offset w) := by
  intro n
  induction n with
  | zero =>
    intro offset w hI hb
    have hnot : ¬ offset < r.end_ := by omega
    simp only [pagecache_write_gap_loop, if_neg hnot]
    exact hexit offset w hI hnot
  | succ n ih =>
    intro offset w hI hb
    simp only [pagecache_write_gap_loop]
    by_cases hlt : offset < r.end_
    · rw [if_pos hlt, u64_add_of_lt offset ps (by omega)]
      cases ha : allocate_pagecache_page_cache_locked (irange offset (offset + ps)) w with
      | error e => exact herr offset w e hI hlt ha
      | ok res =>
        obtain ⟨o, w1⟩ := res
        cases o with
        | none => exact hnone offset w w1 hI hlt ha
        | some pp =>
          simp only
          cases hr : pagecache_write_gap_page ap buf q m pp w1 with
          | error e => exact hbody_err offset w pp w1 e hI hlt ha hr
          | ok w2 =>
            simp only
            refine ih (offset + ps) w2 (hbody offset w pp w1 w2 hI hlt ha hr) ?_
            rw [Nat.succ_mul] at hb
            omega
    · rw [if_neg hlt]
      exact hexit offset w hI hlt

theorem write_gap_page_preserves (P : world → Prop) (hst : stable P)
    (hset : set_state_preserves P)
    (ap : status_handler → status → world → Except abort world) (hap : ap_preserves P ap)
    (buf : List Nat) (q : range) (m pp : Nat) (w w1 : world)
    (h : pagecache_write_gap_page ap buf q m pp w = .ok w1) (hP : P w) : P w1 := by
  unfold pagecache_write_gap_page at h
  simp only at h
  have h0 : P (apply_merge m w).2 := hst _ _ (same_core_apply_merge m w) hP
  split at h
  · exact write_page_internal_preserves P hst ap hap _ _ _ _ _ _ h h0
  · exact fill_preserves P hst hset ap hap _ _ _ _ h h0

theorem write_gap_page_not_insert (ap : status_handler → status → world → Except abort world)
    (hap : ∀ sh s w, ap sh s w ≠ .error abort.assert_rangemap_insert)
    (buf : List Nat) (q : range) (m pp : Nat) (w : world) :
    pagecache_write_gap_page ap buf q m pp w ≠ .error abort.assert_rangemap_insert := by
  unfold pagecache_write_gap_page
  simp only
  split
  · exact write_page_internal_not_insert ap hap _ _ _ _ _
  · exact fill_not_insert ap hap _ _ _
/-! ## The gap handlers keep the index invariants -/

theorem gap_invariant_exit (g : range) (ps offset : Nat) (w : world)
    (h : gap_invariant g ps offset w) : keeps_index (.ok w) :=
  ⟨by simp, fun w1 hw => by
    simp only [Except.ok.injEq] at hw
    subst hw; exact ⟨h.1, h.2.1⟩⟩

theorem keeps_index_error (e : abort) (h : e ≠ abort.assert_rangemap_insert) :
    keeps_index (.error e) :=
  ⟨by simpa using h, fun w1 hw => by simp at hw⟩

theorem gap_invariant_alloc_error (g : range) (ps offset : Nat) (w : world) (e : abort)
    (hg : g.start < g.end_) (h : gap_invariant g ps offset w) (hlt : offset < g.end_)
    (ha : allocate_pagecache_page_cache_locked (irange offset (offset + ps)) w = .error e) :
    keeps_index (.error e) := by
  obtain ⟨hinv, hwf, hps, hmod, hst, hunc⟩ := h
  refine keeps_index_error e ?_
  intro he
  subst he
  subst hps
  exact allocate_no_insert_abort _ w hwf
    (gap_page_no_overlap w g offset hinv hmod hlt hg hst hunc) ha

theorem gap_invariant_alloc_none (g : range) (ps offset fuel m : Nat) (w w1 : world)
    (s : status) (h : gap_invariant g ps offset w)
    (ha : allocate_pagecache_page_cache_locked (irange offset (offset + ps)) w = .ok (none, w1)) :
    keeps_index (apply fuel (apply_merge m w1).1 s (apply_merge m w1).2) := by
  obtain ⟨hinv, hwf, _⟩ := h
  obtain ⟨h1, h2, h3, _⟩ := allocate_none_inv _ w w1 ha
  have hf : index_frame w w1 := by
    refine ⟨by rw [h1], by rw [h1], h3, fun p => by rw [h2], fun x hx => by rw [← h1]; exact hx⟩
  have hf2 : index_frame w (apply_merge m w1).2 :=
    stable_index_frame w _ _ (same_core_apply_merge m w1) hf
  refine ⟨apply_not_insert _ _ _ _, fun w2 hw => ?_⟩
  have hf3 := apply_index_frame w fuel _ _ _ _ hw hf2
  exact ⟨index_invariant_of_frame _ _ hf3 hinv, index_wf_of_frame _ _ hf3 hwf⟩

theorem gap_invariant_step (g : range) (ps offset pp : Nat) (w w1 w2 : world)
    (h : gap_invariant g ps offset w) (hlt : offset < g.end_)
    (ha : allocate_pagecache_page_cache_locked (irange offset (offset + ps)) w =
      .ok (some pp, w1))
    (hf : index_frame w1 w2) : gap_invariant g ps (offset + ps) w2 := by
  obtain ⟨hinv, hwf, hps, hmod, hst, hunc⟩ := h
  subst hps
  have hal : page_aligned w.pc (irange offset (offset + pagecache_pagesize w.pc)) :=
    page_aligned_of_mod w.pc offset hmod
  obtain ⟨hinv1, hwf1⟩ := allocate_index_invariant _ w w1 pp hinv hwf hal ha
  obtain ⟨h1, h2, h3, h4, h5, h6, h7, h8, _, h10⟩ := allocate_some_inv _ w w1 pp hwf ha
  have hps1 : pagecache_pagesize w1.pc = pagecache_pagesize w.pc := by
    unfold pagecache_pagesize; rw [h5]
  have hps2 : pagecache_pagesize w2.pc = pagecache_pagesize w.pc := by
    unfold pagecache_pagesize at hps1 ⊢; rw [hf.2.1]; exact hps1
  have hpos : 0 < pagecache_pagesize w.pc := pagesize_pos w.pc hwf.2.2
  refine ⟨index_invariant_of_frame _ _ hf hinv1, index_wf_of_frame _ _ hf hwf1, hps2, ?_, ?_, ?_⟩
  · rw [Nat.add_mod, hmod, Nat.mod_self]
    simp
  · omega
  · intro n hn
    rw [hf.1] at hn
    rw [hf.2.2.2.1 n]
    have hperm := rangemap_place_perm w1.page pp w.pc.pages
    rw [← h4] at hperm
    have hn2 : n = pp ∨ n ∈ w.pc.pages := by
      have := (hperm.mem_iff (a := n)).1 hn
      simpa using this
    have hmax : max (offset + pagecache_pagesize w.pc) g.start =
        offset + pagecache_pagesize w.pc := Nat.max_eq_left (by omega)
    rw [hmax, range_overlaps_false_iff]
    simp only [irange]
    rcases hn2 with hpp | hpp
    · subst hpp
      rw [h6]
      simp only [irange]
      omega
    · have hne : n ≠ pp := fun hh => h1 (hh ▸ hpp)
      rw [h7 n hne]
      have := hunc n hpp
      rw [range_overlaps_false_iff] at this
      simp only [irange] at this
      rcases Nat.le_total offset g.start with h9 | h9
      · rw [Nat.max_eq_right h9] at this; omega
      · rw [Nat.max_eq_left h9] at this; omega

/-- The invariant of the gap loops holds when a gap handler starts. -/
theorem gap_invariant_start (g : range) (w : world) (hinv : index_invariant w)
    (hwf : index_wf w) (hg64 : g.start < 2 ^ 64)
    (hunc : ∀ n ∈ w.pc.pages, range_overlaps (w.page n).node_r g = false) :
    gap_invariant g (U64_FROM_BIT w.pc.page_order)
      (g.start &&& u64_not (MASK w.pc.page_order)) w := by
  have hpos : 0 < pagecache_pagesize w.pc := pagesize_pos w.pc hwf.2.2
  have hps : pagecache_pagesize w.pc = 2 ^ w.pc.page_order := U64_FROM_BIT_eq _ hwf.2.2
  rw [align_down_eq g.start _ hg64 hwf.2.2]
  show gap_invariant g (pagecache_pagesize w.pc) _ w
  rw [← hps]
  refine ⟨hinv, hwf, rfl, Nat.mul_mod_left _ _, Nat.lt_div_mul_add hpos, ?_⟩
  intro n hn
  rw [Nat.max_eq_right (Nat.div_mul_le_self _ _)]
  exact hunc n hn

theorem gap_budget (g : range) (offset ps : Nat) (hps : 0 < ps) (hnw : g.end_ + ps ≤ 2 ^ 64) :
    g.end_ ≤ offset + 2 ^ 64 * ps := by
  have : 2 ^ 64 * 1 ≤ 2 ^ 64 * ps := Nat.mul_le_mul_left _ hps
  omega

/-- C4: if the range of every indexed page is a page `[k * page_size,
(k + 1) * page_size)` of the cache and the indexed ranges are pairwise
disjoint, and `g` is a gap (no indexed range meets it), then neither the
read nor the write gap handler over `g` fails the insertion assertion of
`allocate_pagecache_page_cache_locked`, and in the world either of them
ends in the indexed ranges are again pages of the cache and pairwise
disjoint.  The index is taken well formed and the gap to end a page below
`2 ^ 64`. -/
theorem gap_handlers_keep_index (fuel sg : Nat) (buf : List Nat) (q : range) (m : Nat)
    (g : range) (w : world) (hinv : index_invariant w) (hwf : index_wf w)
    (hg : g.start < g.end_) (hnw : g.end_ + pagecache_pagesize w.pc ≤ 2 ^ 64)
    (hunc : ∀ n ∈ w.pc.pages, range_overlaps (w.page n).node_r g = false) :
    (pagecache_read_gap_cache_locked (apply fuel) sg q m g w ≠
        .error abort.assert_rangemap_insert ∧
      ∀ w1, pagecache_read_gap_cache_locked (apply fuel) sg q m g w = .ok w1 →
        index_invariant w1) ∧
    (pagecache_write_gap_cache_locked (apply fuel) buf q m g w ≠
        .error abort.assert_rangemap_insert ∧
      ∀ w1, pagecache_write_gap_cache_locked (apply fuel) buf q m g w = .ok w1 →
        index_invariant w1) := by
  have hpos : 0 < pagecache_pagesize w.pc := pagesize_pos w.pc hwf.2.2
  have hstart := gap_invariant_start g w hinv hwf (by omega) hunc
  have hread : keeps_index (pagecache_read_gap_cache_locked (apply fuel) sg q m g w) := by
    unfold pagecache_read_gap_cache_locked
    simp only
    refine read_gap_loop_rule (apply fuel) sg q m g (U64_FROM_BIT w.pc.page_order)
      (gap_invariant g (U64_FROM_BIT w.pc.page_order)) keeps_index hnw ?_ ?_ ?_ ?_ ?_
      (2 ^ 64) _ w hstart (gap_budget g _ _ hpos hnw)
    · intro offset w0 hI _
      exact gap_invariant_exit g _ offset w0 hI
    · intro offset w0 e hI hlt ha
      exact gap_invariant_alloc_error g _ offset w0 e hg hI hlt ha
    · intro offset w0 w1 hI _ ha
      exact gap_invariant_alloc_none g _ offset fuel m w0 w1 _ hI ha
    · intro offset w0 pp w1 e _ _ _ hr
      refine keeps_index_error e ?_
      intro he
      subst he
      exact read_page_internal_not_insert _ (apply_not_insert fuel) _ _ _ _ _ hr
    · intro offset w0 pp w1 w2 hI hlt ha hr
      exact gap_invariant_step g _ offset pp w0 w1 w2 hI hlt ha
        (read_page_internal_index_frame fuel pp sg q m w1 w2 hr)
  have hwrite : keeps_index (pagecache_write_gap_cache_locked (apply fuel) buf q m g w) := by
    unfold pagecache_write_gap_cache_locked
    simp only
    refine write_gap_loop_rule (apply fuel) buf q m g (U64_FROM_BIT w.pc.page_order)
      (gap_invariant g (U64_FROM_BIT w.pc.page_order)) keeps_index hnw ?_ ?_ ?_ ?_ ?_
      (2 ^ 64) _ w hstart (gap_budget g _ _ hpos hnw)
    · intro offset w0 hI _
      exact gap_invariant_exit g _ offset w0 hI
    · intro offset w0 e hI hlt ha
      exact gap_invariant_alloc_error g _ offset w0 e hg hI hlt ha
    · intro offset w0 w1 hI _ ha
      exact gap_invariant_alloc_none g _ offset fuel m w0 w1 _ hI ha
    · intro offset w0 pp w1 e _ _ _ hr
      refine keeps_index_error e ?_
      intro he
      subst he
      exact write_gap_page_not_insert _ (apply_not_insert fuel) _ _ _ _ _ hr
    · intro offset w0 pp w1 w2 hI hlt ha hr
      exact gap_invariant_step g _ offset pp w0 w1 w2 hI hlt ha
        (write_gap_page_preserves _ (stable_index_frame w1)
          (set_state_preserves_index_frame w1) _ (apply_index_frame w1 fuel) _ _ _ _ _ _ hr
          (index_frame_refl w1))
  exact ⟨⟨hread.1, fun w1 h1 => (hread.2 w1 h1).1⟩, ⟨hwrite.1, fun w1 h1 => (hwrite.2 w1 h1).1⟩⟩

theorem index_invariant_one_page_world : index_invariant one_page_world ∧ index_wf one_page_world := by
  have hp : one_page_world.pc.pages = [0] := rfl
  have hf : one_page_world.pc.free = [] := rfl
  refine ⟨⟨fun p hm => ?_, ?_⟩, ⟨fun p hm => ?_, fun p hm => ?_, by decide⟩⟩
  · rw [hp] at hm
    simp only [List.mem_singleton] at hm
    subst hm
    exact ⟨1, rfl, rfl⟩
  · rw [hp]; exact List.pairwise_singleton _ _
  · rw [hp] at hm
    simp only [List.mem_singleton] at hm
    subst hm
    decide
  · rw [hf] at hm
    simp at hm

theorem gap_handlers_keep_index_witness :
    (index_invariant one_page_world ∧ index_wf one_page_world ∧
      (irange 10 14).start < (irange 10 14).end_ ∧
      (irange 10 14).end_ + pagecache_pagesize one_page_world.pc ≤ 2 ^ 64 ∧
      ∀ n ∈ one_page_world.pc.pages,
        range_overlaps (one_page_world.page n).node_r (irange 10 14) = false) ∧
    ((pagecache_read_gap_cache_locked (apply 4) 0 (irange 10 14) 0 (irange 10 14)
          one_page_world ≠ .error abort.assert_rangemap_insert ∧
      ∀ w1, pagecache_read_gap_cache_locked (apply 4) 0 (irange 10 14) 0 (irange 10 14)
          one_page_world = .ok w1 → index_invariant w1) ∧
    (pagecache_write_gap_cache_locked (apply 4) [1, 2, 3, 4] (irange 10 14) 0 (irange 10 14)
          one_page_world ≠ .error abort.assert_rangemap_insert ∧
      ∀ w1, pagecache_write_gap_cache_locked (apply 4) [1, 2, 3, 4] (irange 10 14) 0
          (irange 10 14) one_page_world = .ok w1 → index_invariant w1)) := by
  have hunc : ∀ n ∈ one_page_world.pc.pages,
      range_overlaps (one_page_world.page n).node_r (irange 10 14) = false := by
    intro n hn
    have hp : one_page_world.pc.pages = [0] := rfl
    rw [hp] at hn
    simp only [List.mem_singleton] at hn
    subst hn
    rfl
  exact ⟨⟨index_invariant_one_page_world.1, index_invariant_one_page_world.2, by decide,
    by decide, hunc⟩,
    gap_handlers_keep_index 4 0 [1, 2, 3, 4] (irange 10 14) 0 (irange 10 14)
      one_page_world index_invariant_one_page_world.1 index_invariant_one_page_world.2
      (by decide) (by decide) hunc⟩
/-! ## The entries of a read -/

theorem apply_merge_join (n m : Nat) (s : status) (w : world) :
    apply (n + 1) (status_handler.merge_join m) s w = merge_join (apply n) m s w := rfl

theorem apply_read_page_complete (n pp : Nat) (s : status) (w : world) :
    apply (n + 1) (status_handler.read_page_complete pp) s w =
      read_page_complete (apply n) pp s w := rfl

theorem apply_write_page_filled (n pp : Nat) (buf : List Nat) (q : range) (sh : status_handler)
    (s : status) (w : world) :
    apply (n + 1) (status_handler.pagecache_write_page_filled pp buf q sh) s w =
      pagecache_write_page_filled (apply n) pp buf q sh s w := rfl

theorem apply_completion (n c : Nat) (s : status) (w : world) :
    apply (n + 1) (status_handler.completion c) s w =
      .ok { w with fired := w.fired ++ [(c, s)] } := rfl

theorem merge_join_pending (ap : status_handler → status → world → Except abort world)
    (m : Nat) (s : status) (w : world) (h : (w.merges m).count ≠ 1) :
    merge_join ap m s w = .ok (merge_done w m s) := by
  unfold merge_join merge_done
  simp only [h, if_false]

theorem merge_join_last (ap : status_handler → status → world → Except abort world)
    (m : Nat) (w : world) (h : (w.merges m).count = 1)
    (hl : (w.merges m).last_status = STATUS_OK) :
    merge_join ap m STATUS_OK w = ap (w.merges m).completion STATUS_OK (merge_done w m STATUS_OK) := by
  unfold merge_join merge_done
  simp only [h, if_true, hl]
  rfl

theorem block_issue_sync (ap : status_handler → status → world → Except abort world)
    (req : block_req) (w : world) (h : device_policy w req = block_policy.sync STATUS_OK) :
    block_issue ap req w = ap req.sh STATUS_OK (block_transfer (logged w req) req) := by
  unfold block_issue block_answer
  have h1 : device_policy { w with issued := w.issued ++ [req] } req = device_policy w req := rfl
  rw [h1, h]
  rfl

/-- The write through of a page, over a device that answers writes at once
with STATUS_OK, when the two assertions hold. -/
theorem write_page_internal_sync (ap : status_handler → status → world → Except abort world)
    (pp : Nat) (buf : List Nat) (q : range) (sh : status_handler) (w : world)
    (hs : page_state (w.page pp) = PAGECACHE_PAGESTATE_ALLOC ∨
      page_state (w.page pp) = PAGECACHE_PAGESTATE_NEW ∨
      page_state (w.page pp) = PAGECACHE_PAGESTATE_ACTIVE ∨
      page_state (w.page pp) = PAGECACHE_PAGESTATE_DIRTY)
    (hl : u64_add (w.page pp).node_r.start (range_span (range_intersection q (w.page pp).node_r)) ≤
      w.pc.length)
    (hpol : w.write_policy = block_policy.sync STATUS_OK) :
    pagecache_write_page_internal_page_locked ap pp buf q sh w =
      ap sh STATUS_OK (written_through w pp buf q sh) := by
  unfold pagecache_write_page_internal_page_locked
  simp only [hs, not_true_eq_false, if_false, hl]
  rw [block_issue_sync]
  · rfl
  · simp [device_policy, runtime_memcpy, set_page, hpol]
theorem set_page_state_new_ok (pp : Nat) (w : world)
    (hs : page_state (w.page pp) = PAGECACHE_PAGESTATE_READING) :
    set_page_state_cache_locked pp PAGECACHE_PAGESTATE_NEW w = .ok (moved_to_new w pp) := by
  unfold set_page_state_cache_locked
  simp only [hs]
  rfl

theorem set_page_state_active_ok (pp : Nat) (w : world)
    (hs : page_state (w.page pp) = PAGECACHE_PAGESTATE_NEW) :
    set_page_state_cache_locked pp PAGECACHE_PAGESTATE_ACTIVE w = .ok (moved_to_active w pp) := by
  unfold set_page_state_cache_locked
  simp only [hs]
  rfl

/-- The completion of the fill of a page whose queue holds one handler. -/
theorem read_page_complete_single (ap : status_handler → status → world → Except abort world)
    (pp : Nat) (w w1 : world) (sh : status_handler)
    (hs : page_state (w.page pp) = PAGECACHE_PAGESTATE_READING)
    (hq : (w.page pp).completions = [sh])
    (h : ap sh STATUS_OK (moved_to_new w pp) = .ok w1) :
    read_page_complete ap pp STATUS_OK w = .ok (queue_cleared w1 pp) := by
  have hq1 : ((moved_to_new w pp).page pp).completions = [sh] := by
    simp [moved_to_new, set_page, hq]
  unfold read_page_complete read_page_complete_state
  have hok : (!is_ok STATUS_OK) = false := rfl
  simp only [hs, ne_eq, not_true_eq_false, if_false, hok, Bool.false_eq_true,
    set_page_state_new_ok pp w hs, hq1, List.length_singleton]
  simp only [completions_foreach, hq1, List.getElem?_cons_zero, h]
  rfl

/-- A fill of an Alloc page over a device that answers reads at once with
STATUS_OK. -/
theorem fill_sync (ap : status_handler → status → world → Except abort world)
    (pp : Nat) (sh : status_handler) (w : world)
    (hs : page_state (w.page pp) = PAGECACHE_PAGESTATE_ALLOC)
    (hpol : w.read_policy = block_policy.sync STATUS_OK) :
    pagecache_page_fill_cache_locked ap pp sh w =
      ap (status_handler.read_page_complete pp) STATUS_OK
        (block_transfer (logged (fill_prepared w pp sh) (fill_request w pp))
          (fill_request w pp)) := by
  rw [fill_alloc_eq ap pp sh w hs, block_issue_sync]
  · rfl
  · have : (fill_prepared w pp sh).read_policy = w.read_policy := by
      unfold fill_prepared
      simp only
      split <;> rfl
    simp [device_policy, fill_request, this, hpol]

theorem write_page_io_check_new (ap : status_handler → status → world → Except abort world)
    (pp : Nat) (buf : List Nat) (q : range) (sh : status_handler) (w : world)
    (hs : page_state (w.page pp) = PAGECACHE_PAGESTATE_NEW) :
    pagecache_write_page_io_check ap pp buf q sh w =
      pagecache_write_page_internal_page_locked ap pp buf q sh w := by
  unfold pagecache_write_page_io_check
  simp [hs, PAGECACHE_PAGESTATE_NEW, PAGECACHE_PAGESTATE_ALLOC, PAGECACHE_PAGESTATE_READING]
/-- The intersection of a page with the bytes of a transfer it meets. -/
theorem inter_cases (w : world) (q : range) (pp : Nat) (hg : page_geometry w q pp) :
    ∃ i0 i1, range_intersection q (w.page pp).node_r = irange i0 i1 ∧
      range_intersection (w.page pp).node_r q = irange i0 i1 ∧
      (w.page pp).node_r.start ≤ i0 ∧ q.start ≤ i0 ∧ i1 ≤ (w.page pp).node_r.end_ ∧
      i1 ≤ q.end_ ∧ i0 < i1 ∧ i0 % 2 ^ w.pc.block_order = 0 ∧ i1 % 2 ^ w.pc.block_order = 0 ∧
      (i0 = (w.page pp).node_r.start ∨ i0 = q.start) ∧
      (i1 = (w.page pp).node_r.end_ ∨ i1 = q.end_) := by
  obtain ⟨h1, h2, h3, h4, h5, h6, h7, h8, h9, h10, h11, h12⟩ := hg
  refine ⟨max q.start (w.page pp).node_r.start, min q.end_ (w.page pp).node_r.end_, ?_, ?_, ?_⟩
  · unfold range_intersection
    simp only [irange]
    rw [if_neg]
    rcases Nat.le_total q.start (w.page pp).node_r.start with ha | ha <;>
      rcases Nat.le_total q.end_ (w.page pp).node_r.end_ with hb | hb <;>
      simp only [Nat.max_eq_right, Nat.max_eq_left, Nat.min_eq_left, Nat.min_eq_right, ha, hb] <;>
      omega
  · unfold range_intersection
    simp only [irange]
    rw [Nat.max_comm, Nat.min_comm, if_neg]
    rcases Nat.le_total q.start (w.page pp).node_r.start with ha | ha <;>
      rcases Nat.le_total q.end_ (w.page pp).node_r.end_ with hb | hb <;>
      simp only [Nat.max_eq_right, Nat.max_eq_left, Nat.min_eq_left, Nat.min_eq_right, ha, hb] <;>
      omega
  · rcases Nat.le_total q.start (w.page pp).node_r.start with ha | ha <;>
      rcases Nat.le_total q.end_ (w.page pp).node_r.end_ with hb | hb <;>
      simp only [Nat.max_eq_right, Nat.max_eq_left, Nat.min_eq_left, Nat.min_eq_right, ha, hb] <;>
      refine ⟨?_, ?_, ?_, ?_, ?_, ?_, ?_, ?_, ?_⟩ <;> first | assumption | trivial | omega | simp
theorem shift_right_mul (x bo : Nat) (h : x % 2 ^ bo = 0) : (x >>> bo) * 2 ^ bo = x := by
  rw [Nat.shiftRight_eq_div_pow]
  exact Nat.div_mul_cancel (Nat.dvd_of_mod_eq_zero h)

/-- What the write through of a page does: the bytes of the caller that fall
into the page are in the buffer of the page and on the backing store, and
nothing else has changed. -/
theorem written_through_spec (w : world) (pp : Nat) (buf : List Nat) (q : range)
    (sh : status_handler) (hg : page_geometry w q pp) :
    light_frame w (written_through w pp buf q sh) pp ∧
      (written_through w pp buf q sh).pc = w.pc ∧
      (written_through w pp buf q sh).merges = w.merges ∧
      (written_through w pp buf q sh).sg = w.sg ∧
      ((written_through w pp buf q sh).page pp).state_phys = (w.page pp).state_phys ∧
      ((written_through w pp buf q sh).page pp).completions = (w.page pp).completions ∧
      (∀ d, covered (w.page pp).node_r q d →
        (written_through w pp buf q sh).disk d = buf.getD (d - q.start) 0) ∧
      (∀ d, ¬ covered (w.page pp).node_r q d →
        (written_through w pp buf q sh).disk d = w.disk d) ∧
      (∀ d, covered (w.page pp).node_r q d →
        ((written_through w pp buf q sh).page pp).kvirt (d - (w.page pp).node_r.start) =
          buf.getD (d - q.start) 0) := by
  obtain ⟨i0, i1, hi, -, hr0, hq0, hr1, hq1, hlt, hm0, hm1, hc0, hc1⟩ := inter_cases w q pp hg
  obtain ⟨h1, h2, h3, h4, h5, h6, h7, h8, h9, h10, h11, h12⟩ := hg
  have hoff : u64_sub i0 (w.page pp).node_r.start = i0 - (w.page pp).node_r.start :=
    u64_sub_of_le _ _ hr0 (by omega)
  have hsrc : u64_sub i0 q.start = i0 - q.start := u64_sub_of_le _ _ hq0 (by omega)
  have hlen : range_span ⟨i0, i1⟩ = i1 - i0 := by
    simp only [range_span]
    exact u64_sub_of_le _ _ (by omega) (by omega)
  have hbase : (i0 >>> w.pc.block_order) * 2 ^ w.pc.block_order = i0 := shift_right_mul _ _ hm0
  have hbytes : ((i1 >>> w.pc.block_order) - (i0 >>> w.pc.block_order)) * 2 ^ w.pc.block_order =
      i1 - i0 := by
    rw [Nat.sub_mul, hbase, shift_right_mul _ _ hm1]
  have hcov : ∀ d, covered (w.page pp).node_r q d ↔ i0 ≤ d ∧ d < i1 := by
    intro d
    unfold covered
    rcases hc0 with hc0 | hc0 <;> rcases hc1 with hc1 | hc1 <;> omega
  have hk : ∀ d, i0 ≤ d → d < i1 →
      ((written_through w pp buf q sh).page pp).kvirt (d - (w.page pp).node_r.start) =
        buf.getD (d - q.start) 0 := by
    intro d hd0 hd1
    have hsub : u64_sub (d - (w.page pp).node_r.start) (i0 - (w.page pp).node_r.start) = d - i0 := by
      rw [u64_sub_of_le _ _ (by omega) (by omega)]
      omega
    simp only [written_through, write_request, hi, hoff, hsrc, hlen, block_transfer, if_true,
      block_write_transfer, logged, runtime_memcpy, set_page, irange, hsub]
    rw [if_pos (by omega)]
    congr 1
    omega
  refine ⟨?_, rfl, rfl, rfl, ?_, ?_, ?_, ?_, ?_⟩
  · refine ⟨rfl, rfl, rfl, rfl, rfl, rfl, rfl, ?_, ?_⟩
    · intro p hp
      simp [written_through, write_request, block_transfer, block_write_transfer, logged,
        runtime_memcpy, set_page, hp]
    · simp [written_through, write_request, block_transfer, block_write_transfer, logged,
        runtime_memcpy, set_page]
  · simp [written_through, write_request, block_transfer, block_write_transfer, logged,
      runtime_memcpy, set_page]
  · simp [written_through, write_request, block_transfer, block_write_transfer, logged,
      runtime_memcpy, set_page]
  · intro d hd
    obtain ⟨hd0, hd1⟩ := (hcov d).1 hd
    have hadd : u64_add (i0 - (w.page pp).node_r.start) (d - i0) =
        d - (w.page pp).node_r.start := by
      rw [u64_add_of_lt _ _ (by omega)]
      omega
    have hkd := hk d hd0 hd1
    have hdisk : (written_through w pp buf q sh).disk d =
        ((written_through w pp buf q sh).page pp).kvirt (d - (w.page pp).node_r.start) := by
      simp only [written_through, write_request, hi, hoff, hsrc, hlen, block_transfer, if_true,
        block_write_transfer, logged, runtime_memcpy, set_page, irange, range_rshift,
        block_bytes, hbase, hbytes, hadd]
      rw [if_pos (by omega)]
    rw [hdisk, hkd]
  · intro d hd
    have hnd : ¬ (i0 ≤ d ∧ d < i0 + (i1 - i0)) := by
      intro hc
      exact hd ((hcov d).2 ⟨hc.1, by omega⟩)
    simp only [written_through, write_request, hi, hoff, hsrc, hlen, block_transfer, if_true,
      block_write_transfer, logged, runtime_memcpy, set_page, irange, range_rshift,
      block_bytes, hbase, hbytes]
    rw [if_neg hnd]
  · intro d hd
    obtain ⟨hd0, hd1⟩ := (hcov d).1 hd
    exact hk d hd0 hd1
theorem light_frame_refl (w : world) (pp : Nat) : light_frame w w pp :=
  ⟨rfl, rfl, rfl, rfl, rfl, rfl, rfl, fun _ _ => rfl, rfl⟩

theorem light_frame_trans {w0 w1 w2 : world} {pp : Nat} (h1 : light_frame w0 w1 pp)
    (h2 : light_frame w1 w2 pp) : light_frame w0 w2 pp := by
  obtain ⟨a1, a2, a3, a4, a5, a6, a7, a8, a9⟩ := h1
  obtain ⟨b1, b2, b3, b4, b5, b6, b7, b8, b9⟩ := h2
  exact ⟨b1.trans a1, b2.trans a2, b3.trans a3, b4.trans a4, b5.trans a5, b6.trans a6,
    b7.trans a7, fun p hp => (b8 p hp).trans (a8 p hp), b9.trans a9⟩

theorem light_frame_apply_merge (w : world) (m pp : Nat) :
    light_frame w (apply_merge m w).2 pp :=
  ⟨rfl, rfl, rfl, rfl, rfl, rfl, rfl, fun _ _ => rfl, rfl⟩

theorem light_frame_merge_done (w : world) (m pp : Nat) (s : status) :
    light_frame w (merge_done w m s) pp :=
  ⟨rfl, rfl, rfl, rfl, rfl, rfl, rfl, fun _ _ => rfl, rfl⟩

theorem light_frame_moved_to_new (w : world) (pp : Nat) : light_frame w (moved_to_new w pp) pp := by
  refine ⟨rfl, rfl, rfl, rfl, rfl, rfl, rfl, fun p hp => ?_, ?_⟩
  · simp [moved_to_new, set_page, hp]
  · simp [moved_to_new, set_page]

theorem light_frame_moved_to_active (w : world) (pp : Nat) (hfree : w.pc.free = []) :
    light_frame w (moved_to_active w pp) pp := by
  refine ⟨?_, rfl, rfl, rfl, rfl, rfl, rfl, fun p hp => ?_, ?_⟩
  · simp [settings, moved_to_active, set_page, list_delete, hfree, list_remove]
  · simp [moved_to_active, set_page, hp]
  · simp [moved_to_active, set_page]

theorem light_frame_queue_cleared (w : world) (pp : Nat) :
    light_frame w (queue_cleared w pp) pp := by
  refine ⟨rfl, rfl, rfl, rfl, rfl, rfl, rfl, fun p hp => ?_, ?_⟩
  · simp [queue_cleared, set_page, hp]
  · simp [queue_cleared, set_page]

theorem light_frame_sg_refcount (w : world) (pp sg : Nat) (e : sg_buf) :
    light_frame w (refcount_reserve (sg_list_tail_add w sg e) pp) pp := by
  refine ⟨rfl, rfl, rfl, rfl, rfl, rfl, rfl, fun p hp => ?_, ?_⟩
  · simp [refcount_reserve, sg_list_tail_add, set_page, hp]
  · simp [refcount_reserve, sg_list_tail_add, set_page]

theorem light_frame_fill_prepared (w : world) (pp : Nat) (sh : status_handler) :
    light_frame w (fill_prepared w pp sh) pp := by
  unfold fill_prepared
  simp only
  split
  · refine ⟨rfl, rfl, rfl, rfl, rfl, rfl, rfl, fun p hp => ?_, ?_⟩
    · simp [zero, set_page, hp]
    · simp [zero, set_page]
  · refine ⟨rfl, rfl, rfl, rfl, rfl, rfl, rfl, fun p hp => ?_, ?_⟩
    · simp [set_page, hp]
    · simp [set_page]

theorem light_frame_filled (w : world) (pp : Nat) (sh : status_handler) :
    light_frame w (filled w pp sh) pp := by
  refine light_frame_trans (light_frame_fill_prepared w pp sh) ?_
  refine ⟨rfl, rfl, rfl, rfl, rfl, rfl, rfl, fun p hp => ?_, ?_⟩
  · simp [filled, fill_request, block_transfer, block_read_transfer, logged, set_page, hp]
  · simp [filled, fill_request, block_transfer, block_read_transfer, logged, set_page]

theorem page_geometry_of_frame (w w2 : world) (q : range) (pp : Nat) (hf : light_frame w w2 pp)
    (hg : page_geometry w q pp) : page_geometry w2 q pp := by
  obtain ⟨a1, -, -, -, -, -, -, -, a9⟩ := hf
  simp only [settings, Prod.mk.injEq] at a1
  obtain ⟨b1, b2, b3, -⟩ := a1
  unfold page_geometry
  rw [a9, b2, b3]
  exact hg

/-- A handler of a merge that is taken and applied leaves the merge as it
was. -/
theorem merge_round (w w1 : world) (m : Nat) (h : w1.merges = (apply_merge m w).2.merges) (i : Nat) :
    (merge_done w1 m STATUS_OK).merges i = w.merges i := by
  simp only [merge_done, h, apply_merge]
  by_cases hi : i = m
  · subst hi
    simp [is_ok, STATUS_OK]
  · simp [hi]

theorem u64_sub_zero (a : Nat) (ha : a < 2 ^ 64) : u64_sub a 0 = a := by
  rw [u64_sub_of_le a 0 (Nat.zero_le a) ha]
  rfl

/-- What the fill of a page does over a device that answers at once: the
page is Reading, the handler is queued, and the buffer holds the bytes of
the backing store over every whole block of the page within the backing
store. -/
theorem filled_spec (w : world) (pp : Nat) (sh : status_handler)
    (h2 : (w.page pp).node_r.end_ < 2 ^ 64)
    (h3 : (w.page pp).node_r.start % 2 ^ w.pc.block_order = 0) :
    light_frame w (filled w pp sh) pp ∧ (filled w pp sh).merges = w.merges ∧
      (filled w pp sh).sg = w.sg ∧ (filled w pp sh).disk = w.disk ∧
      page_state ((filled w pp sh).page pp) = PAGECACHE_PAGESTATE_READING ∧
      ((filled w pp sh).page pp).completions = (w.page pp).completions ++ [sh] ∧
      (∀ d i1, (w.page pp).node_r.start ≤ d → d < i1 → i1 ≤ (w.page pp).node_r.end_ →
        i1 ≤ w.pc.length → i1 % 2 ^ w.pc.block_order = 0 →
        ((filled w pp sh).page pp).kvirt (d - (w.page pp).node_r.start) = w.disk d) := by
  have hfp : (fill_prepared w pp sh).merges = w.merges ∧ (fill_prepared w pp sh).sg = w.sg ∧
      (fill_prepared w pp sh).disk = w.disk ∧ (fill_prepared w pp sh).pc = w.pc := by
    unfold fill_prepared
    simp only
    split <;> exact ⟨rfl, rfl, rfl, rfl⟩
  obtain ⟨f1, f2, f3, f4⟩ := hfp
  refine ⟨light_frame_filled w pp sh, ?_, ?_, ?_, ?_, ?_, ?_⟩
  · simpa [filled, fill_request, block_transfer, block_read_transfer, logged, set_page] using f1
  · simpa [filled, fill_request, block_transfer, block_read_transfer, logged, set_page] using f2
  · simpa [filled, fill_request, block_transfer, block_read_transfer, logged, set_page] using f3
  · have := fill_prepared_state w pp sh
    simpa [filled, fill_request, block_transfer, block_read_transfer, logged, set_page,
      page_state] using this
  · have := fill_prepared_completions w pp sh
    simpa [filled, fill_request, block_transfer, block_read_transfer, logged, set_page] using this
  · intro d i1 hd0 hd1 hi1 hiL hm
    have hbase : ((w.page pp).node_r.start >>> w.pc.block_order) * 2 ^ w.pc.block_order =
        (w.page pp).node_r.start := shift_right_mul _ _ h3
    have hle : i1 ≤ (min (w.page pp).node_r.end_ w.pc.length >>> w.pc.block_order) *
        2 ^ w.pc.block_order := by
      have hmin : i1 ≤ min (w.page pp).node_r.end_ w.pc.length := Nat.le_min.2 ⟨hi1, hiL⟩
      have h5 : i1 / 2 ^ w.pc.block_order ≤
          min (w.page pp).node_r.end_ w.pc.length / 2 ^ w.pc.block_order :=
        Nat.div_le_div_right hmin
      have h6 := Nat.mul_le_mul_right (2 ^ w.pc.block_order) h5
      rw [Nat.div_mul_cancel (Nat.dvd_of_mod_eq_zero hm)] at h6
      rw [Nat.shiftRight_eq_div_pow]
      exact h6
    have hs0 : u64_sub (d - (w.page pp).node_r.start) 0 = d - (w.page pp).node_r.start :=
      u64_sub_zero _ (by omega)
    simp only [filled, fill_request, block_transfer, block_read_transfer, logged, set_page,
      if_true, Bool.false_eq_true, if_false, irange, block_bytes, f4, f3, hs0, Nat.sub_mul, hbase]
    rw [if_pos (by omega)]
    have hadd : (w.page pp).node_r.start + (d - (w.page pp).node_r.start) = d := by omega
    rw [hadd]
theorem moved_to_new_state (w : world) (pp : Nat) :
    page_state ((moved_to_new w pp).page pp) = PAGECACHE_PAGESTATE_NEW := by
  simp only [moved_to_new, set_page, if_true, page_state]
  exact page_state_pack _ _ (by decide)

theorem moved_to_active_state (w : world) (pp : Nat) :
    page_state ((moved_to_active w pp).page pp) = PAGECACHE_PAGESTATE_ACTIVE := by
  simp only [moved_to_active, set_page, if_true, page_state]
  exact page_state_pack _ _ (by decide)

theorem fill_sync_filled (ap : status_handler → status → world → Except abort world)
    (pp : Nat) (sh : status_handler) (w : world)
    (hs : page_state (w.page pp) = PAGECACHE_PAGESTATE_ALLOC)
    (hpol : w.read_policy = block_policy.sync STATUS_OK) :
    pagecache_page_fill_cache_locked ap pp sh w =
      ap (status_handler.read_page_complete pp) STATUS_OK (filled w pp sh) :=
  fill_sync ap pp sh w hs hpol

/-- The assertion on the length in the write through of a page holds when
the bytes written end within the backing store. -/
theorem write_length_ok (w : world) (q : range) (pp : Nat) (hg : page_geometry w q pp) :
    u64_add (w.page pp).node_r.start (range_span (range_intersection q (w.page pp).node_r)) ≤
      w.pc.length := by
  obtain ⟨i0, i1, hi, -, hr0, hq0, hr1, hq1, hlt, -, -, -, -⟩ := inter_cases w q pp hg
  obtain ⟨h1, h2, h3, h4, h5, h6, h7, -⟩ := hg
  have hlen : range_span (irange i0 i1) = i1 - i0 := by
    simp only [range_span, irange]
    exact u64_sub_of_le _ _ (by omega) (by omega)
  rw [hi, hlen, u64_add_of_lt _ _ (by omega)]
  omega

/-- The body of the loop of the write gap handler, for a page just
allocated, over a device that answers at once with STATUS_OK: it returns,
the bytes of the caller that fall into the page are on the backing store,
and in the buffer of the page when the page has been filled. -/
theorem write_gap_page_sync (fuel : Nat) (buf : List Nat) (q : range) (m pp : Nat) (w : world)
    (hs : page_state (w.page pp) = PAGECACHE_PAGESTATE_ALLOC)
    (hc : (w.page pp).completions = [])
    (hrp : w.read_policy = block_policy.sync STATUS_OK)
    (hwp : w.write_policy = block_policy.sync STATUS_OK)
    (hm : 1 ≤ (w.merges m).count) (hg : page_geometry w q pp) :
    ∃ w2, pagecache_write_gap_page (apply (fuel + 4)) buf q m pp w = .ok w2 ∧
      light_frame w w2 pp ∧ (∀ i, w2.merges i = w.merges i) ∧ w2.sg = w.sg ∧
      (∀ d, covered (w.page pp).node_r q d → w2.disk d = buf.getD (d - q.start) 0) ∧
      (∀ d, ¬ covered (w.page pp).node_r q d → w2.disk d = w.disk d) ∧
      (page_state (w2.page pp) = PAGECACHE_PAGESTATE_ALLOC ∨
        page_state (w2.page pp) = PAGECACHE_PAGESTATE_NEW) ∧
      (w2.page pp).completions = [] ∧
      (page_state (w2.page pp) = PAGECACHE_PAGESTATE_NEW →
        ∀ d, covered (w.page pp).node_r q d →
          (w2.page pp).kvirt (d - (w.page pp).node_r.start) = buf.getD (d - q.start) 0) := by
  have hf1 : light_frame w (apply_merge m w).2 pp := light_frame_apply_merge w m pp
  have hg1 : page_geometry (apply_merge m w).2 q pp := page_geometry_of_frame _ _ _ _ hf1 hg
  have hcnt : ∀ w1 : world, w1.merges = (apply_merge m w).2.merges → (w1.merges m).count ≠ 1 := by
    intro w1 h1
    rw [h1]
    simp only [apply_merge, if_true]
    omega
  by_cases hfull : (range_intersection (w.page pp).node_r q).start = (w.page pp).node_r.start ∧
      (range_intersection (w.page pp).node_r q).end_ = min (w.page pp).node_r.end_ w.pc.length
  · have heq : pagecache_write_gap_page (apply (fuel + 4)) buf q m pp w =
        pagecache_write_page_internal_page_locked (apply (fuel + 4)) pp buf q
          (status_handler.merge_join m) (apply_merge m w).2 := by
      unfold pagecache_write_gap_page
      rw [if_pos hfull]
      rfl
    obtain ⟨s1, s2, s3, s4, s5, s6, s7, s8, s9⟩ :=
      written_through_spec (apply_merge m w).2 pp buf q (status_handler.merge_join m) hg1
    rw [heq, write_page_internal_sync _ _ _ _ _ (apply_merge m w).2 (Or.inl hs)
        (write_length_ok _ _ _ hg1) hwp,
      apply_merge_join, merge_join_pending _ _ _ _ (hcnt _ s3)]
    refine ⟨_, rfl, ?_, ?_, ?_, ?_, ?_, ?_, ?_, ?_⟩
    · exact light_frame_trans hf1 (light_frame_trans s1 (light_frame_merge_done _ _ _ _))
    · exact merge_round w _ m s3
    · exact s4
    · exact s7
    · exact s8
    · left
      show page_state ((written_through (apply_merge m w).2 pp buf q
        (status_handler.merge_join m)).page pp) = _
      unfold page_state
      rw [s5]
      exact hs
    · show ((written_through (apply_merge m w).2 pp buf q
        (status_handler.merge_join m)).page pp).completions = _
      rw [s6]
      exact hc
    · intro _ d hd
      exact s9 d hd
  · have heq : pagecache_write_gap_page (apply (fuel + 4)) buf q m pp w =
        pagecache_page_fill_cache_locked (apply (fuel + 4)) pp
          (status_handler.pagecache_write_page_filled pp buf q (status_handler.merge_join m))
          (apply_merge m w).2 := by
      unfold pagecache_write_gap_page
      rw [if_neg hfull]
      rfl
    obtain ⟨-, g2, -, -, -, -, -, g8, g9, -⟩ := hg1
    obtain ⟨t1, t2, t3, t4, t5, t6, -⟩ := filled_spec (apply_merge m w).2 pp
      (status_handler.pagecache_write_page_filled pp buf q (status_handler.merge_join m)) g2 g9
    have hf2 := light_frame_trans hf1 t1
    have hf3 := light_frame_trans hf2 (light_frame_moved_to_new _ pp)
    have hg3 := page_geometry_of_frame _ _ _ _ hf3 hg
    obtain ⟨s1, s2, s3, s4, s5, s6, s7, s8, s9⟩ :=
      written_through_spec _ pp buf q (status_handler.merge_join m) hg3
    have hnew := moved_to_new_state (filled (apply_merge m w).2 pp
      (status_handler.pagecache_write_page_filled pp buf q (status_handler.merge_join m))) pp
    have hwp3 : (moved_to_new (filled (apply_merge m w).2 pp
        (status_handler.pagecache_write_page_filled pp buf q (status_handler.merge_join m)))
        pp).write_policy = block_policy.sync STATUS_OK := by
      have := hf3.1
      simp only [settings, Prod.mk.injEq] at this
      rw [this.2.2.2.2.1]
      exact hwp
    have hhandler : apply (fuel + 3)
        (status_handler.pagecache_write_page_filled pp buf q (status_handler.merge_join m))
        STATUS_OK (moved_to_new (filled (apply_merge m w).2 pp
          (status_handler.pagecache_write_page_filled pp buf q (status_handler.merge_join m)))
          pp) = .ok (merge_done (written_through (moved_to_new (filled (apply_merge m w).2 pp
          (status_handler.pagecache_write_page_filled pp buf q (status_handler.merge_join m)))
          pp) pp buf q (status_handler.merge_join m)) m STATUS_OK) := by
      rw [apply_write_page_filled]
      unfold pagecache_write_page_filled
      have hok : (!is_ok STATUS_OK) = false := rfl
      simp only [hok, Bool.false_eq_true, if_false]
      rw [write_page_io_check_new _ _ _ _ _ _ hnew,
        write_page_internal_sync _ _ _ _ _ _ (Or.inr (Or.inl hnew)) (write_length_ok _ _ _ hg3)
          hwp3,
        apply_merge_join, merge_join_pending _ _ _ _ (hcnt _ (s3.trans t2))]
    have hq : ((filled (apply_merge m w).2 pp
        (status_handler.pagecache_write_page_filled pp buf q (status_handler.merge_join m))).page
        pp).completions =
        [status_handler.pagecache_write_page_filled pp buf q (status_handler.merge_join m)] := by
      rw [t6]
      show (w.page pp).completions ++ _ = _
      rw [hc]
      rfl
    rw [heq, fill_sync_filled _ _ _ (apply_merge m w).2 hs hrp, apply_read_page_complete,
      read_page_complete_single _ _ _ _ _ t5 hq hhandler]
    have hr3 : ((moved_to_new (filled (apply_merge m w).2 pp
        (status_handler.pagecache_write_page_filled pp buf q (status_handler.merge_join m)))
        pp).page pp).node_r = (w.page pp).node_r := hf3.2.2.2.2.2.2.2.2
    rw [hr3] at s7 s8 s9
    refine ⟨_, rfl, ?_, ?_, ?_, ?_, ?_, ?_, ?_, ?_⟩
    · exact light_frame_trans hf3 (light_frame_trans s1
        (light_frame_trans (light_frame_merge_done _ _ _ _) (light_frame_queue_cleared _ _)))
    · exact merge_round w _ m (s3.trans t2)
    · exact s4.trans t3
    · exact s7
    · intro d hd
      rw [← show (apply_merge m w).2.disk = w.disk from rfl, ← t4]
      exact s8 d hd
    · right
      have : page_state ((written_through (moved_to_new (filled (apply_merge m w).2 pp
          (status_handler.pagecache_write_page_filled pp buf q (status_handler.merge_join m)))
          pp) pp buf q (status_handler.merge_join m)).page pp) = PAGECACHE_PAGESTATE_NEW := by
        unfold page_state
        rw [s5]
        exact hnew
      simpa [queue_cleared, merge_done, set_page, page_state] using this
    · simp [queue_cleared, set_page]
    · intro _ d hd
      have := s9 d hd
      simpa [queue_cleared, merge_done, set_page] using this
theorem touch_new (pp : Nat) (w : world)
    (hs : page_state (w.page pp) = PAGECACHE_PAGESTATE_NEW) :
    pagecache_page_touch_if_filled_cache_locked pp w = .ok (true, moved_to_active w pp) := by
  unfold pagecache_page_touch_if_filled_cache_locked
  have h1 : ¬ (PAGECACHE_PAGESTATE_NEW = PAGECACHE_PAGESTATE_READING ∨
      PAGECACHE_PAGESTATE_NEW = PAGECACHE_PAGESTATE_ALLOC) := by decide
  have h2 : ¬ (PAGECACHE_PAGESTATE_NEW = PAGECACHE_PAGESTATE_ACTIVE) := by decide
  simp only [hs, h1, h2, if_false, if_true, set_page_state_active_ok pp w hs]

theorem touch_alloc (pp : Nat) (w : world)
    (hs : page_state (w.page pp) = PAGECACHE_PAGESTATE_ALLOC) :
    pagecache_page_touch_if_filled_cache_locked pp w = .ok (false, w) := by
  unfold pagecache_page_touch_if_filled_cache_locked
  simp [hs]

/-- The read of an indexed page that is Alloc or New, with an empty queue,
over a device that answers at once with STATUS_OK: it returns, the entry of
the page is appended to the list, the buffer of a New page is as it was, and
the buffer of an Alloc page holds the bytes of the backing store. -/
theorem read_page_sync (fuel pp sg : Nat) (q : range) (m : Nat) (w : world)
    (hs : page_state (w.page pp) = PAGECACHE_PAGESTATE_ALLOC ∨
      page_state (w.page pp) = PAGECACHE_PAGESTATE_NEW)
    (hc : (w.page pp).completions = [])
    (hrp : w.read_policy = block_policy.sync STATUS_OK) (hfree : w.pc.free = [])
    (hm : 1 ≤ (w.merges m).count) (hg : page_geometry w q pp) :
    ∃ w2, pagecache_read_page_internal_cache_locked (apply (fuel + 4)) pp sg q m w = .ok w2 ∧
      light_frame w w2 pp ∧ (∀ i, w2.merges i = w.merges i) ∧ w2.disk = w.disk ∧
      w2.sg sg = w.sg sg ++
        [⟨pp, u64_sub (range_intersection q (w.page pp).node_r).start (w.page pp).node_r.start,
          range_span (range_intersection q (w.page pp).node_r)⟩] ∧
      (page_state (w.page pp) = PAGECACHE_PAGESTATE_NEW →
        (w2.page pp).kvirt = (w.page pp).kvirt) ∧
      (page_state (w.page pp) = PAGECACHE_PAGESTATE_ALLOC →
        ∀ d, covered (w.page pp).node_r q d →
          (w2.page pp).kvirt (d - (w.page pp).node_r.start) = w.disk d) := by
  have hsg : (refcount_reserve (sg_list_tail_add w sg
      ⟨pp, u64_sub (range_intersection q (w.page pp).node_r).start (w.page pp).node_r.start,
        range_span (range_intersection q (w.page pp).node_r)⟩) pp).sg sg = w.sg sg ++
      [⟨pp, u64_sub (range_intersection q (w.page pp).node_r).start (w.page pp).node_r.start,
        range_span (range_intersection q (w.page pp).node_r)⟩] := by
    simp [refcount_reserve, sg_list_tail_add, set_page]
  have hf0 := light_frame_sg_refcount w pp sg
    ⟨pp, u64_sub (range_intersection q (w.page pp).node_r).start (w.page pp).node_r.start,
      range_span (range_intersection q (w.page pp).node_r)⟩
  have hst0 : page_state ((refcount_reserve (sg_list_tail_add w sg
      ⟨pp, u64_sub (range_intersection q (w.page pp).node_r).start (w.page pp).node_r.start,
        range_span (range_intersection q (w.page pp).node_r)⟩) pp).page pp) =
      page_state (w.page pp) := by
    simp [refcount_reserve, sg_list_tail_add, set_page, page_state]
  have hk0 : ((refcount_reserve (sg_list_tail_add w sg
      ⟨pp, u64_sub (range_intersection q (w.page pp).node_r).start (w.page pp).node_r.start,
        range_span (range_intersection q (w.page pp).node_r)⟩) pp).page pp).kvirt =
      (w.page pp).kvirt := by
    simp [refcount_reserve, sg_list_tail_add, set_page]
  have hc0 : ((refcount_reserve (sg_list_tail_add w sg
      ⟨pp, u64_sub (range_intersection q (w.page pp).node_r).start (w.page pp).node_r.start,
        range_span (range_intersection q (w.page pp).node_r)⟩) pp).page pp).completions =
      (w.page pp).completions := by
    simp [refcount_reserve, sg_list_tail_add, set_page]
  revert hsg hf0 hst0 hk0 hc0
  generalize hw0 : refcount_reserve (sg_list_tail_add w sg
      ⟨pp, u64_sub (range_intersection q (w.page pp).node_r).start (w.page pp).node_r.start,
        range_span (range_intersection q (w.page pp).node_r)⟩) pp = w0
  intro hsg hf0 hst0 hk0 hc0
  have hm0 : w0.merges = w.merges := by rw [← hw0]; rfl
  have hd0 : w0.disk = w.disk := by rw [← hw0]; rfl
  have hfree0 : w0.pc.free = [] := by rw [← hw0]; exact hfree
  have hrp0 : w0.read_policy = block_policy.sync STATUS_OK := by rw [← hw0]; exact hrp
  have hstart : pagecache_read_page_internal_cache_locked (apply (fuel + 4)) pp sg q m w =
      match pagecache_page_touch_if_filled_cache_locked pp w0 with
      | .error e => .error e
      | .ok (true, w3) => .ok w3
      | .ok (false, w3) =>
        pagecache_page_fill_cache_locked (apply (fuel + 4)) pp (status_handler.merge_join m)
          (apply_merge m w3).2 := by
    rw [← hw0]
    rfl
  rw [hstart]
  rcases hs with hs | hs
  · -- the page is Alloc: it is filled
    have hs0 : page_state (w0.page pp) = PAGECACHE_PAGESTATE_ALLOC := hst0.trans hs
    have hf1 : light_frame w (apply_merge m w0).2 pp :=
      light_frame_trans hf0 (light_frame_apply_merge w0 m pp)
    have hg1 := page_geometry_of_frame _ _ _ _ hf1 hg
    obtain ⟨i0, i1, -, -, hr0, hq0, hr1, hq1, hlt, hm0', hm1, hcc0, hcc1⟩ := inter_cases _ q pp hg1
    obtain ⟨g1, g2, g3, g4, g5, g6, g7, g8, g9, -⟩ := hg1
    obtain ⟨t1, t2, t3, t4, t5, t6, t7⟩ :=
      filled_spec (apply_merge m w0).2 pp (status_handler.merge_join m) g2 g9
    have hq : ((filled (apply_merge m w0).2 pp (status_handler.merge_join m)).page
        pp).completions = [status_handler.merge_join m] := by
      rw [t6]
      show (w0.page pp).completions ++ _ = _
      rw [hc0, hc]
      rfl
    have hcnt : ((moved_to_new (filled (apply_merge m w0).2 pp
        (status_handler.merge_join m)) pp).merges m).count ≠ 1 := by
      show ((filled (apply_merge m w0).2 pp (status_handler.merge_join m)).merges m).count ≠ 1
      rw [t2]
      simp only [apply_merge, if_true, hm0]
      omega
    have hhandler : apply (fuel + 3) (status_handler.merge_join m) STATUS_OK
        (moved_to_new (filled (apply_merge m w0).2 pp (status_handler.merge_join m)) pp) =
        .ok (merge_done (moved_to_new (filled (apply_merge m w0).2 pp
          (status_handler.merge_join m)) pp) m STATUS_OK) := by
      rw [apply_merge_join, merge_join_pending _ _ _ _ hcnt]
    rw [touch_alloc pp w0 hs0]
    simp only
    rw [fill_sync_filled _ _ _ (apply_merge m w0).2 hs0 hrp0, apply_read_page_complete,
      read_page_complete_single _ _ _ _ _ t5 hq hhandler]
    refine ⟨_, rfl, ?_, ?_, ?_, ?_, ?_, ?_⟩
    · exact light_frame_trans hf1 (light_frame_trans t1 (light_frame_trans
        (light_frame_moved_to_new _ pp) (light_frame_trans (light_frame_merge_done _ _ _ _)
          (light_frame_queue_cleared _ _))))
    · intro i
      have := merge_round w0 (moved_to_new (filled (apply_merge m w0).2 pp
        (status_handler.merge_join m)) pp) m t2 i
      rw [hm0] at this
      exact this
    · show (filled (apply_merge m w0).2 pp (status_handler.merge_join m)).disk = _
      rw [t4]
      exact hd0
    · show (filled (apply_merge m w0).2 pp (status_handler.merge_join m)).sg sg = _
      rw [t3]
      exact hsg
    · intro hn
      rw [hs] at hn
      exact absurd hn (by decide)
    · intro _ d hd
      have hr : ((apply_merge m w0).2.page pp).node_r = (w.page pp).node_r :=
        hf1.2.2.2.2.2.2.2.2
      rw [hr] at t7 hr0 hr1
      have hdc : (w.page pp).node_r.start ≤ d ∧ d < i1 := by
        unfold covered at hd
        rcases hcc1 with h | h
        · rw [hr] at h; omega
        · omega
      have hk := t7 d i1 hdc.1 hdc.2 hr1 (by omega) hm1
      have hdd : (apply_merge m w0).2.disk d = w.disk d := by
        show w0.disk d = w.disk d
        rw [hd0]
      rw [← hdd, ← hk]
      simp [queue_cleared, merge_done, moved_to_new, set_page]
  · -- the page is New: it is touched
    have hs0 : page_state (w0.page pp) = PAGECACHE_PAGESTATE_NEW := hst0.trans hs
    rw [touch_new pp w0 hs0]
    refine ⟨_, rfl, ?_, ?_, ?_, ?_, ?_, ?_⟩
    · exact light_frame_trans hf0 (light_frame_moved_to_active w0 pp hfree0)
    · intro i
      show w0.merges i = _
      rw [hm0]
    · exact hd0
    · exact hsg
    · intro _
      rw [← hk0]
      simp [moved_to_active, set_page]
    · intro ha
      rw [hs] at ha
      exact absurd ha (by decide)
/-! ## Write then read: the pages of a write into an empty index -/

theorem rangemap_place_append (page : Nat → pagecache_page) (pp : Nat) :
    ∀ l : List Nat, (∀ n ∈ l, (page n).node_r.start ≤ (page pp).node_r.start) →
      rangemap_place page pp l = l ++ [pp]
  | [], _ => rfl
  | n :: rest, h => by
    have hn : ¬ (page pp).node_r.start < (page n).node_r.start :=
      Nat.not_lt.2 (h n (List.mem_cons_self _ _))
    simp only [rangemap_place, if_neg hn, List.cons_append]
    rw [rangemap_place_append page pp rest (fun x hx => h x (List.mem_cons_of_mem _ hx))]

theorem page_run_congr (w w2 : world) (ps e : Nat) :
    ∀ (l : List Nat) (o : Nat), (∀ p ∈ l, (w2.page p).node_r = (w.page p).node_r) →
      page_run w ps o e l → page_run w2 ps o e l
  | [], _, _, h => h
  | p :: l, o, hn, h => by
    simp only [page_run] at h ⊢
    exact ⟨(hn p (List.mem_cons_self _ _)).trans h.1,
      page_run_congr w w2 ps e l (o + ps) (fun x hx => hn x (List.mem_cons_of_mem _ hx)) h.2⟩

theorem page_run_append (w : world) (ps e pp : Nat)
    (hr : (w.page pp).node_r = irange e (e + ps)) :
    ∀ (l : List Nat) (o : Nat), page_run w ps o e l → page_run w ps o (e + ps) (l ++ [pp])
  | [], o, h => by
    simp only [page_run] at h
    subst h
    simp only [List.nil_append, page_run]
    exact ⟨hr, trivial⟩
  | p :: l, o, h => by
    simp only [page_run, List.cons_append] at h ⊢
    exact ⟨h.1, page_run_append w ps e pp hr l (o + ps) h.2⟩

theorem page_run_bounds (w : world) (ps e : Nat) :
    ∀ (l : List Nat) (o : Nat), page_run w ps o e l →
      o ≤ e ∧ ∀ p ∈ l, o ≤ (w.page p).node_r.start ∧
        (w.page p).node_r.end_ = (w.page p).node_r.start + ps ∧ (w.page p).node_r.end_ ≤ e
  | [], o, h => by
    simp only [page_run] at h
    exact ⟨by omega, fun p hp => absurd hp (List.not_mem_nil p)⟩
  | p :: l, o, h => by
    simp only [page_run] at h
    obtain ⟨h1, h2⟩ := page_run_bounds w ps e l (o + ps) h.2
    refine ⟨by omega, ?_⟩
    intro x hx
    rcases List.mem_cons.1 hx with hx | hx
    · subst hx
      rw [h.1]
      simp only [irange]
      exact ⟨Nat.le_refl _, trivial, h1⟩
    · obtain ⟨a, b, c⟩ := h2 x hx
      exact ⟨by omega, b, c⟩

/-- The allocation of a page past every indexed page, from the heaps, in a
cache with an empty Free list. -/
theorem alloc_fresh (r : range) (w : world) (hfree : w.pc.free = [])
    (hb : 0 < w.backed_avail) (hh : 2 ≤ w.h_avail)
    (hend : ∀ n ∈ w.pc.pages, (w.page n).node_r.start ≤ (w.page n).node_r.end_ ∧
      (w.page n).node_r.end_ ≤ r.start)
    (hnp : ∀ p ∈ w.pc.pages, p < w.npages) (hphys : phys_ok w) :
    ∃ w1, allocate_pagecache_page_cache_locked r w = .ok (some w.npages, w1) ∧
      settings w1 = settings w ∧ w1.pc.pages = w.pc.pages ++ [w.npages] ∧
      w1.npages = w.npages + 1 ∧ w1.backed_avail = w.backed_avail - 1 ∧
      w1.h_avail = w.h_avail - 2 ∧ w1.nmerges = w.nmerges ∧ w1.fired = w.fired ∧
      w1.merges = w.merges ∧ w1.sg = w.sg ∧ w1.disk = w.disk ∧
      (∀ p, p ≠ w.npages → w1.page p = w.page p) ∧ (w1.page w.npages).node_r = r ∧
      page_state (w1.page w.npages) = PAGECACHE_PAGESTATE_ALLOC ∧
      (w1.page w.npages).completions = [] := by
  have hd : allocate_descriptor w = .ok (some w.npages,
      set_page { w with backed_avail := w.backed_avail - 1, h_avail := w.h_avail - 1 - 1,
                        npages := w.npages + 1 } w.npages
        { state_phys :=
            ((PAGECACHE_PAGESTATE_ALLOC <<< PAGECACHE_PAGESTATE_SHIFT) % 2 ^ 64) |||
              (w.fresh_phys w.npages >>> w.pc.page_order)
          node_r := (w.page w.npages).node_r
          kvirt := w.fresh_kvirt w.npages
          refcount := 1
          completions := [] }) := by
    unfold allocate_descriptor
    rw [hfree]
    have h1 : ¬ w.backed_avail = 0 := by omega
    have h2 : ¬ w.h_avail = 0 := by omega
    have h3 : ¬ w.h_avail - 1 = 0 := by omega
    simp only [h1, h2, h3, if_false]
  rw [allocate_eq, hd]
  simp only
  rw [pp_insert_eq]
  have hne : ∀ n ∈ w.pc.pages, n ≠ w.npages := fun n hn => Nat.ne_of_lt (hnp n hn)
  rw [if_neg]
  · refine ⟨_, rfl, rfl, ?_, rfl, rfl, ?_, rfl, rfl, rfl, rfl, rfl, ?_, ?_, ?_, ?_⟩
    · simp only [inserted, set_page, if_true]
      apply rangemap_place_append
      intro n hn
      simp only [if_true, if_neg (hne n hn)]
      have := hend n hn
      omega
    · show w.h_avail - 1 - 1 = w.h_avail - 2
      omega
    · intro p hp
      simp [inserted, set_page, hp]
    · simp [inserted, set_page]
    · simp only [inserted, set_page, if_true, page_state]
      exact page_state_fresh _ (hphys w.npages)
    · simp [inserted, set_page]
  · simp only [List.any_eq_true, not_exists, not_and, Bool.not_eq_true]
    intro n hn
    simp only [set_page, if_true, if_neg (hne n hn)]
    rw [range_overlaps_false_iff]
    have := hend n hn
    omega
theorem mod_pow_of_le (x po bo : Nat) (h : bo ≤ po) (hx : x % 2 ^ po = 0) : x % 2 ^ bo = 0 :=
  Nat.mod_eq_zero_of_dvd (Nat.dvd_trans (pow_dvd_pow 2 h) (Nat.dvd_of_mod_eq_zero hx))

theorem sync_setting_of_settings (w w2 : world) (q : range) (h : settings w2 = settings w)
    (hs : sync_setting w q) : sync_setting w2 q := by
  simp only [settings, Prod.mk.injEq] at h
  obtain ⟨b1, b2, b3, b4, b5, b6, b7⟩ := h
  unfold sync_setting phys_ok
  rw [b1, b2, b3, b4, b5, b6, b7]
  exact hs

theorem page_holds_frame (w w2 : world) (q : range) (buf : List Nat) (p : Nat)
    (hp : w2.page p = w.page p) (hs : settings w2 = settings w)
    (hd : ∀ d, covered (w.page p).node_r q d → w2.disk d = w.disk d)
    (h : page_holds w q buf p) : page_holds w2 q buf p := by
  simp only [settings, Prod.mk.injEq] at hs
  obtain ⟨b1, b2, b3, -⟩ := hs
  obtain ⟨h1, h2, h3, h4, h5⟩ := h
  unfold page_holds page_geometry
  rw [hp, b2, b3]
  refine ⟨h1, h2, h3, ?_, h5⟩
  intro d hc
  rw [hd d hc]
  exact h4 d hc

/-- The geometry of the page `[offset, offset + ps)` of a gap loop. -/
theorem page_geometry_of_loop (w : world) (q : range) (pp offset : Nat)
    (hs : sync_setting w q)
    (hr : (w.page pp).node_r = irange offset (offset + 2 ^ w.pc.page_order))
    (hmod : offset % 2 ^ w.pc.page_order = 0) (hlt : offset < q.end_)
    (hq : q.start < offset + 2 ^ w.pc.page_order) : page_geometry w q pp := by
  obtain ⟨-, -, -, -, s5, s6, s7, s8, s9, s10, s11⟩ := hs
  have hpos : 0 < 2 ^ w.pc.page_order := Nat.two_pow_pos _
  have hm1 : offset % 2 ^ w.pc.block_order = 0 := mod_pow_of_le _ _ _ s5 hmod
  have hm2 : (offset + 2 ^ w.pc.page_order) % 2 ^ w.pc.block_order = 0 :=
    mod_pow_of_le _ _ _ s5 (by rw [Nat.add_mod_right]; exact hmod)
  unfold page_geometry
  rw [hr]
  simp only [irange]
  refine ⟨by omega, by omega, s7, hlt, hq, s8, by omega, by omega, hm1, hm2, s10, s11⟩

/-- One iteration of the loop of the write gap handler, in the setting of
the round trip: the page is allocated, the body returns, and the invariant
holds again. -/
theorem write_step (fuel : Nat) (q : range) (buf : List Nat) (m : Nat) (w0 : world)
    (a offset : Nat) (w : world) (hs : sync_setting w0 q) (hcnt : (w0.merges m).count = 1)
    (hI : write_invariant q buf m w0 (2 ^ w0.pc.page_order) a offset w) (hlt : offset < q.end_) :
    ∃ pp w1 w2,
      allocate_pagecache_page_cache_locked (irange offset (offset + 2 ^ w0.pc.page_order)) w =
        .ok (some pp, w1) ∧
      pagecache_write_gap_page (apply (fuel + 4)) buf q m pp w1 = .ok w2 ∧
      write_invariant q buf m w0 (2 ^ w0.pc.page_order) a (offset + 2 ^ w0.pc.page_order) w2 := by
  obtain ⟨i1, i2, i3, i4, i5, i6, ⟨k, k1, k2, k3⟩, i8, i9⟩ := hI
  have hsw := sync_setting_of_settings w0 w q i1 hs
  have hpo : w.pc.page_order = w0.pc.page_order := by
    simp only [settings, Prod.mk.injEq] at i1
    exact i1.1
  obtain ⟨s1, s2, s3, s4, s5, s6, s7, s8, s9, s10, s11⟩ := hsw
  have hk : 1 ≤ k := by
    rcases Nat.eq_zero_or_pos k with h | h
    · subst h; omega
    · exact h
  obtain ⟨hb0, hbounds⟩ := page_run_bounds w _ _ _ _ i5
  obtain ⟨w1, a1, a2, a3, a4, a5, a6, a7, a8, a9, a10, a11, a12, a13, a14, a15⟩ :=
    alloc_fresh (irange offset (offset + 2 ^ w0.pc.page_order)) w s3 (by omega) (by omega)
      (fun n hn => by
        obtain ⟨b1, b2, b3⟩ := hbounds n hn
        simp only [irange]
        omega)
      (fun p hp => (i6 p hp).1) s4
  have hsw1 := sync_setting_of_settings w0 w1 q (a2.trans i1) hs
  have hpo1 : w1.pc.page_order = w0.pc.page_order := by
    have := a2.trans i1
    simp only [settings, Prod.mk.injEq] at this
    exact this.1
  have hg1 : page_geometry w1 q w.npages :=
    page_geometry_of_loop w1 q w.npages offset hsw1 (by rw [hpo1]; exact a13)
      (by rw [hpo1]; exact i8) hlt (by rw [hpo1]; exact i9)
  obtain ⟨w2, c1, c2, c3, c4, c5, c6, c7, c8, c9⟩ :=
    write_gap_page_sync fuel buf q m w.npages w1 a14 a15 hsw1.1 hsw1.2.1
      (by rw [a9, i2, hcnt]) hg1
  have hne : ∀ p ∈ w.pc.pages, p ≠ w.npages := fun p hp => Nat.ne_of_lt (i6 p hp).1
  obtain ⟨f1, f2, f3, f4, f5, f6, f7, f8, f9⟩ := c2
  refine ⟨w.npages, w1, w2, a1, c1, ?_⟩
  refine ⟨f1.trans (a2.trans i1), ?_, ?_, ?_, ?_, ?_, ?_, ?_, ?_⟩
  · rw [c3 m, a9, i2]
  · rw [f7, a8, i3]
  · rw [c4, a10, i4]
  · rw [f2, a3]
    apply page_run_congr w1 w2
    · intro p hp
      by_cases hpn : p = w.npages
      · rw [hpn]; exact f9
      · rw [f8 p hpn]
    · apply page_run_append w1 _ _ _ a13
      exact page_run_congr w w1 _ _ _ _ (fun p hp => by rw [a12 p (hne p hp)]) i5
  · intro p hp
    rw [f2, a3] at hp
    rw [f3, a4]
    rcases List.mem_append.1 hp with hp | hp
    · refine ⟨Nat.lt_succ_of_lt (i6 p hp).1, ?_⟩
      have hpn := hne p hp
      have h1 : page_holds w1 q buf p :=
        page_holds_frame w w1 q buf p (a12 p hpn) a2 (fun d _ => by rw [a11]) (i6 p hp).2
      refine page_holds_frame w1 w2 q buf p (f8 p hpn) f1 ?_ h1
      intro d hd
      apply c6
      rw [a13]
      rw [a12 p hpn] at hd
      obtain ⟨b1, b2, b3⟩ := hbounds p hp
      unfold covered at hd ⊢
      simp only [irange]
      omega
    · rw [List.mem_singleton] at hp
      subst hp
      refine ⟨Nat.lt_succ_self _, ?_⟩
      refine ⟨page_geometry_of_frame w1 w2 q _ ⟨f1, f2, f3, f4, f5, f6, f7, f8, f9⟩ hg1, c7, c8,
        ?_, ?_⟩
      · rw [f9]; exact c5
      · rw [f9]; exact c9
  · refine ⟨k - 1, ?_, ?_, ?_⟩
    · have : k * 2 ^ w0.pc.page_order =
          (k - 1) * 2 ^ w0.pc.page_order + 2 ^ w0.pc.page_order := by
        rw [← Nat.succ_mul]
        congr 1
        omega
      omega
    · rw [f4, a5]; omega
    · rw [f5, a6]; omega
  · rw [Nat.add_mod_right]; exact i8
  · omega
/-- The write gap handler over the whole of `q`, from an empty index, in the
setting of the round trip: it returns, with the pages from the page of
`q.start` up to a page end at or past `q.end` indexed, each holding its part
of `buf`. -/
theorem write_gap_sync (fuel : Nat) (q : range) (buf : List Nat) (m : Nat) (w0 : world)
    (hs : sync_setting w0 q) (hcnt : (w0.merges m).count = 1) (hpages : w0.pc.pages = [])
    (hheap : ∃ k, q.end_ ≤ q.start / 2 ^ w0.pc.page_order * 2 ^ w0.pc.page_order +
      k * 2 ^ w0.pc.page_order ∧ k ≤ w0.backed_avail ∧ 2 * k ≤ w0.h_avail) :
    ∃ w1 e, pagecache_write_gap_cache_locked (apply (fuel + 4)) buf q m q w0 = .ok w1 ∧
      write_invariant q buf m w0 (2 ^ w0.pc.page_order)
        (q.start / 2 ^ w0.pc.page_order * 2 ^ w0.pc.page_order) e w1 ∧ q.end_ ≤ e := by
  have hs' := hs
  obtain ⟨s1, s2, s3, s4, s5, s6, s7, s8, s9, s10, s11⟩ := hs'
  have hpos : 0 < 2 ^ w0.pc.page_order := Nat.two_pow_pos _
  unfold pagecache_write_gap_cache_locked
  simp only
  rw [U64_FROM_BIT_eq _ s6, align_down_eq _ _ (by omega) s6]
  refine write_gap_loop_rule (apply (fuel + 4)) buf q m q (2 ^ w0.pc.page_order)
    (write_invariant q buf m w0 (2 ^ w0.pc.page_order)
      (q.start / 2 ^ w0.pc.page_order * 2 ^ w0.pc.page_order))
    (fun res => ∃ w1 e, res = .ok w1 ∧
      write_invariant q buf m w0 (2 ^ w0.pc.page_order)
        (q.start / 2 ^ w0.pc.page_order * 2 ^ w0.pc.page_order) e w1 ∧ q.end_ ≤ e)
    (by omega) ?_ ?_ ?_ ?_ ?_ (2 ^ 64) _ w0 ?_ (gap_budget q _ _ hpos (by omega))
  · intro offset w hI hn
    exact ⟨w, offset, rfl, hI, by omega⟩
  · intro offset w e hI hlt he
    obtain ⟨pp, w1, w2, h1, -, -⟩ := write_step fuel q buf m w0 _ offset w hs hcnt hI hlt
    rw [h1] at he
    exact absurd he (by simp)
  · intro offset w w1 hI hlt he
    obtain ⟨pp, w1', w2, h1, -, -⟩ := write_step fuel q buf m w0 _ offset w hs hcnt hI hlt
    rw [h1] at he
    exact absurd he (by simp)
  · intro offset w pp w1 e hI hlt ha he
    obtain ⟨pp', w1', w2, h1, h2, -⟩ := write_step fuel q buf m w0 _ offset w hs hcnt hI hlt
    rw [h1] at ha
    simp only [Except.ok.injEq, Prod.mk.injEq, Option.some.injEq] at ha
    obtain ⟨ha1, ha2⟩ := ha
    subst ha1 ha2
    rw [h2] at he
    exact absurd he (by simp)
  · intro offset w pp w1 w2 hI hlt ha he
    obtain ⟨pp', w1', w2', h1, h2, h3⟩ := write_step fuel q buf m w0 _ offset w hs hcnt hI hlt
    rw [h1] at ha
    simp only [Except.ok.injEq, Prod.mk.injEq, Option.some.injEq] at ha
    obtain ⟨ha1, ha2⟩ := ha
    subst ha1 ha2
    rw [h2] at he
    simp only [Except.ok.injEq] at he
    subst he
    exact h3
  · refine ⟨rfl, rfl, rfl, rfl, ?_, ?_, hheap, Nat.mul_mod_left _ _, ?_⟩
    · rw [hpages]
      simp only [page_run]
    · intro p hp
      rw [hpages] at hp
      exact absurd hp (List.not_mem_nil p)
    · exact Nat.lt_div_mul_add hpos
/-- A write into an empty index, in the setting of the round trip: it
returns, the completion of the caller has been applied to STATUS_OK, and the
pages from the page of `q.start` up to a page end at or past `q.end` are
indexed, each holding its part of `buf`. -/
theorem write_sync (fuel : Nat) (buf : List Nat) (blocks q : range) (c : Nat) (w : world)
    (hq : q = range_lshift blocks w.pc.block_order)
    (hs : sync_setting w q) (hpages : w.pc.pages = [])
    (hheap : ∃ k, q.end_ ≤ q.start / 2 ^ w.pc.page_order * 2 ^ w.pc.page_order +
      k * 2 ^ w.pc.page_order ∧ k ≤ w.backed_avail ∧ 2 * k ≤ w.h_avail) :
    ∃ w1 e, write (fuel + 4) buf blocks c w = .ok w1 ∧ settings w1 = settings w ∧
      page_run w1 (2 ^ w.pc.page_order) (q.start / 2 ^ w.pc.page_order * 2 ^ w.pc.page_order) e
        w1.pc.pages ∧
      (∀ p ∈ w1.pc.pages, page_holds w1 q buf p) ∧ q.end_ ≤ e ∧
      w1.fired = w.fired ++ [(c, STATUS_OK)] ∧ w1.sg = w.sg := by
  have hcnt : ((apply_merge w.nmerges
      (allocate_merge (status_handler.completion c) w).2).2.merges w.nmerges).count = 1 := by
    simp [apply_merge, allocate_merge]
  have hmg : (apply_merge w.nmerges
      (allocate_merge (status_handler.completion c) w).2).2.merges w.nmerges =
      ⟨1, STATUS_OK, status_handler.completion c⟩ := by
    simp [apply_merge, allocate_merge]
  obtain ⟨w1, e, h1, h2, h3⟩ := write_gap_sync fuel q buf w.nmerges
    (apply_merge w.nmerges (allocate_merge (status_handler.completion c) w).2).2
    (sync_setting_of_settings w _ q rfl hs) hcnt hpages hheap
  obtain ⟨i1, i2, i3, i4, i5, i6, -, -, -⟩ := h2
  have hvis : lookup_visits (apply_merge w.nmerges
      (allocate_merge (status_handler.completion c) w).2).2.page q
      (apply_merge w.nmerges (allocate_merge (status_handler.completion c) w).2).2.pc.pages
      q.start = [visit.gap q] := by
    have hp : (apply_merge w.nmerges
        (allocate_merge (status_handler.completion c) w).2).2.pc.pages = [] := hpages
    rw [hp]
    simp only [lookup_visits, if_pos hs.2.2.2.2.2.2.1, irange]
  have hlook : rangemap_range_lookup_with_gaps q
      (fun node => pagecache_write_page_cache_locked (apply (fuel + 4)) buf q w.nmerges node)
      (fun r => pagecache_write_gap_cache_locked (apply (fuel + 4)) buf q w.nmerges r)
      (apply_merge w.nmerges (allocate_merge (status_handler.completion c) w).2).2 =
      .ok (true, w1) := by
    unfold rangemap_range_lookup_with_gaps
    simp only [hvis, run_visits, h1]
    rfl
  have hwrite : write (fuel + 4) buf blocks c w =
      match rangemap_range_lookup_with_gaps q
        (fun node => pagecache_write_page_cache_locked (apply (fuel + 4)) buf q w.nmerges node)
        (fun r => pagecache_write_gap_cache_locked (apply (fuel + 4)) buf q w.nmerges r)
        (apply_merge w.nmerges (allocate_merge (status_handler.completion c) w).2).2 with
      | .error e => .error e
      | .ok (false, w3) =>
        apply (fuel + 4) (status_handler.merge_join w.nmerges)
          (timm "pagecache_write: no matching pages for range") w3
      | .ok (true, w3) => apply (fuel + 4) (status_handler.merge_join w.nmerges) STATUS_OK w3 := by
    rw [hq]
    rfl
  have hm1 : w1.merges w.nmerges = ⟨1, STATUS_OK, status_handler.completion c⟩ := i2.trans hmg
  rw [hwrite, hlook]
  simp only
  rw [apply_merge_join, merge_join_last _ _ _ (by rw [hm1]) (by rw [hm1]), hm1, apply_completion]
  refine ⟨_, e, rfl, i1, ?_, ?_, h3, ?_, i4⟩
  · exact page_run_congr w1 _ _ _ _ _ (fun _ _ => rfl) i5
  · intro p hp
    exact page_holds_frame w1 _ q buf p rfl rfl (fun _ _ => rfl) (i6 p hp).2
  · show w1.fired ++ _ = _
    rw [i3]
    rfl
/-! ## Write then read: the read of the pages of the write -/

theorem buffer_slice_append (q : range) (buf : List Nat) (x y z : Nat) (h1 : x ≤ y)
    (h2 : y ≤ z) :
    buffer_slice q buf x y ++ buffer_slice q buf y z = buffer_slice q buf x z := by
  unfold buffer_slice
  rw [← List.map_append]
  have hy : y = x + (y - x) := by omega
  have hz : z - x = (z - y) + (y - x) := by omega
  rw [hz, ← List.range'_append_1 x (y - x) (z - y), ← hy]

theorem buffer_slice_empty (q : range) (buf : List Nat) (x y : Nat) (h : y ≤ x) :
    buffer_slice q buf x y = [] := by
  unfold buffer_slice
  rw [Nat.sub_eq_zero_of_le h]
  rfl

theorem buffer_slice_all (q : range) (buf : List Nat)
    (hb : buf.length = q.end_ - q.start) : buffer_slice q buf q.start q.end_ = buf := by
  unfold buffer_slice
  apply List.ext_getElem
  · simp [hb]
  · intro n h1 h2
    simp only [List.getElem_map, List.getElem_range', Nat.one_mul, Nat.add_sub_cancel_left]
    exact List.getD_eq_getElem _ _ h2

/-- The bytes an entry presents, when the buffer of its page holds the bytes
of `buf` from `x` to `y`. -/
theorem entry_bytes (q : range) (buf : List Nat) (kvirt : Nat → Nat) (o x y : Nat) (hox : o ≤ x)
    (h : ∀ d, x ≤ d → d < y → kvirt (d - o) = buf.getD (d - q.start) 0) :
    (List.range (y - x)).map (fun k => kvirt (x - o + k)) = buffer_slice q buf x y := by
  unfold buffer_slice
  rw [List.range'_eq_map_range, List.map_map]
  apply List.map_congr_left
  intro k hk
  rw [List.mem_range] at hk
  have := h (x + k) (by omega) (by omega)
  simp only [Function.comp]
  rw [← this]
  congr 1
  omega

theorem sg_bytes_congr (w w2 : world) (h : ∀ p, (w2.page p).kvirt = (w.page p).kvirt) :
    ∀ es : List sg_buf, sg_bytes w2 es = sg_bytes w es
  | [] => rfl
  | e :: es => by
    simp only [sg_bytes, h e.pp, sg_bytes_congr w w2 h es]

theorem sg_bytes_congr_mem (w w2 : world) :
    ∀ es : List sg_buf, (∀ e ∈ es, (w2.page e.pp).kvirt = (w.page e.pp).kvirt) →
      sg_bytes w2 es = sg_bytes w es
  | [], _ => rfl
  | e :: es, h => by
    simp only [sg_bytes, h e (List.mem_cons_self _ _),
      sg_bytes_congr_mem w w2 es (fun x hx => h x (List.mem_cons_of_mem _ hx))]

/-- A lookup of `q` over an index that is a run of pages which all meet `q`
and which ends at or past the end of `q` visits the pages, and no gap. -/
theorem lookup_run (w : world) (q : range) (ps e : Nat) (he : q.end_ ≤ e) :
    ∀ (l : List Nat) (o edge : Nat), page_run w ps o e l →
      (∀ p ∈ l, range_overlaps (w.page p).node_r q = true) → o ≤ edge →
      (l = [] → q.end_ ≤ edge) → lookup_visits w.page q l edge = l.map visit.node
  | [], o, edge, _, _, _, hl => by
    have := hl rfl
    simp only [lookup_visits, List.map_nil]
    rw [if_neg (by omega)]
  | p :: l, o, edge, hrun, hov, hedge, _ => by
    simp only [page_run] at hrun
    have h1 := hov p (List.mem_cons_self _ _)
    simp only [lookup_visits, h1, if_true, List.map_cons]
    rw [hrun.1] at *
    simp only [irange]
    rw [if_neg (by omega), List.nil_append]
    congr 1
    apply lookup_run w q ps e he l (o + ps) (o + ps) hrun.2
      (fun x hx => hov x (List.mem_cons_of_mem _ hx)) (Nat.le_refl _)
    intro hl
    subst hl
    simp only [page_run] at hrun
    omega
/-- The read of a run of pages that hold their parts of `buf`, in the
setting of the round trip: every node handler returns, and the entries
appended to the list present the bytes of `buf` from `x`, the start of the
part of `q` in the run, to the end of `q`. -/
theorem read_run (fuel sg : Nat) (q : range) (buf : List Nat) (m ps e : Nat) (hps : 0 < ps)
    (he : q.end_ ≤ e) :
    ∀ (l : List Nat) (o x : Nat) (w : world), sync_setting w q → page_run w ps o e l →
      (∀ p ∈ l, page_holds w q buf p) → 1 ≤ (w.merges m).count →
      o ≤ x → q.start ≤ x → (x = o ∨ x = q.start) →
      ∃ w2 es,
        run_visits
          (fun node => pagecache_read_page_internal_cache_locked (apply (fuel + 4)) node sg q m)
          (fun r => pagecache_read_gap_cache_locked (apply (fuel + 4)) sg q m r)
          (l.map visit.node) w = .ok w2 ∧
        settings w2 = settings w ∧ w2.sg sg = w.sg sg ++ es ∧
        sg_bytes w2 es = buffer_slice q buf x q.end_ ∧ (∀ i, w2.merges i = w.merges i) ∧
        w2.fired = w.fired ∧ (∀ p, p ∉ l → w2.page p = w.page p)
  | [], o, x, w, _, hrun, _, _, hox, _, _ => by
    simp only [page_run] at hrun
    refine ⟨w, [], rfl, rfl, by simp, ?_, fun _ => rfl, rfl, fun _ _ => rfl⟩
    rw [buffer_slice_empty q buf x q.end_ (by omega)]
    rfl
  | p :: l, o, x, w, hs, hrun, hholds, hm, hox, hqx, hx => by
    simp only [page_run] at hrun
    obtain ⟨hr, hrun⟩ := hrun
    obtain ⟨hg, hst, hc, hdisk, hkv⟩ := hholds p (List.mem_cons_self _ _)
    obtain ⟨wm, r1, r2, r3, r4, r5, r6, r7⟩ :=
      read_page_sync fuel p sg q m w hst hc hs.1 hs.2.2.1 hm hg
    obtain ⟨f1, f2, f3, f4, f5, f6, f7, f8, f9⟩ := r2
    obtain ⟨-, hbounds⟩ := page_run_bounds w ps e l (o + ps) hrun
    have hne : ∀ p1 ∈ l, p1 ≠ p := by
      intro p1 hp1 h
      subst h
      have := (hbounds p1 hp1).1
      rw [hr] at this
      simp only [irange] at this
      omega
    have hpl : p ∉ l := fun h => hne p h rfl
    have hg' := hg
    obtain ⟨g1, g2, g3, g4, g5, g6, g7, g8, g9, g10, g11, g12⟩ := hg'
    rw [hr] at g1 g2 g4 g5
    simp only [irange] at g1 g2 g4 g5
    obtain ⟨w2, es, t1, t2, t3, t4, t5, t6, t7⟩ :=
      read_run fuel sg q buf m ps e hps he l (o + ps) (o + ps) wm
        (sync_setting_of_settings w wm q f1 hs)
        (page_run_congr w wm ps e l (o + ps) (fun p1 hp1 => by rw [f8 p1 (hne p1 hp1)]) hrun)
        (fun p1 hp1 => page_holds_frame w wm q buf p1 (f8 p1 (hne p1 hp1)) f1
          (fun d _ => by rw [r4]) (hholds p1 (List.mem_cons_of_mem _ hp1)))
        (by rw [r3 m]; exact hm) (Nat.le_refl _) (by omega) (Or.inl rfl)
    -- the buffer of `p` holds its part of `buf` from the read on
    have hkm : ∀ d, covered (w.page p).node_r q d →
        (wm.page p).kvirt (d - (w.page p).node_r.start) = buf.getD (d - q.start) 0 := by
      intro d hd
      rcases hst with ha | hn
      · rw [r7 ha d hd]
        exact hdisk d hd
      · rw [r6 hn]
        exact hkv hn d hd
    obtain ⟨i0, i1, hi, -, hr0, hq0, hr1, hq1, hlt, -, -, hc0, hc1⟩ := inter_cases w q p hg
    rw [hr] at hr0 hr1 hc0 hc1
    simp only [irange] at hr0 hr1 hc0 hc1
    have hi0 : i0 = x := by omega
    subst hi0
    have hoff : u64_sub (range_intersection q (w.page p).node_r).start (w.page p).node_r.start =
        i0 - o := by
      rw [hi, hr]
      simp only [irange]
      exact u64_sub_of_le _ _ hr0 (by omega)
    have hlen : range_span (range_intersection q (w.page p).node_r) = i1 - i0 := by
      rw [hi]
      simp only [range_span, irange]
      exact u64_sub_of_le _ _ (by omega) (by omega)
    rw [hoff, hlen] at r5
    have hentry : (List.range (i1 - i0)).map (fun k => (w2.page p).kvirt (i0 - o + k)) =
        buffer_slice q buf i0 i1 := by
      apply entry_bytes q buf _ o i0 i1 hr0
      intro d hd0 hd1
      rw [t7 p hpl]
      have := hkm d (by unfold covered; rw [hr]; simp only [irange]; omega)
      rw [hr] at this
      exact this
    refine ⟨w2, ⟨p, i0 - o, i1 - i0⟩ :: es, ?_, t2.trans f1, ?_, ?_, ?_, t6.trans f7, ?_⟩
    · simp only [List.map_cons, run_visits, r1]
      exact t1
    · rw [t3, r5, List.append_assoc]
      rfl
    · simp only [sg_bytes]
      rw [hentry, t4]
      rcases hc1 with h | h
      · rw [← h]
        exact buffer_slice_append q buf i0 i1 q.end_ (by omega) hq1
      · rw [buffer_slice_empty q buf (o + ps) q.end_ (by omega), List.append_nil, h]
    · intro i
      rw [t5 i, r3 i]
    · intro p1 hp1
      rw [List.mem_cons, not_or] at hp1
      rw [t7 p1 hp1.2, f8 p1 hp1.1]
/-- A read of `q` from a cache whose index is a run of pages that hold their
parts of `buf`, in the setting of the round trip: it returns, the completion
of the caller has been applied to STATUS_OK, and the entries appended to the
list present the bytes of `buf`. -/
theorem read_sync (fuel sg : Nat) (q : range) (buf : List Nat) (c : Nat) (w : world)
    (ps a e : Nat) (hps : 0 < ps) (hs : sync_setting w q)
    (hrun : page_run w ps a e w.pc.pages) (ha : a ≤ q.start) (he : q.end_ ≤ e)
    (hholds : ∀ p ∈ w.pc.pages, page_holds w q buf p) :
    ∃ w2 es, sg_read (fuel + 4) sg q c w = .ok w2 ∧ w2.sg sg = w.sg sg ++ es ∧
      sg_bytes w2 es = buffer_slice q buf q.start q.end_ ∧
      w2.fired = w.fired ++ [(c, STATUS_OK)] := by
  have hmg : (apply_merge w.nmerges
      (allocate_merge (status_handler.completion c) w).2).2.merges w.nmerges =
      ⟨1, STATUS_OK, status_handler.completion c⟩ := by
    simp [apply_merge, allocate_merge]
  have hqlt : q.start < q.end_ := hs.2.2.2.2.2.2.1
  have hqL : q.end_ ≤ w.pc.length := hs.2.2.2.2.2.2.2.1
  have hL := hs.2.2.2.2.2.2.2.2.1
  have hspan : range_span q > 0 := by
    have hpos : 0 < 2 ^ w.pc.page_order := Nat.two_pow_pos _
    unfold range_span
    rw [u64_sub_of_le _ _ (by omega) (by omega)]
    omega
  have hne : w.pc.pages ≠ [] := by
    intro h
    rw [h] at hrun
    simp only [page_run] at hrun
    omega
  obtain ⟨w3, es, t1, t2, t3, t4, t5, t6, -⟩ :=
    read_run fuel sg q buf w.nmerges ps e hps he w.pc.pages a q.start
      (apply_merge w.nmerges (allocate_merge (status_handler.completion c) w).2).2
      (sync_setting_of_settings w _ q rfl hs)
      (page_run_congr w _ ps e _ a (fun _ _ => rfl) hrun)
      (fun p hp => page_holds_frame w _ q buf p rfl rfl (fun _ _ => rfl) (hholds p hp))
      (by rw [hmg]) ha (Nat.le_refl _) (Or.inr rfl)
  have hvis : lookup_visits (apply_merge w.nmerges
      (allocate_merge (status_handler.completion c) w).2).2.page q
      (apply_merge w.nmerges (allocate_merge (status_handler.completion c) w).2).2.pc.pages
      q.start = w.pc.pages.map visit.node := by
    apply lookup_run w q ps e he w.pc.pages a q.start hrun _ ha (fun h => absurd h hne)
    intro p hp
    obtain ⟨g1, -, g3, g4, g5, -⟩ := (hholds p hp).1
    rw [range_overlaps_true_iff]
    exact ⟨g1, g3, g4, g5⟩
  have hempty : (!(w.pc.pages.map visit.node).isEmpty) = true := by
    cases hp : w.pc.pages with
    | nil => exact absurd hp hne
    | cons x xs => rfl
  have hlook : rangemap_range_lookup_with_gaps q
      (fun node =>
        pagecache_read_page_internal_cache_locked (apply (fuel + 4)) node sg q w.nmerges)
      (fun r => pagecache_read_gap_cache_locked (apply (fuel + 4)) sg q w.nmerges r)
      (apply_merge w.nmerges (allocate_merge (status_handler.completion c) w).2).2 =
      .ok (true, w3) := by
    unfold rangemap_range_lookup_with_gaps
    simp only [hvis, t1, hempty]
  have hread : sg_read (fuel + 4) sg q c w =
      match
        (match rangemap_range_lookup_with_gaps q
          (fun node =>
            pagecache_read_page_internal_cache_locked (apply (fuel + 4)) node sg q w.nmerges)
          (fun r => pagecache_read_gap_cache_locked (apply (fuel + 4)) sg q w.nmerges r)
          (apply_merge w.nmerges (allocate_merge (status_handler.completion c) w).2).2 with
        | .error e => (.error e : Except abort (Bool × world))
        | .ok (false, w3) =>
          match apply (fuel + 4) (status_handler.merge_join w.nmerges)
              (timm "pagecache_read_internal: no matching pages for range") w3 with
          | .error e => .error e
          | .ok w4 => .ok (false, w4)
        | .ok (true, w3) =>
          match apply (fuel + 4) (status_handler.merge_join w.nmerges) STATUS_OK w3 with
          | .error e => .error e
          | .ok w4 => .ok (true, w4)) with
      | .error e => .error e
      | .ok (_, w1) => .ok w1 := by
    unfold sg_read pagecache_read_sg pagecache_read_internal
    rw [if_neg (not_not.2 hspan)]
    rfl
  have hm3 : w3.merges w.nmerges = ⟨1, STATUS_OK, status_handler.completion c⟩ :=
    (t5 w.nmerges).trans hmg
  rw [hread, hlook]
  simp only
  rw [apply_merge_join, merge_join_last _ _ _ (by rw [hm3]) (by rw [hm3]), hm3, apply_completion]
  refine ⟨_, es, rfl, t3, ?_, ?_⟩
  · rw [← t4]
    apply sg_bytes_congr
    intro p
    rfl
  · show w3.fired ++ _ = _
    rw [t6]
    rfl
/-! ## Write then read: the round trip -/

theorem range_lshift_eq (a b bo : Nat) (h : b * 2 ^ bo < 2 ^ 64) (hab : a < b) :
    range_lshift (irange a b) bo = irange (a * 2 ^ bo) (b * 2 ^ bo) := by
  have ha : a * 2 ^ bo < 2 ^ 64 :=
    Nat.lt_of_le_of_lt (Nat.mul_le_mul_right _ (Nat.le_of_lt hab)) h
  simp only [range_lshift, irange, Nat.shiftLeft_eq, Nat.mod_eq_of_lt h, Nat.mod_eq_of_lt ha]

/-- C3, as stated, fails.  Over a backing store of fifteen bytes, a write of
the two bytes 170, 171 to the block `[7, 8)`, that is to the bytes
`[14, 16)`, and a read of these bytes yields 170, 171: the byte at offset
15, the backing length, is 171 and not zero.  A write to the blocks
`[6, 8)`, the whole page `[12, 16)`, stops the kernel at the assertion that
the bytes written end within the backing store.  And a cache is not always
ready for a write: after a write of a whole page the page is left Alloc, and
a second write of the same page stops the kernel. -/
theorem round_trip_past_length :
    short_world.pc.length = 15 ∧
      round_trip 4 [170, 171] (irange 7 8) 0 1 2 short_world =
        .ok ([170, 171], [(1, STATUS_OK), (2, STATUS_OK)]) ∧
      round_trip 4 [170, 171, 172, 173] (irange 6 8) 0 1 2 short_world =
        .error abort.assert_write_length ∧
      round_trip 4 [170, 171, 172, 173] (irange 2 4) 0 1 2
          (world_of (write 4 [170, 171, 172, 173] (irange 2 4) 1 example_world) example_world) =
        .error abort.assert_not_alloc :=
  ⟨rfl, rfl, rfl, rfl⟩

/-- C3 (amended): on a cache just created, over a block device that answers
every read and every write at once with STATUS_OK and stores the bytes, with
heaps that grant a page for every page of the backing store and whose
frames fit below the state bits of the packed word, a block not larger than
a page, and a backing store that ends a page below `2 ^ 64`:
for every block range `[a, b)`, not empty, whose bytes
`Q = blocks << block_order` lie within the backing store, and every buffer
`buf` of `|Q|` bytes, the write of `buf` to the blocks followed by `sg_read`
of `Q` returns, both completions are applied to STATUS_OK, and the
concatenated bytes of the scatter-gather entries are `buf`. -/
theorem write_then_read_returns_bytes (env : environment) (L po bo a b : Nat) (buf : List Nat)
    (sg c1 c2 fuel : Nat)
    (hr : env.read_policy = block_policy.sync STATUS_OK)
    (hw : env.write_policy = block_policy.sync STATUS_OK)
    (hphys : ∀ n, env.fresh_phys n >>> po < 2 ^ PAGECACHE_PAGESTATE_SHIFT)
    (hbo : bo ≤ po) (hpo : po < 64) (hL : L + 2 ^ po ≤ 2 ^ 64)
    (hab : a < b) (hbL : b * 2 ^ bo ≤ L) (hbuf : buf.length = (b - a) * 2 ^ bo)
    (hbacked : L / 2 ^ po + 1 ≤ env.backed_avail)
    (hheap : 2 * (L / 2 ^ po + 1) ≤ env.h_avail) :
    round_trip (fuel + 4) buf (irange a b) sg c1 c2 (initial_world env L po bo) =
      .ok (buf, [(c1, STATUS_OK), (c2, STATUS_OK)]) := by
  have hpos : 0 < 2 ^ po := Nat.two_pow_pos _
  have hq := range_lshift_eq a b bo (by omega) hab
  have hlt : a * 2 ^ bo < b * 2 ^ bo := Nat.mul_lt_mul_of_pos_right hab (Nat.two_pow_pos _)
  have hs : sync_setting (initial_world env L po bo) (irange (a * 2 ^ bo) (b * 2 ^ bo)) :=
    ⟨hr, hw, rfl, hphys, hbo, hpo, hlt, hbL, hL, Nat.mul_mod_left _ _, Nat.mul_mod_left _ _⟩
  obtain ⟨w1, e, h1, h2, h3, h4, h5, h6, h7⟩ :=
    write_sync fuel buf (irange a b) (irange (a * 2 ^ bo) (b * 2 ^ bo)) c1
      (initial_world env L po bo) hq.symm hs rfl
      ⟨L / 2 ^ po + 1, by
        have h8 : L < L / 2 ^ po * 2 ^ po + 2 ^ po := Nat.lt_div_mul_add hpos
        have h9 : (L / 2 ^ po + 1) * 2 ^ po = L / 2 ^ po * 2 ^ po + 2 ^ po := Nat.succ_mul _ _
        show b * 2 ^ bo ≤ _ + (L / 2 ^ po + 1) * 2 ^ po
        omega, hbacked, hheap⟩
  have hbo1 : w1.pc.block_order = bo := by
    simp only [settings, Prod.mk.injEq] at h2
    exact h2.2.1
  obtain ⟨w2, es, r1, r2, r3, r4⟩ :=
    read_sync fuel sg (irange (a * 2 ^ bo) (b * 2 ^ bo)) buf c2 w1 (2 ^ po) _ e hpos
      (sync_setting_of_settings _ w1 _ h2 hs) h3 (Nat.div_mul_le_self _ _) h5 h4
  unfold round_trip
  rw [h1]
  simp only
  rw [hbo1, hq, r1]
  simp only
  have hsg : w2.sg sg = es := by
    rw [r2, h7]
    rfl
  rw [hsg, r3, r4, h6, buffer_slice_all _ _ (by
    simp only [irange]
    rw [hbuf, Nat.sub_mul])]
  rfl

theorem write_then_read_returns_bytes_witness :
    round_trip 4 [170, 171, 172, 173, 174, 175] (irange 1 4) 0 1 2
        (initial_world example_env 16 2 1) =
      .ok ([170, 171, 172, 173, 174, 175], [(1, STATUS_OK), (2, STATUS_OK)]) :=
  write_then_read_returns_bytes example_env 16 2 1 1 4 [170, 171, 172, 173, 174, 175] 0 1 2 0
    rfl rfl
    (fun n => by
      show ((n * 4) % 2 ^ 32) >>> 2 < 2 ^ PAGECACHE_PAGESTATE_SHIFT
      rw [Nat.shiftRight_eq_div_pow]
      unfold PAGECACHE_PAGESTATE_SHIFT
      omega)
    (by decide) (by decide) (by decide) (by decide) (by decide) rfl (by decide) (by decide)
/-! ## The deferred write closure, the release callback, and the write check -/

/-- C16: the deferred write closure is not the write check.  On the page 0
of `deferred_write_world`, which is in Reading with the closure of the
write of 170, 171 to `[0, 2)` in its queue, the write check enqueues the
write once more and returns, while the closure stops the kernel at the
assertion on the state of `pagecache_write_page_internal_page_locked`; and
when the device answers the pending fill with an error, the walk of the
queue applies the closure and the kernel stops there. -/
theorem write_io_complete_on_reading_page_aborts :
    page_state (deferred_write_world.page 0) = PAGECACHE_PAGESTATE_READING ∧
      (deferred_write_world.page 0).completions =
        [status_handler.merge_join 0,
          status_handler.pagecache_write_io_complete 0 [170, 171] (irange 0 2)
            (status_handler.merge_join 1)] ∧
      pagecache_write_io_complete (apply 4) 0 [170, 171] (irange 0 2)
          (status_handler.merge_join 1) deferred_write_world =
        .error abort.assert_write_state ∧
      pagecache_write_page_io_check (apply 4) 0 [170, 171] (irange 0 2)
          (status_handler.merge_join 1) deferred_write_world =
        .ok (set_page deferred_write_world 0
          { deferred_write_world.page 0 with
            completions := (deferred_write_world.page 0).completions ++
              [status_handler.pagecache_write_io_complete 0 [170, 171] (irange 0 2)
                (status_handler.merge_join 1)] }) ∧
      block_complete (apply 4) 0 (timm "I/O error") deferred_write_world =
        .error abort.assert_write_state :=
  ⟨rfl, rfl, rfl, rfl, rfl⟩

/-- C17: the release callback stops the kernel on every page: its guard
`state != NEW || state != ACTIVE` holds in every state.  So it does on the
page 0 of `one_page_world`, which is indexed and in state New. -/
theorem pagecache_page_release_always_halts :
    (∀ pp w, pagecache_page_release pp w = .error abort.halt_release) ∧
      one_page_world.pc.pages = [0] ∧
      page_state (one_page_world.page 0) = PAGECACHE_PAGESTATE_NEW ∧
      pagecache_page_release 0 one_page_world = .error abort.halt_release := by
  have h : ∀ pp w, pagecache_page_release pp w = .error abort.halt_release := by
    intro pp w
    unfold pagecache_page_release
    have hg : page_state (w.page pp) ≠ PAGECACHE_PAGESTATE_NEW ∨
        page_state (w.page pp) ≠ PAGECACHE_PAGESTATE_ACTIVE := by
      by_cases hn : page_state (w.page pp) = PAGECACHE_PAGESTATE_NEW
      · right
        rw [hn]
        decide
      · left
        exact hn
    simp only [hg, if_true]
  exact ⟨h, rfl, rfl, h 0 one_page_world⟩

/-- C20: a write over a page that a write of the whole page has indexed
stops the kernel.  From the empty example cache, over the device that
answers at once with STATUS_OK, the write of four bytes to the blocks
`[2, 4)`, the whole page `[4, 8)`, returns and leaves page 0 in state Alloc;
the same write once more visits the indexed page and fails the assertion
`state != PAGECACHE_PAGESTATE_ALLOC` of the write check. -/
theorem write_over_written_page_aborts :
    write 4 [170, 171, 172, 173] (irange 2 4) 1 example_world = .ok written_world ∧
      written_world.pc.pages = [0] ∧
      (written_world.page 0).node_r = irange 4 8 ∧
      page_state (written_world.page 0) = PAGECACHE_PAGESTATE_ALLOC ∧
      write 4 [170, 171, 172, 173] (irange 2 4) 2 written_world =
        .error abort.assert_not_alloc :=
  ⟨rfl, rfl, rfl, rfl, rfl⟩
/-! ## The touch -/

theorem list_remove_eq_self (l : List Nat) (pp : Nat) (h : l.count pp = 0) :
    list_remove l pp = l := by
  unfold list_remove
  rw [List.filter_eq_self]
  intro a ha
  have hne : a ≠ pp := by
    intro hc
    subst hc
    exact absurd ha (List.count_eq_zero.1 h)
  simp [hne]

/-- C12: `pagecache_page_touch_if_filled_cache_locked` on a page that is
linked as its state says.  On an Alloc or a Reading page it returns false
and changes nothing; on a Dirty page it returns true and changes nothing;
on an Active page it returns true, no descriptor changes, and the page
becomes the last element of the Active list, the other elements keeping
their order; on a New page it returns true, the page becomes Active, leaves
the New list and is appended at the tail of the Active list.  The index and
the other lists stay as they are. -/
theorem touch_if_filled_spec (pp : Nat) (w : world) (hl : linked_ok w pp) :
    ((page_state (w.page pp) = PAGECACHE_PAGESTATE_ALLOC ∨
        page_state (w.page pp) = PAGECACHE_PAGESTATE_READING) →
      pagecache_page_touch_if_filled_cache_locked pp w = .ok (false, w)) ∧
    (page_state (w.page pp) = PAGECACHE_PAGESTATE_DIRTY →
      pagecache_page_touch_if_filled_cache_locked pp w = .ok (true, w)) ∧
    (page_state (w.page pp) = PAGECACHE_PAGESTATE_ACTIVE →
      ∃ w1, pagecache_page_touch_if_filled_cache_locked pp w = .ok (true, w1) ∧
        w1.page = w.page ∧ w1.pc.active = list_remove w.pc.active pp ++ [pp] ∧
        w1.pc.new = w.pc.new ∧ w1.pc.free = w.pc.free ∧ w1.pc.dirty = w.pc.dirty ∧
        w1.pc.pages = w.pc.pages) ∧
    (page_state (w.page pp) = PAGECACHE_PAGESTATE_NEW →
      ∃ w1, pagecache_page_touch_if_filled_cache_locked pp w = .ok (true, w1) ∧
        page_state (w1.page pp) = PAGECACHE_PAGESTATE_ACTIVE ∧
        (∀ p, p ≠ pp → w1.page p = w.page p) ∧
        (w1.page pp).kvirt = (w.page pp).kvirt ∧ (w1.page pp).node_r = (w.page pp).node_r ∧
        w1.pc.new = list_remove w.pc.new pp ∧ (list_remove w.pc.new pp).count pp = 0 ∧
        w1.pc.active = w.pc.active ++ [pp] ∧
        w1.pc.free = w.pc.free ∧ w1.pc.dirty = w.pc.dirty ∧ w1.pc.pages = w.pc.pages) := by
  obtain ⟨l1, l2, l3, l4⟩ := hl
  refine ⟨?_, ?_, ?_, ?_⟩
  · intro hs
    unfold pagecache_page_touch_if_filled_cache_locked
    have hs' : page_state (w.page pp) = PAGECACHE_PAGESTATE_READING ∨
        page_state (w.page pp) = PAGECACHE_PAGESTATE_ALLOC := hs.symm
    simp only [hs', if_true]
  · intro hs
    unfold pagecache_page_touch_if_filled_cache_locked
    have h1 : ¬ (PAGECACHE_PAGESTATE_DIRTY = PAGECACHE_PAGESTATE_READING ∨
        PAGECACHE_PAGESTATE_DIRTY = PAGECACHE_PAGESTATE_ALLOC) := by decide
    have h2 : ¬ (PAGECACHE_PAGESTATE_DIRTY = PAGECACHE_PAGESTATE_ACTIVE) := by decide
    have h3 : ¬ (PAGECACHE_PAGESTATE_DIRTY = PAGECACHE_PAGESTATE_NEW) := by decide
    simp only [hs, h1, h2, h3, if_false, if_true]
  · intro hs
    rw [hs] at l1 l2 l4
    have e1 : list_remove w.pc.free pp = w.pc.free := list_remove_eq_self _ _ (by rw [l1]; rfl)
    have e2 : list_remove w.pc.new pp = w.pc.new := list_remove_eq_self _ _ (by rw [l2]; rfl)
    have e4 : list_remove w.pc.dirty pp = w.pc.dirty := list_remove_eq_self _ _ (by rw [l4]; rfl)
    unfold pagecache_page_touch_if_filled_cache_locked
    have h1 : ¬ (PAGECACHE_PAGESTATE_ACTIVE = PAGECACHE_PAGESTATE_READING ∨
        PAGECACHE_PAGESTATE_ACTIVE = PAGECACHE_PAGESTATE_ALLOC) := by decide
    simp only [hs, h1, if_false, if_true]
    exact ⟨_, rfl, rfl, rfl, e2, e1, e4, rfl⟩
  · intro hs
    rw [hs] at l1 l3 l4
    have e1 : list_remove w.pc.free pp = w.pc.free := list_remove_eq_self _ _ (by rw [l1]; rfl)
    have e3 : list_remove w.pc.active pp = w.pc.active :=
      list_remove_eq_self _ _ (by rw [l3]; rfl)
    have e4 : list_remove w.pc.dirty pp = w.pc.dirty := list_remove_eq_self _ _ (by rw [l4]; rfl)
    rw [touch_new pp w hs]
    refine ⟨_, rfl, moved_to_active_state w pp, ?_, ?_, ?_, rfl, count_list_remove_self _ _,
      ?_, e1, e4, rfl⟩
    · intro p hp
      simp [moved_to_active, set_page, hp]
    · simp [moved_to_active, set_page]
    · simp [moved_to_active, set_page]
    · show list_remove w.pc.active pp ++ [pp] = _
      rw [e3]

theorem touch_if_filled_spec_witness :
    linked_ok one_page_world 0 ∧
      page_state (one_page_world.page 0) = PAGECACHE_PAGESTATE_NEW ∧
      ∃ w1, pagecache_page_touch_if_filled_cache_locked 0 one_page_world = .ok (true, w1) ∧
        page_state (w1.page 0) = PAGECACHE_PAGESTATE_ACTIVE ∧
        w1.pc.new = [] ∧ w1.pc.active = [0] := by
  have hl : linked_ok one_page_world 0 := by unfold linked_ok; decide
  obtain ⟨w1, h1, h2, -, -, -, h6, -, h8, -⟩ :=
    (touch_if_filled_spec 0 one_page_world hl).2.2.2 rfl
  exact ⟨hl, rfl, w1, h1, h2, h6, h8⟩
/-! ## Allocation from the Free list -/

/-- C18: with a Free list whose head `l` is linked as its state says and is
not indexed, and a range `r` that meets no indexed page,
`allocate_pagecache_page_cache_locked` returns `l`, the page at the head of
the Free list, and takes nothing from the heaps: the Free list is left with
its other pages, in their order, the state of `l` is Alloc, its reference
count is one more, its range is `r`, it is in the index, which holds no
other new page, and its buffer, the other descriptors and the other lists
are as they were. -/
theorem allocate_from_free_list (r : range) (w : world) (l : Nat) (rest : List Nat)
    (hfree : w.pc.free = l :: rest) (hl : linked_ok w l) (hni : l ∉ w.pc.pages)
    (hnov : ∀ n ∈ w.pc.pages, range_overlaps (w.page n).node_r r = false) :
    ∃ w1, allocate_pagecache_page_cache_locked r w = .ok (some l, w1) ∧
      w1.pc.free = rest ∧ page_state (w1.page l) = PAGECACHE_PAGESTATE_ALLOC ∧
      (w1.page l).refcount = (w.page l).refcount + 1 ∧ (w1.page l).node_r = r ∧
      l ∈ w1.pc.pages ∧ w1.pc.pages.Perm (l :: w.pc.pages) ∧
      w1.backed_avail = w.backed_avail ∧ w1.h_avail = w.h_avail ∧ w1.npages = w.npages ∧
      (w1.page l).kvirt = (w.page l).kvirt ∧ (∀ p, p ≠ l → w1.page p = w.page p) ∧
      w1.pc.new = w.pc.new ∧ w1.pc.active = w.pc.active ∧ w1.pc.dirty = w.pc.dirty := by
  obtain ⟨l1, l2, l3, l4⟩ := hl
  have hcount : w.pc.free.count l = 1 + rest.count l := by
    rw [hfree, List.count_cons_self]
    omega
  have hstate : page_state (w.page l) = PAGECACHE_PAGESTATE_FREE := by
    by_contra hc
    rw [if_neg hc] at l1
    omega
  rw [hstate] at l1 l2 l3 l4
  simp only [if_true] at l1
  have hrest : list_remove rest l = rest := list_remove_eq_self _ _ (by omega)
  have e1 : list_remove w.pc.free l = rest := by
    rw [hfree]
    unfold list_remove
    rw [List.filter_cons_of_neg (by simp)]
    exact hrest
  have e2 : list_remove w.pc.new l = w.pc.new := list_remove_eq_self _ _ (by rw [l2]; rfl)
  have e3 : list_remove w.pc.active l = w.pc.active :=
    list_remove_eq_self _ _ (by rw [l3]; rfl)
  have e4 : list_remove w.pc.dirty l = w.pc.dirty := list_remove_eq_self _ _ (by rw [l4]; rfl)
  have hset : set_page_state_cache_locked l PAGECACHE_PAGESTATE_ALLOC
      { w with pc := list_delete w.pc l } =
      .ok (set_page { w with pc := list_delete w.pc l } l
        { w.page l with state_phys :=
            (((w.page l).state_phys &&& MASK PAGECACHE_PAGESTATE_SHIFT) |||
              ((PAGECACHE_PAGESTATE_ALLOC <<< PAGECACHE_PAGESTATE_SHIFT) % 2 ^ 64)) }) := by
    unfold set_page_state_cache_locked
    simp only [hstate]
    rfl
  have hd : allocate_descriptor w = .ok (some l, refcount_reserve
      (set_page { w with pc := list_delete w.pc l } l
        { w.page l with state_phys :=
            (((w.page l).state_phys &&& MASK PAGECACHE_PAGESTATE_SHIFT) |||
              ((PAGECACHE_PAGESTATE_ALLOC <<< PAGECACHE_PAGESTATE_SHIFT) % 2 ^ 64)) }) l) := by
    unfold allocate_descriptor
    rw [hfree]
    simp only
    rw [hset]
  rw [allocate_eq, hd]
  simp only
  rw [pp_insert_eq, if_neg]
  · refine ⟨_, rfl, ?_, ?_, ?_, ?_, ?_, ?_, rfl, rfl, rfl, ?_, ?_, ?_, ?_, ?_⟩
    · simp only [inserted, refcount_reserve, set_page, list_delete]
      exact e1
    · simp only [inserted, refcount_reserve, set_page, if_true, page_state]
      exact page_state_pack _ _ (by decide)
    · simp [inserted, refcount_reserve, set_page]
    · simp [inserted, refcount_reserve, set_page]
    · have hp := rangemap_place_perm
        (set_page (refcount_reserve (set_page { w with pc := list_delete w.pc l } l
          { w.page l with state_phys :=
              (((w.page l).state_phys &&& MASK PAGECACHE_PAGESTATE_SHIFT) |||
                ((PAGECACHE_PAGESTATE_ALLOC <<< PAGECACHE_PAGESTATE_SHIFT) % 2 ^ 64)) }) l) l
          { (refcount_reserve (set_page { w with pc := list_delete w.pc l } l
              { w.page l with state_phys :=
                  (((w.page l).state_phys &&& MASK PAGECACHE_PAGESTATE_SHIFT) |||
                    ((PAGECACHE_PAGESTATE_ALLOC <<< PAGECACHE_PAGESTATE_SHIFT) % 2 ^ 64)) })
              l).page l with node_r := r }).page l w.pc.pages
      exact hp.symm.subset (List.mem_cons_self _ _)
    · exact rangemap_place_perm _ _ _
    · simp [inserted, refcount_reserve, set_page]
    · intro p hp
      simp [inserted, refcount_reserve, set_page, hp]
    · simp only [inserted, refcount_reserve, set_page, list_delete]
      exact e2
    · simp only [inserted, refcount_reserve, set_page, list_delete]
      exact e3
    · simp only [inserted, refcount_reserve, set_page, list_delete]
      exact e4
  · simp only [List.any_eq_true, not_exists, not_and, Bool.not_eq_true]
    intro n hn
    have hne : n ≠ l := fun h => hni (h ▸ hn)
    simp only [refcount_reserve, set_page, if_neg hne]
    exact hnov n hn

theorem allocate_from_free_list_witness :
    free_page_world.pc.free = [0] ∧ linked_ok free_page_world 0 ∧
      ∃ w1, allocate_pagecache_page_cache_locked (irange 0 4) free_page_world =
          .ok (some 0, w1) ∧
        w1.pc.free = [] ∧ page_state (w1.page 0) = PAGECACHE_PAGESTATE_ALLOC ∧
        (w1.page 0).refcount = 1 ∧ (w1.page 0).node_r = irange 0 4 ∧ 0 ∈ w1.pc.pages ∧
        w1.backed_avail = free_page_world.backed_avail ∧
        w1.h_avail = free_page_world.h_avail := by
  have hl : linked_ok free_page_world 0 := by unfold linked_ok; decide
  obtain ⟨w1, h1, h2, h3, h4, h5, h6, -, h8, h9, -⟩ :=
    allocate_from_free_list (irange 0 4) free_page_world 0 [] rfl hl
      (by simp [free_page_world, set_page, example_world, initial_world])
      (by simp [free_page_world, set_page, example_world, initial_world])
  exact ⟨rfl, hl, w1, h1, h2, h3, h4, h5, h6, h8, h9⟩
/-! ## The write through -/

/-- The intersection of two ranges that meet and whose ends are multiples of
`2 ^ bo`. -/
theorem inter_block_aligned (q r : range) (bo : Nat) (hov : range_overlaps q r = true)
    (h1 : r.start % 2 ^ bo = 0) (h2 : r.end_ % 2 ^ bo = 0) (h3 : q.start % 2 ^ bo = 0)
    (h4 : q.end_ % 2 ^ bo = 0) :
    ∃ i0 i1, range_intersection q r = irange i0 i1 ∧ r.start ≤ i0 ∧ q.start ≤ i0 ∧
      i1 ≤ r.end_ ∧ i1 ≤ q.end_ ∧ i0 < i1 ∧ i0 % 2 ^ bo = 0 ∧ i1 % 2 ^ bo = 0 := by
  obtain ⟨hi, hlt⟩ := range_intersection_of_overlaps q r hov
  refine ⟨max q.start r.start, min q.end_ r.end_, hi, Nat.le_max_right _ _, Nat.le_max_left _ _,
    Nat.min_le_right _ _, Nat.min_le_left _ _, hlt, ?_, ?_⟩
  · rcases Nat.le_total q.start r.start with ha | ha
    · rw [Nat.max_eq_right ha]; exact h1
    · rw [Nat.max_eq_left ha]; exact h3
  · rcases Nat.le_total q.end_ r.end_ with ha | ha
    · rw [Nat.min_eq_left ha]; exact h4
    · rw [Nat.min_eq_right ha]; exact h2

theorem u64_sub_lt_iff (x off len : Nat) (hx : x < 2 ^ 64) (h : off + len ≤ 2 ^ 64) :
    u64_sub x off < len ↔ off ≤ x ∧ x < off + len := by
  unfold u64_sub
  have hoff : off % 2 ^ 64 = off ∨ (off = 2 ^ 64 ∧ len = 0) := by
    rcases Nat.lt_or_ge off (2 ^ 64) with h1 | h1
    · left; exact Nat.mod_eq_of_lt h1
    · right; omega
  rcases hoff with ho | ⟨ho, hl⟩
  · rw [ho]
    rcases Nat.lt_or_ge x off with h1 | h1
    · have : (x + 2 ^ 64 - off) % 2 ^ 64 = x + 2 ^ 64 - off := Nat.mod_eq_of_lt (by omega)
      rw [this]
      omega
    · have : (x + 2 ^ 64 - off) % 2 ^ 64 = x - off := by
        have h2 : x + 2 ^ 64 - off = (x - off) + 2 ^ 64 := by omega
        rw [h2, Nat.add_mod_right]
        exact Nat.mod_eq_of_lt (by omega)
      rw [this]
      omega
  · subst hl
    omega

/-- C13: the write through of a page in state New, Active or Dirty whose
range is a page of the cache, for the bytes `q = blocks << block_order` that
meet the page, with `I = q ∩ range` and `range.start + |I| ≤ length`, in a
cache whose block is not larger than its page.  The request the device
gets is a block write from the page buffer at `I.start - range.start` whose
blocks, shifted left by the block order, are `I`; it is the one request
added to the requests issued.  In the world the device gets it in, the
bytes of the page buffer from `I.start - range.start` on, `|I|` of them,
are the bytes of `buf` from `I.start - q.start` on, every other byte of the
buffer, the state of the page and every other descriptor are as they
were. -/
theorem write_through_copies_and_issues
    (ap : status_handler → status → world → Except abort world)
    (pp : Nat) (buf : List Nat) (blocks q : range) (sh : status_handler) (w : world)
    (hs : page_state (w.page pp) = PAGECACHE_PAGESTATE_NEW ∨
      page_state (w.page pp) = PAGECACHE_PAGESTATE_ACTIVE ∨
      page_state (w.page pp) = PAGECACHE_PAGESTATE_DIRTY)
    (hq : q = range_lshift blocks w.pc.block_order)
    (hqw : blocks.end_ * 2 ^ w.pc.block_order < 2 ^ 64) (hb : blocks.start < blocks.end_)
    (hpa : page_aligned w.pc (w.page pp).node_r) (hre : (w.page pp).node_r.end_ < 2 ^ 64)
    (hbo : w.pc.block_order ≤ w.pc.page_order) (hpo : w.pc.page_order < 64)
    (hov : range_overlaps q (w.page pp).node_r = true)
    (hlen : (w.page pp).node_r.start +
      ((range_intersection q (w.page pp).node_r).end_ -
        (range_intersection q (w.page pp).node_r).start) ≤ w.pc.length) :
    ∃ w1 req, pagecache_write_page_internal_page_locked ap pp buf q sh w =
        block_answer ap req w1 ∧
      req.write = true ∧ req.pp = pp ∧ req.sh = sh ∧
      req.offset = (range_intersection q (w.page pp).node_r).start - (w.page pp).node_r.start ∧
      range_lshift req.blocks w.pc.block_order = range_intersection q (w.page pp).node_r ∧
      w1.issued = w.issued ++ [req] ∧ w1.pending = w.pending ∧ w1.disk = w.disk ∧
      page_state (w1.page pp) = page_state (w.page pp) ∧
      (∀ p, p ≠ pp → w1.page p = w.page p) ∧
      (∀ x, x < 2 ^ 64 → (w1.page pp).kvirt x =
        if (range_intersection q (w.page pp).node_r).start - (w.page pp).node_r.start ≤ x ∧
            x < (range_intersection q (w.page pp).node_r).start - (w.page pp).node_r.start +
              ((range_intersection q (w.page pp).node_r).end_ -
                (range_intersection q (w.page pp).node_r).start)
        then buf.getD ((range_intersection q (w.page pp).node_r).start - q.start +
          (x - ((range_intersection q (w.page pp).node_r).start - (w.page pp).node_r.start))) 0
        else (w.page pp).kvirt x) := by
  have hq' : q = irange (blocks.start * 2 ^ w.pc.block_order)
      (blocks.end_ * 2 ^ w.pc.block_order) := by
    rw [hq]
    exact range_lshift_eq blocks.start blocks.end_ _ hqw hb
  obtain ⟨k, hk1, hk2⟩ := hpa
  unfold pagecache_pagesize at hk1 hk2
  rw [U64_FROM_BIT_eq _ hpo] at hk1 hk2
  have hr1 : (w.page pp).node_r.start % 2 ^ w.pc.block_order = 0 :=
    mod_pow_of_le _ _ _ hbo (by rw [hk1]; exact Nat.mul_mod_left _ _)
  have hr2 : (w.page pp).node_r.end_ % 2 ^ w.pc.block_order = 0 :=
    mod_pow_of_le _ _ _ hbo (by rw [hk2]; exact Nat.mul_mod_left _ _)
  have hq1 : q.start % 2 ^ w.pc.block_order = 0 := by
    rw [hq']; exact Nat.mul_mod_left _ _
  have hq2 : q.end_ % 2 ^ w.pc.block_order = 0 := by
    rw [hq']; exact Nat.mul_mod_left _ _
  obtain ⟨i0, i1, hi, a1, a2, a3, a4, a5, a6, a7⟩ :=
    inter_block_aligned q (w.page pp).node_r _ hov hr1 hr2 hq1 hq2
  rw [hi] at hlen ⊢
  simp only [irange] at hlen ⊢
  have hoff : u64_sub i0 (w.page pp).node_r.start = i0 - (w.page pp).node_r.start :=
    u64_sub_of_le _ _ a1 (by omega)
  have hsrc : u64_sub i0 q.start = i0 - q.start := u64_sub_of_le _ _ a2 (by omega)
  have hspan : range_span ⟨i0, i1⟩ = i1 - i0 := by
    simp only [range_span]
    exact u64_sub_of_le _ _ (by omega) (by omega)
  have hadd : u64_add (w.page pp).node_r.start (i1 - i0) = (w.page pp).node_r.start + (i1 - i0) :=
    u64_add_of_lt _ _ (by omega)
  have hstate : page_state (w.page pp) = PAGECACHE_PAGESTATE_ALLOC ∨
      page_state (w.page pp) = PAGECACHE_PAGESTATE_NEW ∨
      page_state (w.page pp) = PAGECACHE_PAGESTATE_ACTIVE ∨
      page_state (w.page pp) = PAGECACHE_PAGESTATE_DIRTY := Or.inr hs
  refine ⟨logged (runtime_memcpy w pp (i0 - (w.page pp).node_r.start) buf (i0 - q.start)
      (i1 - i0)) ⟨true, pp, i0 - (w.page pp).node_r.start,
        range_rshift ⟨i0, i1⟩ w.pc.block_order, sh⟩,
    ⟨true, pp, i0 - (w.page pp).node_r.start, range_rshift ⟨i0, i1⟩ w.pc.block_order, sh⟩,
    ?_, rfl, rfl, rfl, rfl, ?_, rfl, rfl, rfl, ?_, ?_, ?_⟩
  · unfold pagecache_write_page_internal_page_locked
    simp only [hi, irange, hoff, hsrc, hspan, hadd, hstate, hlen, not_true_eq_false, if_false]
    rfl
  · simp only [range_lshift, range_rshift, irange, Nat.shiftLeft_eq, shift_right_mul _ _ a6,
      shift_right_mul _ _ a7]
    rw [Nat.mod_eq_of_lt (by omega), Nat.mod_eq_of_lt (by omega)]
  · simp [logged, runtime_memcpy, set_page, page_state]
  · intro p hp
    simp [logged, runtime_memcpy, set_page, hp]
  · intro x hx
    simp only [logged, runtime_memcpy, set_page, if_true]
    by_cases hc : i0 - (w.page pp).node_r.start ≤ x ∧
        x < i0 - (w.page pp).node_r.start + (i1 - i0)
    · have h1 := (u64_sub_lt_iff x (i0 - (w.page pp).node_r.start) (i1 - i0) hx (by omega)).2 hc
      rw [if_pos h1, if_pos hc, u64_sub_of_le _ _ hc.1 hx]
    · have h1 : ¬ u64_sub x (i0 - (w.page pp).node_r.start) < i1 - i0 := fun h =>
        hc ((u64_sub_lt_iff x (i0 - (w.page pp).node_r.start) (i1 - i0) hx (by omega)).1 h)
      rw [if_neg h1, if_neg hc]

theorem write_through_copies_and_issues_witness :
    page_state (one_page_world.page 0) = PAGECACHE_PAGESTATE_NEW ∧
      (one_page_world.page 0).node_r = irange 4 8 ∧
      irange 4 6 = range_lshift (irange 2 3) one_page_world.pc.block_order ∧
      ∃ w1 req, pagecache_write_page_internal_page_locked (apply 4) 0 [170, 171] (irange 4 6)
          (status_handler.completion 9) one_page_world = block_answer (apply 4) req w1 ∧
        req.write = true ∧ req.offset = 0 ∧
        range_lshift req.blocks one_page_world.pc.block_order = irange 4 6 ∧
        w1.issued = one_page_world.issued ++ [req] ∧
        page_state (w1.page 0) = PAGECACHE_PAGESTATE_NEW ∧
        (w1.page 0).kvirt 0 = 170 ∧ (w1.page 0).kvirt 1 = 171 ∧
        (w1.page 0).kvirt 2 = (one_page_world.page 0).kvirt 2 := by
  obtain ⟨w1, req, h1, h2, -, -, h5, h6, h7, -, -, h10, -, h12⟩ :=
    write_through_copies_and_issues (apply 4) 0 [170, 171] (irange 2 3) (irange 4 6)
      (status_handler.completion 9) one_page_world (Or.inl rfl) rfl (by decide) (by decide)
      ⟨1, rfl, rfl⟩ (by decide) (by decide) (by decide) rfl (by decide)
  refine ⟨rfl, rfl, rfl, w1, req, h1, h2, h5, h6, h7, h10, ?_, ?_, ?_⟩
  · rw [h12 0 (by decide)]; rfl
  · rw [h12 1 (by decide)]; rfl
  · rw [h12 2 (by decide)]; rfl
/-! ## The write gap handler: write through, or fill first -/

theorem range_intersection_comm (a b : range) : range_intersection a b = range_intersection b a := by
  unfold range_intersection
  simp only [irange, Nat.max_comm a.start b.start, Nat.min_comm a.end_ b.end_]

/-- The fill completion on a Reading page whose queue holds the closure
`pagecache_write_page_filled` of a write, and nothing else. -/
theorem read_page_complete_write_filled
    (ap ap1 : status_handler → status → world → Except abort world)
    (pp : Nat) (buf : List Nat) (q : range) (sh : status_handler) (s : status) (w : world)
    (hs : page_state (w.page pp) = PAGECACHE_PAGESTATE_READING)
    (hq : (w.page pp).completions = [status_handler.pagecache_write_page_filled pp buf q sh])
    (hap : ∀ s1 w1, ap (status_handler.pagecache_write_page_filled pp buf q sh) s1 w1 =
      pagecache_write_page_filled ap1 pp buf q sh s1 w1) :
    (is_ok s = true →
      read_page_complete ap pp s w =
        match pagecache_write_page_internal_page_locked ap1 pp buf q sh (moved_to_new w pp) with
        | .error e => .error e
        | .ok w1 => .ok (queue_cleared w1 pp)) ∧
    (is_ok s = false →
      read_page_complete ap pp s w =
        match ap1 sh (timm_up s "pagecache_write_page_filled: fill failed") w with
        | .error e => .error e
        | .ok w1 => .ok (queue_cleared w1 pp)) := by
  constructor
  · intro hok
    have hq1 : ((moved_to_new w pp).page pp).completions =
        [status_handler.pagecache_write_page_filled pp buf q sh] := by
      simp [moved_to_new, set_page, hq]
    have hnew := moved_to_new_state w pp
    unfold read_page_complete read_page_complete_state
    simp only [hs, ne_eq, not_true_eq_false, if_false, hok, Bool.not_true, Bool.false_eq_true,
      set_page_state_new_ok pp w hs, hq1, List.length_singleton]
    simp only [completions_foreach, hq1, List.getElem?_cons_zero, hap]
    unfold pagecache_write_page_filled
    simp only [hok, Bool.not_true, Bool.false_eq_true, if_false,
      write_page_io_check_new _ _ _ _ _ _ hnew]
    cases pagecache_write_page_internal_page_locked ap1 pp buf q sh (moved_to_new w pp) <;> rfl
  · intro hok
    unfold read_page_complete read_page_complete_state
    simp only [hs, ne_eq, not_true_eq_false, if_false, hok, Bool.not_false, if_true, hq,
      List.length_singleton]
    simp only [completions_foreach, hq, List.getElem?_cons_zero, hap]
    unfold pagecache_write_page_filled
    simp only [hok, Bool.not_false, if_true]
    cases ap1 sh (timm_up s "pagecache_write_page_filled: fill failed") w <;> rfl

theorem fill_prepared_kvirt_cases (w : world) (pp : Nat) (sh : status_handler) (x : Nat) :
    ((fill_prepared w pp sh).page pp).kvirt x = (w.page pp).kvirt x ∨
      ((fill_prepared w pp sh).page pp).kvirt x = 0 := by
  unfold fill_prepared
  simp only
  split
  · simp only [zero, set_page, if_true]
    by_cases h : u64_sub x (u64_sub w.pc.length (w.page pp).node_r.start) <
        u64_sub (w.page pp).node_r.end_ w.pc.length
    · right; rw [if_pos h]
    · left; rw [if_neg h]
  · left
    simp [set_page]

/-- The write through of a page, when the two assertions hold: the copy,
then the block write handed to the device. -/
theorem write_page_internal_issue (ap : status_handler → status → world → Except abort world)
    (pp : Nat) (buf : List Nat) (q : range) (sh : status_handler) (w : world)
    (hs : page_state (w.page pp) = PAGECACHE_PAGESTATE_ALLOC ∨
      page_state (w.page pp) = PAGECACHE_PAGESTATE_NEW ∨
      page_state (w.page pp) = PAGECACHE_PAGESTATE_ACTIVE ∨
      page_state (w.page pp) = PAGECACHE_PAGESTATE_DIRTY)
    (hl : u64_add (w.page pp).node_r.start (range_span (range_intersection q (w.page pp).node_r)) ≤
      w.pc.length) :
    pagecache_write_page_internal_page_locked ap pp buf q sh w =
      block_issue ap (write_request w pp q sh)
        (runtime_memcpy w pp
          (u64_sub (range_intersection q (w.page pp).node_r).start (w.page pp).node_r.start) buf
          (u64_sub (range_intersection q (w.page pp).node_r).start q.start)
          (range_span (range_intersection q (w.page pp).node_r))) := by
  unfold pagecache_write_page_internal_page_locked
  simp only [hs, not_true_eq_false, if_false, hl]
  rfl

/-- C14: the body of the loop of the write gap handler for the page `pp` it
has just allocated (Alloc, with an empty queue), a page that meets `q`; let
`I = range ∩ q`.  When `I.start = range.start` and
`I.end = min(range.end, length)`, the one request the device gets is a block
write of the blocks `I >> block_order`, with a handler of the merge: no block
read is issued.  Otherwise the one request the device gets is the block read
of the fill: the page is Reading, its queue holds the closure
`pagecache_write_page_filled` of the write, nothing has been copied into its
buffer and no block write has been issued.  When the fill of such a page
completes with an OK status the closure runs the write through, on the page
in state New; when it completes with an error the closure applies the
handler of the merge to the error annotated "fill failed", in a world in
which nothing has been copied and no block write issued. -/
theorem write_gap_page_fills_unless_covered (fuel : Nat) (buf : List Nat) (q : range)
    (m pp : Nat) (w : world)
    (hs : page_state (w.page pp) = PAGECACHE_PAGESTATE_ALLOC)
    (hc : (w.page pp).completions = [])
    (hov : range_overlaps (w.page pp).node_r q = true)
    (hre : (w.page pp).node_r.end_ < 2 ^ 64) :
    ((range_intersection (w.page pp).node_r q).start = (w.page pp).node_r.start ∧
        (range_intersection (w.page pp).node_r q).end_ =
          min (w.page pp).node_r.end_ w.pc.length →
      ∃ w1 req, pagecache_write_gap_page (apply (fuel + 1)) buf q m pp w =
          block_answer (apply (fuel + 1)) req w1 ∧
        req = ⟨true, pp, 0,
          range_rshift (range_intersection (w.page pp).node_r q) w.pc.block_order,
          status_handler.merge_join m⟩ ∧
        w1.issued = w.issued ++ [req] ∧ w1.pending = w.pending ∧
        (w1.page pp).completions = []) ∧
    (¬ ((range_intersection (w.page pp).node_r q).start = (w.page pp).node_r.start ∧
        (range_intersection (w.page pp).node_r q).end_ =
          min (w.page pp).node_r.end_ w.pc.length) →
      ∃ w1, pagecache_write_gap_page (apply (fuel + 1)) buf q m pp w =
          block_answer (apply (fuel + 1)) (fill_request w pp) w1 ∧
        (fill_request w pp).write = false ∧
        w1.issued = w.issued ++ [fill_request w pp] ∧ w1.pending = w.pending ∧
        page_state (w1.page pp) = PAGECACHE_PAGESTATE_READING ∧
        (w1.page pp).completions =
          [status_handler.pagecache_write_page_filled pp buf q (status_handler.merge_join m)] ∧
        w1.disk = w.disk ∧
        ∀ x, (w1.page pp).kvirt x = (w.page pp).kvirt x ∨ (w1.page pp).kvirt x = 0) ∧
    (∀ (s : status) (w2 : world) (sh : status_handler),
      page_state (w2.page pp) = PAGECACHE_PAGESTATE_READING →
      (w2.page pp).completions = [status_handler.pagecache_write_page_filled pp buf q sh] →
      (is_ok s = true →
        read_page_complete (apply (fuel + 1)) pp s w2 =
          match pagecache_write_page_internal_page_locked (apply fuel) pp buf q sh
              (moved_to_new w2 pp) with
          | .error e => .error e
          | .ok w3 => .ok (queue_cleared w3 pp)) ∧
      (is_ok s = false →
        read_page_complete (apply (fuel + 1)) pp s w2 =
          match apply fuel sh (timm_up s "pagecache_write_page_filled: fill failed") w2 with
          | .error e => .error e
          | .ok w3 => .ok (queue_cleared w3 pp))) := by
  refine ⟨?_, ?_, ?_⟩
  · intro hfull
    obtain ⟨hi, hlt⟩ := range_intersection_of_overlaps _ _ hov
    have hfull' := hfull
    rw [hi] at hfull'
    simp only [irange] at hfull'
    obtain ⟨f1, f2⟩ := hfull'
    have hi2 : range_intersection q (w.page pp).node_r =
        irange (w.page pp).node_r.start (min (w.page pp).node_r.end_ w.pc.length) := by
      rw [range_intersection_comm, hi, f1, f2]
    have hlt2 : (w.page pp).node_r.start < min (w.page pp).node_r.end_ w.pc.length := by
      rw [← f1, ← f2]; exact hlt
    have hmin1 : min (w.page pp).node_r.end_ w.pc.length ≤ (w.page pp).node_r.end_ :=
      Nat.min_le_left _ _
    have hmin2 : min (w.page pp).node_r.end_ w.pc.length ≤ w.pc.length := Nat.min_le_right _ _
    have heq : pagecache_write_gap_page (apply (fuel + 1)) buf q m pp w =
        pagecache_write_page_internal_page_locked (apply (fuel + 1)) pp buf q
          (status_handler.merge_join m) (apply_merge m w).2 := by
      unfold pagecache_write_gap_page
      rw [if_pos hfull]
      rfl
    have hoff : u64_sub (w.page pp).node_r.start (w.page pp).node_r.start = 0 := by
      rw [u64_sub_of_le _ _ (Nat.le_refl _) (by omega)]
      omega
    have hspan : range_span ⟨(w.page pp).node_r.start,
        min (w.page pp).node_r.end_ w.pc.length⟩ =
        min (w.page pp).node_r.end_ w.pc.length - (w.page pp).node_r.start := by
      simp only [range_span]
      exact u64_sub_of_le _ _ (by omega) (by omega)
    have hadd : u64_add (w.page pp).node_r.start
        (min (w.page pp).node_r.end_ w.pc.length - (w.page pp).node_r.start) =
        min (w.page pp).node_r.end_ w.pc.length := by
      rw [u64_add_of_lt _ _ (by omega)]
      omega
    have hstate : page_state ((apply_merge m w).2.page pp) = PAGECACHE_PAGESTATE_ALLOC ∨
        page_state ((apply_merge m w).2.page pp) = PAGECACHE_PAGESTATE_NEW ∨
        page_state ((apply_merge m w).2.page pp) = PAGECACHE_PAGESTATE_ACTIVE ∨
        page_state ((apply_merge m w).2.page pp) = PAGECACHE_PAGESTATE_DIRTY := Or.inl hs
    have hi3 : range_intersection q ((apply_merge m w).2.page pp).node_r =
        irange (w.page pp).node_r.start (min (w.page pp).node_r.end_ w.pc.length) := hi2
    have hlen : (apply_merge m w).2.pc.length = w.pc.length := rfl
    have hr : ((apply_merge m w).2.page pp).node_r = (w.page pp).node_r := rfl
    have hl : u64_add ((apply_merge m w).2.page pp).node_r.start
        (range_span (range_intersection q ((apply_merge m w).2.page pp).node_r)) ≤
        (apply_merge m w).2.pc.length := by
      rw [hi3, hr, hlen]
      simp only [irange]
      rw [hspan, hadd]
      exact hmin2
    rw [heq, write_page_internal_issue _ _ _ _ _ _ hstate hl]
    refine ⟨_, _, rfl, ?_, rfl, rfl, ?_⟩
    · unfold write_request
      rw [hr, range_intersection_comm q, hfull.1, hoff]
      rfl
    · simp [runtime_memcpy, set_page, apply_merge, hc]
  · intro hpart
    have heq : pagecache_write_gap_page (apply (fuel + 1)) buf q m pp w =
        pagecache_page_fill_cache_locked (apply (fuel + 1)) pp
          (status_handler.pagecache_write_page_filled pp buf q (status_handler.merge_join m))
          (apply_merge m w).2 := by
      unfold pagecache_write_gap_page
      rw [if_neg hpart]
      rfl
    refine ⟨logged (fill_prepared (apply_merge m w).2 pp
        (status_handler.pagecache_write_page_filled pp buf q (status_handler.merge_join m)))
        (fill_request w pp), ?_, rfl, ?_, ?_, ?_, ?_, ?_, ?_⟩
    · rw [heq, fill_alloc_eq _ _ _ (apply_merge m w).2 hs]
      rfl
    · show (fill_prepared (apply_merge m w).2 pp _).issued ++ _ = _
      rw [(fill_prepared_issued _ _ _).1]
      rfl
    · exact (fill_prepared_issued _ _ _).2
    · exact fill_prepared_state _ _ _
    · show ((fill_prepared (apply_merge m w).2 pp _).page pp).completions = _
      rw [fill_prepared_completions]
      show (w.page pp).completions ++ _ = _
      rw [hc]
      rfl
    · show (fill_prepared (apply_merge m w).2 pp _).disk = _
      unfold fill_prepared
      simp only
      split <;> rfl
    · intro x
      exact fill_prepared_kvirt_cases (apply_merge m w).2 pp _ x
  · intro s w2 sh h1 h2
    exact read_page_complete_write_filled (apply (fuel + 1)) (apply fuel) pp buf q sh s w2 h1 h2
      (fun _ _ => rfl)

theorem write_gap_page_fills_unless_covered_witness :
    page_state (written_world.page 0) = PAGECACHE_PAGESTATE_ALLOC ∧
      (written_world.page 0).completions = [] ∧
      (written_world.page 0).node_r = irange 4 8 ∧
      (∃ w1 req, pagecache_write_gap_page (apply 1) [170, 171, 172, 173] (irange 4 8) 5 0
          written_world = block_answer (apply 1) req w1 ∧
        req = ⟨true, 0, 0, irange 2 4, status_handler.merge_join 5⟩ ∧
        w1.issued = written_world.issued ++ [req]) ∧
      (∃ w1, pagecache_write_gap_page (apply 1) [170, 171] (irange 4 6) 5 0 written_world =
          block_answer (apply 1) (fill_request written_world 0) w1 ∧
        fill_request written_world 0 =
          ⟨false, 0, 0, irange 2 4, status_handler.read_page_complete 0⟩ ∧
        (w1.page 0).completions =
          [status_handler.pagecache_write_page_filled 0 [170, 171] (irange 4 6)
            (status_handler.merge_join 5)]) := by
  obtain ⟨w1, req, h1, h2, h3, -⟩ :=
    (write_gap_page_fills_unless_covered 0 [170, 171, 172, 173] (irange 4 8) 5 0 written_world
      rfl rfl rfl (by decide)).1 (by decide)
  obtain ⟨w2, g1, -, -, -, -, g6, -⟩ :=
    (write_gap_page_fills_unless_covered 0 [170, 171] (irange 4 6) 5 0 written_world
      rfl rfl rfl (by decide)).2.1 (by decide)
  exact ⟨rfl, rfl, rfl, ⟨w1, req, h1, h2, h3⟩, ⟨w2, g1, rfl, g6⟩⟩
/-! ## A write against a page in Reading -/

/-- An allocation that fails gives back what it took from the heaps. -/
theorem allocate_none_eq (r : range) (w w1 : world)
    (h : allocate_pagecache_page_cache_locked r w = .ok (none, w1)) : w1 = w := by
  rw [allocate_eq] at h
  cases hd : allocate_descriptor w with
  | error e => rw [hd] at h; simp at h
  | ok res =>
    obtain ⟨o, w3⟩ := res
    rw [hd] at h
    cases o with
    | some pp =>
      simp only at h
      rw [pp_insert_eq] at h
      split at h <;> simp at h
    | none =>
      simp only [Except.ok.injEq, Prod.mk.injEq, true_and] at h
      subst h
      unfold allocate_descriptor at hd
      cases hf : w.pc.free with
      | cons l rest =>
        rw [hf] at hd
        simp only at hd
        split at hd <;> simp at hd
      | nil =>
        rw [hf] at hd
        simp only at hd
        split at hd
        · simp only [Except.ok.injEq, Prod.mk.injEq, true_and] at hd
          exact hd.symm
        · rename_i hb
          split at hd
          · simp only [Except.ok.injEq, Prod.mk.injEq, true_and] at hd
            rw [← hd]
            have : w.backed_avail - 1 + 1 = w.backed_avail := by omega
            simp only [this]
          · rename_i hh
            split at hd
            · simp only [Except.ok.injEq, Prod.mk.injEq, true_and] at hd
              rw [← hd]
              have h1 : w.backed_avail - 1 + 1 = w.backed_avail := by omega
              have h2 : w.h_avail - 1 + 1 = w.h_avail := by omega
              simp only [h1, h2]
            · simp at hd

/-- The handler of the merge applied to the allocation failure. -/
theorem merge_failure (fuel m : Nat) (w : world) (hc : 1 ≤ (w.merges m).count) :
    ∃ w2, apply (fuel + 1) (apply_merge m w).1 (timm "failed to allocate pagecache_page")
        (apply_merge m w).2 = .ok w2 ∧ allocation_failed m w w2 := by
  have hcnt : ((apply_merge m w).2.merges m).count ≠ 1 := by
    simp only [apply_merge, if_true]
    omega
  have h1 : apply (fuel + 1) (apply_merge m w).1 (timm "failed to allocate pagecache_page")
      (apply_merge m w).2 =
      merge_join (apply fuel) m (timm "failed to allocate pagecache_page") (apply_merge m w).2 :=
    rfl
  rw [h1, merge_join_pending _ _ _ _ hcnt]
  refine ⟨_, rfl, rfl, rfl, rfl, rfl, rfl, rfl, rfl, rfl, rfl, ?_, ?_, ?_⟩
  · simp [merge_done, apply_merge]
  · simp only [merge_done, apply_merge, if_true, timm, is_ok]
    cases hl : (w.merges m).last_status <;> simp [is_ok]
  · intro hok
    cases hl : (w.merges m).last_status with
    | ok => simp [merge_done, apply_merge, timm, is_ok, hl]
    | error l =>
      rw [hl] at hok
      simp [is_ok] at hok
/-- C19: an iteration of the loop of a gap handler, of a read or of a write,
in which the allocation of the page fails, while the merge `m` of the call
has a handler outstanding.  The handler returns there: no further page is
allocated, the index, the descriptors and the requests issued are as the
iterations before left them, and the merge has been given the status
"failed to allocate pagecache_page", so that its status is an error (this
one, unless an earlier error is kept).  And a merge whose status is an error
keeps an error through every later handler and applies the completion of the
caller to an error. -/
theorem gap_allocation_failure (fuel sg : Nat) (buf : List Nat) (q r : range)
    (m ps n offset : Nat) (w w1 : world) (hlt : offset < r.end_)
    (hnone : allocate_pagecache_page_cache_locked (irange offset (u64_add offset ps)) w =
      .ok (none, w1))
    (hc : 1 ≤ (w.merges m).count) :
    (∃ w2, pagecache_read_gap_loop (apply (fuel + 1)) sg q m r ps (n + 1) offset w = .ok w2 ∧
      allocation_failed m w w2) ∧
    (∃ w2, pagecache_write_gap_loop (apply (fuel + 1)) buf q m r ps (n + 1) offset w = .ok w2 ∧
      allocation_failed m w w2) ∧
    (∀ (ap : status_handler → status → world → Except abort world) (s : status) (w3 : world),
      is_ok (w3.merges m).last_status = false →
      is_ok ((merge_done w3 m s).merges m).last_status = false ∧
      ((w3.merges m).count ≠ 1 → merge_join ap m s w3 = .ok (merge_done w3 m s)) ∧
      ((w3.merges m).count = 1 →
        ∃ st, is_ok st = false ∧
          merge_join ap m s w3 = ap (w3.merges m).completion st (merge_done w3 m s))) := by
  have hw1 : w1 = w := allocate_none_eq _ _ _ hnone
  subst hw1
  refine ⟨?_, ?_, ?_⟩
  · obtain ⟨w2, h1, h2⟩ := merge_failure fuel m w1 hc
    refine ⟨w2, ?_, h2⟩
    simp only [pagecache_read_gap_loop, if_pos hlt, hnone]
    exact h1
  · obtain ⟨w2, h1, h2⟩ := merge_failure fuel m w1 hc
    refine ⟨w2, ?_, h2⟩
    simp only [pagecache_write_gap_loop, if_pos hlt, hnone]
    exact h1
  · intro ap s w3 hbad
    have hlast : (if is_ok s then (w3.merges m).last_status
        else if is_ok (w3.merges m).last_status then s else (w3.merges m).last_status) =
        (w3.merges m).last_status := by
      rw [hbad]
      simp
    refine ⟨?_, ?_, ?_⟩
    · simp only [merge_done, if_true, hlast]
      exact hbad
    · intro hne
      exact merge_join_pending ap m s w3 hne
    · intro h1
      refine ⟨(w3.merges m).last_status, hbad, ?_⟩
      unfold merge_join merge_done
      simp only [h1, if_true, hlast]

theorem gap_allocation_failure_witness :
    (world_of (sg_read 4 0 (irange 0 8) 7 one_page_heap_world) one_page_heap_world).fired =
        [(7, timm "failed to allocate pagecache_page")] ∧
      (world_of (sg_read 4 0 (irange 0 8) 7 one_page_heap_world) one_page_heap_world).pc.pages =
        [0] ∧
      ((world_of (sg_read 4 0 (irange 0 8) 7 one_page_heap_world) one_page_heap_world).issued.map
        (fun req => (req.write, req.blocks))) = [(false, irange 0 2)] ∧
      (world_of (write 4 [1, 2, 3, 4, 5, 6, 7, 8] (irange 0 4) 7 one_page_heap_world)
        one_page_heap_world).fired = [(7, timm "failed to allocate pagecache_page")] ∧
      ∃ w2, pagecache_read_gap_loop (apply 1) 0 (irange 0 8) 0 (irange 0 8) 4 (2 ^ 64 - 1 + 1) 4
          (apply_merge 0 (world_of (sg_read 4 0 (irange 0 4) 7 one_page_heap_world)
            one_page_heap_world)).2 = .ok w2 ∧
        allocation_failed 0 (apply_merge 0 (world_of (sg_read 4 0 (irange 0 4) 7
          one_page_heap_world) one_page_heap_world)).2 w2 :=
  ⟨rfl, rfl, rfl, rfl,
    (gap_allocation_failure 0 0 [] (irange 0 8) (irange 0 8) 0 4 (2 ^ 64 - 1) 4
      (apply_merge 0 (world_of (sg_read 4 0 (irange 0 4) 7 one_page_heap_world)
        one_page_heap_world)).2 _ (by decide) rfl (by decide)).1⟩
/-! ## The total length of the entries of a read -/

/-- The shifted state has no bit below PAGECACHE_PAGESTATE_SHIFT: packing it
over the low bits of a word leaves those bits as they were. -/
theorem page_frame_pack (x state : Nat) :
    ((x &&& MASK PAGECACHE_PAGESTATE_SHIFT) |||
      ((state <<< PAGECACHE_PAGESTATE_SHIFT) % 2 ^ 64)) &&& MASK PAGECACHE_PAGESTATE_SHIFT =
      x &&& MASK PAGECACHE_PAGESTATE_SHIFT := by
  rw [mask_shift_eq, Nat.and_pow_two_sub_one_eq_mod, Nat.and_pow_two_sub_one_eq_mod]
  have hs : (state <<< PAGECACHE_PAGESTATE_SHIFT) % 2 ^ 64 = 2 ^ 61 * (state % 8) := by
    simp only [PAGECACHE_PAGESTATE_SHIFT, Nat.shiftLeft_eq]
    omega
  rw [hs, Nat.lor_comm]
  have hlt : x % 2 ^ 61 < 2 ^ 61 := Nat.mod_lt _ (by norm_num)
  rw [← Nat.mul_add_lt_is_or hlt (state % 8)]
  omega

/-- The word of a fresh page holds the frame number in its low bits. -/
theorem page_frame_fresh (frame : Nat) (h : frame < 2 ^ PAGECACHE_PAGESTATE_SHIFT) :
    (((PAGECACHE_PAGESTATE_ALLOC <<< PAGECACHE_PAGESTATE_SHIFT) % 2 ^ 64) ||| frame) &&&
      MASK PAGECACHE_PAGESTATE_SHIFT = frame := by
  have hs : (PAGECACHE_PAGESTATE_ALLOC <<< PAGECACHE_PAGESTATE_SHIFT) % 2 ^ 64 = 2 ^ 61 * 1 := by
    decide
  rw [mask_shift_eq, Nat.and_pow_two_sub_one_eq_mod, hs,
    ← Nat.mul_add_lt_is_or (by simpa [PAGECACHE_PAGESTATE_SHIFT] using h) 1]
  simp only [PAGECACHE_PAGESTATE_SHIFT] at h
  omega

/-- A page the heaps grant is the next descriptor, and its word is the state
Alloc over the frame number of its memory. -/
theorem allocate_fresh_word (r : range) (w w1 : world) (pp : Nat) (hfree : w.pc.free = [])
    (h : allocate_pagecache_page_cache_locked r w = .ok (some pp, w1)) :
    pp = w.npages ∧
      (w1.page pp).state_phys =
        ((PAGECACHE_PAGESTATE_ALLOC <<< PAGECACHE_PAGESTATE_SHIFT) % 2 ^ 64) |||
          (w.fresh_phys pp >>> w.pc.page_order) := by
  unfold allocate_pagecache_page_cache_locked at h
  rw [hfree] at h
  simp only at h
  split_ifs at h with h1 h2 h3
  · simp at h
  · simp at h
  · simp at h
  · rw [pp_insert_eq] at h
    split_ifs at h with h4
    simp only [Except.ok.injEq, Prod.mk.injEq, Option.some.injEq] at h
    obtain ⟨hpp, hw⟩ := h
    subst hpp
    subst hw
    refine ⟨rfl, ?_⟩
    simp [inserted, set_page]

/-- C24: for every packed word `state_phys` and every legal transition to a
state `t`, `set_page_state_cache_locked` completes, leaves the bits of
`state_phys` below PAGECACHE_PAGESTATE_SHIFT (the physical frame number) as
they were, and `page_state` then returns `t`; and for a page freshly
allocated from the heaps whose frame number `physical >> page_order` is below
`2 ^ PAGECACHE_PAGESTATE_SHIFT`, `page_state` returns Alloc and the low bits
are that frame number. -/
theorem state_word_keeps_frame :
    (∀ (pp t : Nat) (w : world), legal_transition (page_state (w.page pp)) t →
      ∃ w1, set_page_state_cache_locked pp t w = .ok w1 ∧
        (w1.page pp).state_phys &&& MASK PAGECACHE_PAGESTATE_SHIFT =
          (w.page pp).state_phys &&& MASK PAGECACHE_PAGESTATE_SHIFT ∧
        page_state (w1.page pp) = t) ∧
    (∀ (r : range) (w w1 : world) (pp : Nat), w.pc.free = [] →
      allocate_pagecache_page_cache_locked r w = .ok (some pp, w1) →
      w.fresh_phys pp >>> w.pc.page_order < 2 ^ PAGECACHE_PAGESTATE_SHIFT →
      page_state (w1.page pp) = PAGECACHE_PAGESTATE_ALLOC ∧
        (w1.page pp).state_phys &&& MASK PAGECACHE_PAGESTATE_SHIFT =
          w.fresh_phys pp >>> w.pc.page_order) := by
  constructor
  · intro pp t w hl
    have ho : page_state (w.page pp) ≤ 5 := by
      rcases hl with h | h | h | h | h | h <;> rw [h.1] <;> decide
    have ht : t ≤ 5 := by
      rcases hl with h | h | h | h | h | h <;> rw [h.2] <;> decide
    obtain ⟨pc1, h1⟩ := (set_page_state_lists_ok_iff w.pc pp _ t ho ht).2 hl
    have hset : set_page_state_cache_locked pp t w = .ok (set_page { w with pc := pc1 } pp
        { w.page pp with state_phys :=
            (((w.page pp).state_phys &&& MASK PAGECACHE_PAGESTATE_SHIFT) |||
              ((t <<< PAGECACHE_PAGESTATE_SHIFT) % 2 ^ 64)) }) := by
      unfold set_page_state_cache_locked
      simp only [h1]
    refine ⟨_, hset, ?_, ?_⟩
    · rw [set_page_same]
      exact page_frame_pack _ _
    · rw [set_page_same]
      exact page_state_pack _ _ (by omega)
  · intro r w w1 pp hfree h hframe
    obtain ⟨_, hword⟩ := allocate_fresh_word r w w1 pp hfree h
    rw [page_state, hword]
    exact ⟨page_state_fresh _ hframe, page_frame_fresh _ hframe⟩

theorem state_word_keeps_frame_witness :
    (legal_transition (page_state (framed_page_world.page 0)) PAGECACHE_PAGESTATE_ALLOC ∧
      ∃ w1, set_page_state_cache_locked 0 PAGECACHE_PAGESTATE_ALLOC framed_page_world = .ok w1 ∧
        (w1.page 0).state_phys &&& MASK PAGECACHE_PAGESTATE_SHIFT = 12345 ∧
        page_state (w1.page 0) = PAGECACHE_PAGESTATE_ALLOC) ∧
    (one_page_world.pc.free = [] ∧
      one_page_world.fresh_phys 1 >>> one_page_world.pc.page_order <
        2 ^ PAGECACHE_PAGESTATE_SHIFT ∧
      ∃ w1, allocate_pagecache_page_cache_locked (irange 8 12) one_page_world =
          .ok (some 1, w1) ∧
        page_state (w1.page 1) = PAGECACHE_PAGESTATE_ALLOC ∧
        (w1.page 1).state_phys &&& MASK PAGECACHE_PAGESTATE_SHIFT = 1) :=
  ⟨⟨by decide,
    state_word_keeps_frame.1 0 PAGECACHE_PAGESTATE_ALLOC framed_page_world (by decide)⟩,
    by decide, by decide,
    ⟨_, rfl, state_word_keeps_frame.2 (irange 8 12) one_page_world _ 1 (by decide) rfl
      (by decide)⟩⟩

/-! ## Pointers in the bytes of a buffer -/

theorem u64_of_int_nat (n : Nat) (h : n < 2 ^ 64) : u64_of_int (n : Int) = n := by
  unfold u64_of_int
  omega

/-- The pointer read from where one was written is that pointer. -/
theorem read_write_same (c : Nat → Nat) (off x : Nat) (hx : x < 2 ^ 64) :
    read_pointer (write_pointer c off x) off = x := by
  have hr : List.range 8 = [0, 1, 2, 3, 4, 5, 6, 7] := by decide
  simp only [read_pointer, write_pointer, hr, List.map_cons, List.map_nil, List.sum_cons,
    List.sum_nil, Nat.le_add_right, Nat.add_lt_add_iff_left, true_and, Nat.add_sub_cancel_left]
  norm_num
  omega

/-- A pointer is read from its eight bytes alone. -/
theorem read_pointer_congr (c1 c2 : Nat → Nat) (off1 off2 : Nat)
    (h : ∀ k, k < 8 → c1 (off1 + k) = c2 (off2 + k)) :
    read_pointer c1 off1 = read_pointer c2 off2 := by
  have hr : List.range 8 = [0, 1, 2, 3, 4, 5, 6, 7] := by decide
  simp only [read_pointer, hr, List.map_cons, List.map_nil, List.sum_cons, List.sum_nil]
  rw [h 0 (by omega), h 1 (by omega), h 2 (by omega), h 3 (by omega), h 4 (by omega),
    h 5 (by omega), h 6 (by omega), h 7 (by omega)]

/-- A pointer written elsewhere leaves the pointer read here as it was. -/
theorem read_write_other (c : Nat → Nat) (off off1 x : Nat)
    (h : off1 + 8 ≤ off ∨ off + 8 ≤ off1) :
    read_pointer (write_pointer c off x) off1 = read_pointer c off1 := by
  apply read_pointer_congr
  intro k hk
  unfold write_pointer
  rw [if_neg (by omega)]

/-! ## The buffer -/

/-- What `buffer_extend` does to a buffer in order: the buffer stays in
order, there is room for `len` bytes after the window, and the window has
the bytes it had. -/
theorem buffer_extend_spec (b : buffer) (len : Nat) (hb : buffer_ok b)
    (hlen : b.end_ - b.start + len < 2 ^ 62) :
    buffer_ok (buffer_extend b len) ∧
      (buffer_extend b len).end_ + len ≤ (buffer_extend b len).length ∧
      (buffer_extend b len).end_ - (buffer_extend b len).start = b.end_ - b.start ∧
      (buffer_extend b len).h = b.h ∧
      ∀ i, i < b.end_ - b.start →
        (buffer_extend b len).contents ((buffer_extend b len).start + i) =
          b.contents (b.start + i) := by
  obtain ⟨h1, h2, h3⟩ := hb
  have hadd : u64_add b.end_ len = b.end_ + len := u64_add_of_lt _ _ (by omega)
  have hsub : u64_sub b.end_ b.start = b.end_ - b.start := u64_sub_of_le _ _ h1 (by omega)
  unfold buffer_extend
  rw [hadd, hsub]
  by_cases hc : b.length < b.end_ + len
  · rw [if_pos hc]
    have hadd2 : u64_add (b.end_ - b.start) len = b.end_ - b.start + len :=
      u64_add_of_lt _ _ (by omega)
    have hmod : (2 * (b.end_ - b.start + len)) % 2 ^ 64 = 2 * (b.end_ - b.start + len) :=
      Nat.mod_eq_of_lt (by omega)
    simp only [hadd2, hmod]
    refine ⟨⟨?_, ?_, ?_⟩, ?_, ?_, ?_, ?_⟩
    · show 0 ≤ b.end_ - b.start
      omega
    · show b.end_ - b.start ≤ 2 * (b.end_ - b.start + len)
      omega
    · show 2 * (b.end_ - b.start + len) < 2 ^ 63
      omega
    · show b.end_ - b.start + len ≤ 2 * (b.end_ - b.start + len)
      omega
    · show b.end_ - b.start - 0 = b.end_ - b.start
      omega
    · trivial
    · intro i hi
      simp only [Nat.zero_add, if_pos hi]
  · rw [if_neg hc]
    exact ⟨⟨h1, h2, h3⟩, by omega, rfl, rfl, fun _ _ => rfl⟩

theorem buffer_length_ok (b : buffer) (hb : buffer_ok b) :
    buffer_length b = b.end_ - b.start :=
  u64_sub_of_le _ _ hb.1 (by have := hb.2.1; have := hb.2.2; omega)

/-- The function `push_character` appends its character to the bytes of a
buffer in order, and keeps the buffer in order. -/
theorem push_character_spec (b : buffer) (x : Nat) (hb : buffer_ok b)
    (hlen : buffer_length b + 1 < 2 ^ 62) :
    buffer_ok (push_character b x) ∧
      buffer_bytes (push_character b x) = buffer_bytes b ++ [x % 256] ∧
      buffer_length (push_character b x) = buffer_length b + 1 := by
  rw [buffer_length_ok b hb] at hlen
  obtain ⟨e1, e2, e3, _, e5⟩ := buffer_extend_spec b 1 hb hlen
  obtain ⟨h1, h2, h3⟩ := e1
  have hadd : u64_add (buffer_extend b 1).end_ 1 = (buffer_extend b 1).end_ + 1 :=
    u64_add_of_lt _ _ (by omega)
  have p1 : (push_character b x).start = (buffer_extend b 1).start := rfl
  have p2 : (push_character b x).end_ = (buffer_extend b 1).end_ + 1 := hadd
  have p3 : (push_character b x).length = (buffer_extend b 1).length := rfl
  have p4 : ∀ i, (push_character b x).contents i =
      if i = (buffer_extend b 1).end_ then x % 256 else (buffer_extend b 1).contents i :=
    fun _ => rfl
  have hok : buffer_ok (push_character b x) := by
    unfold buffer_ok
    rw [p1, p2, p3]
    exact ⟨by omega, by omega, h3⟩
  have hl : buffer_length (push_character b x) = buffer_length b + 1 := by
    rw [buffer_length_ok _ hok, buffer_length_ok b hb, p1, p2]
    omega
  refine ⟨hok, ?_, hl⟩
  unfold buffer_bytes
  rw [hl, List.range_succ, List.map_append]
  congr 1
  · apply List.map_congr_left
    intro i hi
    rw [List.mem_range, buffer_length_ok b hb] at hi
    rw [p4, p1, if_neg (by omega)]
    exact e5 i hi
  · rw [buffer_length_ok b hb]
    simp only [List.map_cons, List.map_nil]
    rw [p4, p1, if_pos (by omega)]

/-! ## `format_number` -/

/-- The characters of `hex_digits` are bytes. -/
theorem hex_digit_byte (k : Nat) : hex_digits.getD k 0 % 256 = hex_digits.getD k 0 := by
  by_cases hk : k < 16
  · interval_cases k <;> rfl
  · rw [List.getD_eq_default _ _ (by simpa [hex_digits] using hk)]

/-- The subtraction of `int`s is exact when the difference is an `int`. -/
theorem int_sub_exact (a b : Int) (h1 : -2 ^ 31 ≤ a - b) (h2 : a - b < 2 ^ 31) :
    int_sub a b = a - b := by
  unfold int_sub
  omega

/-- The representation of `x` with `pad` is that of `x / b` with `pad - 1`
followed by the digit `x % b`, whenever `format_number` recurses. -/
theorem padded_digits_step (x b : Nat) (pad : Int) (hb : 2 ≤ b) (h : 0 < x ∨ 0 < pad) :
    padded_digits x b pad =
      padded_digits (x / b) b (pad - 1) ++ [hex_digits.getD (x % b) 0] ∧
    max pad.toNat (Nat.digits b x).length =
      max (pad - 1).toNat (Nat.digits b (x / b)).length + 1 ∧
    (Nat.digits b (x / b)).length = (Nat.digits b x).length - 1 ∧
    (0 < x → 0 < (Nat.digits b x).length) := by
  rcases Nat.eq_zero_or_pos x with hx | hx
  · subst hx
    have hp : 0 < pad := by omega
    have h1 : pad.toNat = (pad - 1).toNat + 1 := by omega
    simp only [padded_digits, Nat.zero_div, Nat.digits_zero, List.length_nil, Nat.sub_zero,
      List.reverse_nil, List.map_nil, List.append_nil, Nat.zero_mod, h1]
    refine ⟨?_, by omega, trivial, fun h0 => absurd h0 (by omega)⟩
    rw [List.replicate_succ']
    rfl
  · have hd : Nat.digits b x = (x % b) :: Nat.digits b (x / b) :=
      Nat.digits_def' (by omega) hx
    simp only [padded_digits, hd, List.length_cons, List.reverse_cons, List.map_append,
      List.map_cons, List.map_nil]
    refine ⟨?_, by omega, by omega, fun _ => by omega⟩
    have h1 : pad.toNat - ((Nat.digits b (x / b)).length + 1) =
        (pad - 1).toNat - (Nat.digits b (x / b)).length := by omega
    rw [h1, List.append_assoc]

/-- With fuel above the number of characters, and a `pad` that the
recursion never takes below the least `int`, `format_number` returns a
buffer in order whose bytes are those of the buffer it was given followed by
the representation of `x`. -/
theorem format_number_run (base : Int) (b : Nat) (hbase : u64_of_int base = b) (hb : 2 ≤ b)
    (hb16 : b ≤ 16) :
    ∀ (fuel : Nat) (s : buffer) (x : Nat) (pad : Int), buffer_ok s →
      -2 ^ 31 + ((Nat.digits b x).length : Int) ≤ pad → pad < 2 ^ 31 →
      buffer_length s + max pad.toNat (Nat.digits b x).length < 2 ^ 62 →
      max pad.toNat (Nat.digits b x).length < fuel →
      ∃ s1, format_number fuel s x base pad = some s1 ∧ buffer_ok s1 ∧
        buffer_bytes s1 = buffer_bytes s ++ padded_digits x b pad ∧
        buffer_length s1 = buffer_length s + max pad.toNat (Nat.digits b x).length := by
  intro fuel
  induction fuel with
  | zero => intro s x pad _ _ _ _ h; omega
  | succ fuel ih =>
    intro s x pad hs hlow hhigh hroom hfuel
    unfold format_number
    by_cases h : 0 < x ∨ 0 < pad
    · obtain ⟨hstep, hmax, hdig, hpos⟩ := padded_digits_step x b pad hb h
      have hone : -2 ^ 31 ≤ pad - 1 := by
        rcases h with h | h
        · have := hpos h
          omega
        · omega
      rw [if_pos h, hbase, if_neg (by omega), int_sub_exact pad 1 hone (by omega)]
      obtain ⟨s1, hrun, hok, hbytes, hlen⟩ :=
        ih s (x / b) (pad - 1) hs (by omega) (by omega) (by omega) (by omega)
      rw [hrun]
      obtain ⟨hok2, hbytes2, hlen2⟩ :=
        push_character_spec s1 (hex_digits.getD (x % b) 0) hok (by omega)
      refine ⟨_, rfl, hok2, ?_, by omega⟩
      rw [hbytes2, hbytes, hstep, hex_digit_byte, List.append_assoc]
    · rw [if_neg h]
      have hx : x = 0 := by omega
      have hp : pad.toNat = 0 := by omega
      subst hx
      refine ⟨s, rfl, hs, ?_, ?_⟩
      · simp [padded_digits, hp]
      · simp [hp]

/-- The number 255 in base 16 with four characters is "00ff". -/
theorem padded_digits_example :
    padded_digits 255 (16 : Int).toNat 4 = [48, 48, 102, 102] ∧
      (Nat.digits (16 : Int).toNat 255).length = 2 := by
  have h16 : (16 : Int).toNat = 16 := rfl
  have h4 : (4 : Int).toNat = 4 := rfl
  rw [h16]
  constructor
  · simp [padded_digits, h4, hex_digits]
  · simp

/-- At `x = 1`, base 10 and `pad` the least `int`, the subtraction `pad - 1`
gives the greatest `int`, and `format_number`, with fuel for it, appends
`2 ^ 31` characters. -/
theorem format_number_least_pad_run (fuel : Nat) (hfuel : 2147483647 < fuel) :
    ∃ s1, format_number (fuel + 1) (allocate_buffer example_heap 0) 1 10 (-2147483648) =
        some s1 ∧
      buffer_length s1 = 2147483648 := by
  have hsub : int_sub (-2147483648) 1 = 2147483647 := by decide
  have hb : u64_of_int 10 = 10 := by decide
  have hd : Nat.digits 10 0 = [] := Nat.digits_zero 10
  have ht : (2147483647 : Int).toNat = 2147483647 := rfl
  obtain ⟨s1, hrun, hok, _, hlen⟩ :=
    format_number_run 10 10 hb (by decide) (by decide) fuel
      (allocate_buffer example_heap 0) 0 2147483647 (by decide)
      (by rw [hd]; decide) (by decide) (by rw [hd, ht]; decide)
      (by rw [hd, ht]; simpa using hfuel)
  have hl0 : buffer_length (allocate_buffer example_heap 0) = 0 := by decide
  rw [hd, hl0, ht] at hlen
  have hlen1 : buffer_length s1 = 2147483647 := by
    rw [hlen]
    rfl
  obtain ⟨_, _, hlen2⟩ :=
    push_character_spec s1 (hex_digits.getD (1 % 10) 0) hok (by rw [hlen1]; decide)
  refine ⟨push_character s1 (hex_digits.getD (1 % 10) 0), ?_, by rw [hlen2, hlen1]⟩
  unfold format_number
  rw [if_pos (Or.inl (by decide)), hb, if_neg (by decide), hsub]
  have hdiv : (1 : Nat) / 10 = 0 := rfl
  rw [hdiv, hrun]

/-- C21 at the least `int`: for `x = 1`, base 10 and `pad = INT_MIN`, where
`max(pad, d) = 1`, the subtraction `pad - 1` overflows to the greatest
`int`; `format_number` has no result with fuel 8, and with fuel `2 ^ 31 + 1`
it has appended `2 ^ 31` characters, not one. -/
theorem format_number_least_pad :
    max (-2147483648 : Int) ((Nat.digits 10 1).length : Int) = 1 ∧
      int_sub (-2147483648) 1 = 2147483647 ∧
      (format_number 8 (allocate_buffer example_heap 0) 1 10 (-2147483648)).isSome = false ∧
      ∃ s1, format_number (2147483648 + 1) (allocate_buffer example_heap 0) 1 10
          (-2147483648) = some s1 ∧
        buffer_length s1 = 2147483648 :=
  ⟨by simp, by decide, by decide, format_number_least_pad_run 2147483648 (by decide)⟩

/-- C21: for every `u64` `x`, every base `b` with `2 <= b <= 16` and every
`int` `pad` that is at least `INT_MIN + d`, `format_number` returns (with
fuel above the number of characters) and appends to the buffer exactly
`max(pad, d)` characters, where `d` is the number of base-`b` digits of `x`
(`d = 0` for `x = 0`): the base-`b` representation of `x`, most significant
digit first, in the digits 0-9a-f, left-padded with characters '0'; it
appends nothing when `x = 0` and `pad <= 0`.  The buffer is one in order
with room below `2 ^ 62` bytes. -/
theorem format_number_appends (s : buffer) (x : Nat) (base pad : Int) (hx : x < 2 ^ 64)
    (hbase : 2 ≤ base ∧ base ≤ 16)
    (hpad : -2 ^ 31 + ((Nat.digits base.toNat x).length : Int) ≤ pad ∧ pad < 2 ^ 31)
    (hs : buffer_ok s) (hroom : buffer_length s + max pad.toNat 64 < 2 ^ 62) :
    (∀ fuel, max pad.toNat (Nat.digits base.toNat x).length < fuel →
      ∃ s1, format_number fuel s x base pad = some s1 ∧
        buffer_bytes s1 = buffer_bytes s ++ padded_digits x base.toNat pad ∧
        buffer_length s1 = buffer_length s + (padded_digits x base.toNat pad).length) ∧
    ((padded_digits x base.toNat pad).length : Int) =
      max pad ((Nat.digits base.toNat x).length : Int) ∧
    (x = 0 → pad ≤ 0 → padded_digits x base.toNat pad = []) := by
  have hb : u64_of_int base = base.toNat := by
    unfold u64_of_int
    omega
  have hd : (Nat.digits base.toNat x).length ≤ 64 := by
    rcases Nat.eq_zero_or_pos x with h0 | h0
    · subst h0
      simp
    · rw [Nat.digits_len _ _ (by omega) (by omega)]
      have h1 : Nat.log base.toNat x < 64 := by
        apply Nat.log_lt_of_lt_pow (by omega)
        calc x < 2 ^ 64 := hx
          _ ≤ base.toNat ^ 64 := Nat.pow_le_pow_left (by omega) 64
      omega
  have hlen : (padded_digits x base.toNat pad).length =
      max pad.toNat (Nat.digits base.toNat x).length := by
    simp only [padded_digits, List.length_append, List.length_replicate, List.length_map,
      List.length_reverse]
    omega
  refine ⟨?_, ?_, ?_⟩
  · intro fuel hfuel
    obtain ⟨s1, h1, _, h3, h4⟩ :=
      format_number_run base base.toNat hb (by omega) (by omega) fuel s x pad hs hpad.1 hpad.2
        (by omega) hfuel
    exact ⟨s1, h1, h3, by rw [h4, hlen]⟩
  · rw [hlen]
    omega
  · intro h0 hp
    subst h0
    have : pad.toNat = 0 := by omega
    simp [padded_digits, this]

theorem format_number_appends_witness :
    ((255 : Nat) < 2 ^ 64 ∧ ((2 : Int) ≤ 16 ∧ (16 : Int) ≤ 16) ∧
      (-2 ^ 31 + ((Nat.digits (16 : Int).toNat 255).length : Int) ≤ 4 ∧ (4 : Int) < 2 ^ 31) ∧
      buffer_ok (allocate_buffer example_heap 0) ∧
      buffer_length (allocate_buffer example_heap 0) + max (4 : Int).toNat 64 < 2 ^ 62) ∧
    (∃ s1, format_number 5 (allocate_buffer example_heap 0) 255 16 4 = some s1 ∧
      buffer_bytes s1 = [48, 48, 102, 102]) := by
  have hpad : -2 ^ 31 + ((Nat.digits (16 : Int).toNat 255).length : Int) ≤ 4 ∧
      (4 : Int) < 2 ^ 31 := by
    rw [padded_digits_example.2]
    decide
  refine ⟨⟨by decide, by decide, hpad, by decide, by decide⟩, ?_⟩
  have h := (format_number_appends (allocate_buffer example_heap 0) 255 16 4 (by decide)
    (by decide) hpad (by decide) (by decide)).1 5 (by rw [padded_digits_example.2]; decide)
  obtain ⟨s1, h1, h2, _⟩ := h
  refine ⟨s1, h1, ?_⟩
  rw [h2, padded_digits_example.1]
  rfl

/-! ## The vector -/

/-- A push onto a vector holding `xs` leaves a vector holding `xs` and then
the pointer pushed. -/
theorem vector_push_holds (v : vector) (xs : List Nat) (x : Nat) (hv : vector_holds v xs)
    (hn : 8 * (xs.length + 1) < 2 ^ 62) (hx : x < 2 ^ 64) :
    vector_holds (vector_push v x) (xs ++ [x]) := by
  obtain ⟨hok, hend, hget⟩ := hv
  have hused : v.end_ - v.start = 8 * xs.length := by omega
  obtain ⟨e1, e2, e3, _, e5⟩ := buffer_extend_spec v 8 hok (by omega)
  obtain ⟨h1, h2, h3⟩ := e1
  have hadd : u64_add (buffer_extend v 8).end_ 8 = (buffer_extend v 8).end_ + 8 :=
    u64_add_of_lt _ _ (by omega)
  have p1 : (vector_push v x).start = (buffer_extend v 8).start := rfl
  have p2 : (vector_push v x).end_ = (buffer_extend v 8).end_ + 8 := hadd
  have p3 : (vector_push v x).length = (buffer_extend v 8).length := rfl
  have p4 : (vector_push v x).contents =
      write_pointer (buffer_extend v 8).contents (buffer_extend v 8).end_ x := rfl
  have hend1 : (buffer_extend v 8).end_ = (buffer_extend v 8).start + 8 * xs.length := by omega
  refine ⟨?_, ?_, ?_⟩
  · unfold buffer_ok
    rw [p1, p2, p3]
    exact ⟨by omega, by omega, h3⟩
  · rw [p1, p2, List.length_append, List.length_singleton]
    omega
  · intro k hk
    rw [List.length_append, List.length_singleton] at hk
    rw [p1, p4]
    by_cases hlast : k = xs.length
    · subst hlast
      rw [← hend1, read_write_same _ _ _ hx]
      simp
    · have hk1 : k < xs.length := by omega
      rw [read_write_other _ _ _ _ (by omega), List.getD_append _ _ _ _ hk1, ← hget k hk1]
      apply read_pointer_congr
      intro j hj
      have := e5 (8 * k + j) (by omega)
      rw [← Nat.add_assoc, ← Nat.add_assoc] at this
      exact this

/-- Pushes onto a vector holding `xs` leave a vector holding `xs` and then
the pointers pushed. -/
theorem push_all_holds (ys : List Nat) :
    ∀ (v : vector) (xs : List Nat), vector_holds v xs →
      8 * (xs.length + ys.length) < 2 ^ 62 → (∀ y ∈ ys, y < 2 ^ 64) →
      vector_holds (push_all v ys) (xs ++ ys) := by
  induction ys with
  | nil =>
    intro v xs hv _ _
    simpa [push_all] using hv
  | cons y ys ih =>
    intro v xs hv hn hy
    have h1 := vector_push_holds v xs y hv (by simp only [List.length_cons] at hn; omega)
      (hy y (List.mem_cons_self _ _))
    have h2 := ih (vector_push v y) (xs ++ [y]) h1
      (by simp only [List.length_cons, List.length_append, List.length_singleton,
            List.length_nil] at hn ⊢; omega)
      (fun z hz => hy z (List.mem_cons_of_mem _ hz))
    simpa [push_all] using h2

/-- An empty buffer in order is a vector holding nothing. -/
theorem vector_holds_empty (v : vector) (hv : buffer_ok v) (he : v.start = v.end_) :
    vector_holds v [] :=
  ⟨hv, by simp [he], fun k hk => by simp at hk⟩

/-- The function `vector_get` on a vector holding `xs`: the pointer at the
index, or zero past the last. -/
theorem vector_get_holds (v : vector) (xs : List Nat) (hv : vector_holds v xs) (i : Nat)
    (hi : i < 2 ^ 31) : vector_get v (i : Int) = xs.getD i 0 := by
  obtain ⟨⟨h1, h2, h3⟩, hend, hget⟩ := hv
  have hoff : u64_of_int ((i : Int) * 8) = 8 * i := by
    unfold u64_of_int
    omega
  have hbase : u64_add v.start (8 * i) = v.start + 8 * i := u64_add_of_lt _ _ (by omega)
  have hb8 : u64_add (v.start + 8 * i) 8 = v.start + 8 * i + 8 := u64_add_of_lt _ _ (by omega)
  unfold vector_get
  simp only [hoff, hbase, hb8]
  by_cases hin : i < xs.length
  · rw [if_neg (by omega)]
    exact hget i hin
  · rw [if_pos (by omega), List.getD_eq_default _ _ (by omega)]

/-- The function `vector_length` on a vector holding `xs`. -/
theorem vector_length_holds (v : vector) (xs : List Nat) (hv : vector_holds v xs)
    (hn : xs.length < 2 ^ 31) : vector_length v = xs.length := by
  obtain ⟨hok, hend, _⟩ := hv
  unfold vector_length int_of_u64
  rw [buffer_length_ok v hok]
  omega

/-- The function `vector_pop` on a vector holding a first pointer and
others returns the first and leaves the others. -/
theorem vector_pop_holds (v : vector) (x : Nat) (xs : List Nat)
    (hv : vector_holds v (x :: xs)) :
    (vector_pop v).1 = x ∧ vector_holds (vector_pop v).2 xs := by
  obtain ⟨⟨h1, h2, h3⟩, hend, hget⟩ := hv
  rw [List.length_cons] at hend
  have hsub : u64_sub v.end_ v.start = v.end_ - v.start := u64_sub_of_le _ _ h1 (by omega)
  have hadd : u64_add v.start 8 = v.start + 8 := u64_add_of_lt _ _ (by omega)
  unfold vector_pop
  rw [hsub, if_neg (by omega), hadd]
  refine ⟨?_, ⟨?_, ?_, ?_⟩, ?_, ?_⟩
  · have := hget 0 (by simp)
    simpa using this
  · show v.start + 8 ≤ v.end_
    omega
  · exact h2
  · exact h3
  · show v.end_ = v.start + 8 + 8 * xs.length
    omega
  · intro k hk
    have := hget (k + 1) (by simp only [List.length_cons]; omega)
    have e : v.start + 8 * (k + 1) = v.start + 8 + 8 * k := by omega
    rw [e] at this
    simpa using this

/-- The function `vector_pop` on a vector holding nothing returns zero and
leaves the vector. -/
theorem vector_pop_empty (v : vector) (hv : vector_holds v []) : vector_pop v = (0, v) := by
  obtain ⟨⟨h1, h2, h3⟩, hend, _⟩ := hv
  have hsub : u64_sub v.end_ v.start = v.end_ - v.start := u64_sub_of_le _ _ h1 (by omega)
  unfold vector_pop
  rw [hsub, if_pos (by simp only [List.length_nil] at hend; omega)]

/-- As many pops as a vector holds pointers return them first to last and
leave a vector holding nothing. -/
theorem pop_all_holds (xs : List Nat) :
    ∀ v : vector, vector_holds v xs →
      (pop_all xs.length v).1 = xs ∧ vector_holds (pop_all xs.length v).2 [] := by
  induction xs with
  | nil =>
    intro v hv
    exact ⟨rfl, hv⟩
  | cons x xs ih =>
    intro v hv
    obtain ⟨h1, h2⟩ := vector_pop_holds v x xs hv
    obtain ⟨h3, h4⟩ := ih _ h2
    simp only [List.length_cons, pop_all]
    exact ⟨by rw [h1, h3], h4⟩

/-- C22: for every empty vector `v` (a buffer in order) and every sequence
of `vector_push` calls pushing `x1..xn` onto it, `vector_length(v) = n`,
`vector_get(v, i)` is `x(i+1)` for `0 <= i < n` and 0 for `i >= n`, and `n`
successive `vector_pop` calls return `x1, x2, ..., xn` in that (first-in,
first-out) order, after which `vector_pop` returns 0.  The indices and `n`
are values of an `int`, the pointers are 64-bit words. -/
theorem vector_push_get_pop (v : vector) (xs : List Nat) (hv : buffer_ok v)
    (hempty : v.start = v.end_) (hn : xs.length < 2 ^ 31) (hx : ∀ x ∈ xs, x < 2 ^ 64) :
    vector_length (push_all v xs) = xs.length ∧
      (∀ (i : Nat) (h : i < xs.length), vector_get (push_all v xs) (i : Int) = xs[i]) ∧
      (∀ i : Nat, xs.length ≤ i → i < 2 ^ 31 → vector_get (push_all v xs) (i : Int) = 0) ∧
      (pop_all xs.length (push_all v xs)).1 = xs ∧
      (vector_pop (pop_all xs.length (push_all v xs)).2).1 = 0 := by
  have hold : vector_holds (push_all v xs) xs := by
    have := push_all_holds xs v [] (vector_holds_empty v hv hempty)
      (by simp only [List.length_nil]; omega) hx
    simpa using this
  obtain ⟨hp1, hp2⟩ := pop_all_holds xs _ hold
  refine ⟨vector_length_holds _ _ hold hn, ?_, ?_, hp1, ?_⟩
  · intro i h
    rw [vector_get_holds _ _ hold i (by omega), List.getD_eq_getElem _ _ h]
  · intro i h1 h2
    rw [vector_get_holds _ _ hold i h2, List.getD_eq_default _ _ h1]
  · rw [vector_pop_empty _ hp2]

theorem vector_push_get_pop_witness :
    (buffer_ok (allocate_vector example_heap 4) ∧
      (allocate_vector example_heap 4).start = (allocate_vector example_heap 4).end_ ∧
      [17, 34, 51].length < 2 ^ 31 ∧ ∀ x ∈ [17, 34, 51], x < 2 ^ 64) ∧
    (vector_length (push_all (allocate_vector example_heap 4) [17, 34, 51]) = 3 ∧
      (∀ (i : Nat) (h : i < [17, 34, 51].length),
        vector_get (push_all (allocate_vector example_heap 4) [17, 34, 51]) (i : Int) =
          [17, 34, 51][i]) ∧
      (∀ i : Nat, 3 ≤ i → i < 2 ^ 31 →
        vector_get (push_all (allocate_vector example_heap 4) [17, 34, 51]) (i : Int) = 0) ∧
      (pop_all 3 (push_all (allocate_vector example_heap 4) [17, 34, 51])).1 = [17, 34, 51] ∧
      (vector_pop (pop_all 3 (push_all (allocate_vector example_heap 4) [17, 34, 51])).2).1 =
        0) :=
  ⟨⟨by decide, by decide, by decide, by decide⟩,
    vector_push_get_pop (allocate_vector example_heap 4) [17, 34, 51] (by decide) (by decide)
      (by decide) (by decide)⟩

/-! ## `vector_set` -/

/-- The function `buffer_extend` leaves a window that starts at zero at
zero. -/
theorem buffer_extend_start (b : buffer) (len : Nat) (h : b.start = 0) :
    (buffer_extend b len).start = 0 := by
  unfold buffer_extend
  split
  · rfl
  · exact h

/-- On a vector whose window starts at the front of its memory (nothing was
popped from it), `vector_get` right after `vector_set` at the same index
returns the pointer set, and returns what it did at every other index that
was in range. -/
theorem vector_set_get_unpopped (v : vector) (i : Nat) (x : Nat) (hv : buffer_ok v)
    (hstart : v.start = 0) (hi : i < 2 ^ 31) (hx : x < 2 ^ 64) (hend : v.end_ < 2 ^ 62) :
    vector_get (vector_set v (i : Int) x) (i : Int) = x ∧
      ∀ j : Nat, j ≠ i → 8 * j + 8 ≤ v.end_ →
        vector_get (vector_set v (i : Int) x) (j : Int) = vector_get v (j : Int) := by
  have htot : u64_of_int (((i : Int) + 1) * 8) = 8 * i + 8 := by
    unfold u64_of_int
    omega
  have hoff : ∀ k : Nat, k < 2 ^ 59 → u64_of_int ((k : Int) * 8) = 8 * k := by
    intro k hk
    unfold u64_of_int
    omega
  have hb : ∀ k : Nat, k < 2 ^ 59 → u64_add 0 (8 * k) = 8 * k := by
    intro k hk
    exact (u64_add_of_lt _ _ (by omega)).trans (Nat.zero_add _)
  have hb8 : ∀ k : Nat, k < 2 ^ 59 → u64_add (8 * k) 8 = 8 * k + 8 := by
    intro k hk
    exact u64_add_of_lt _ _ (by omega)
  obtain ⟨h1, h2, h3⟩ := hv
  by_cases hc : v.end_ < 8 * i + 8
  · have hsub : u64_sub (8 * i + 8) v.end_ = 8 * i + 8 - v.end_ :=
      u64_sub_of_le _ _ (by omega) (by omega)
    obtain ⟨e1, e2, e3, _, e5⟩ :=
      buffer_extend_spec v (8 * i + 8 - v.end_) ⟨h1, h2, h3⟩ (by omega)
    have e0 := buffer_extend_start v (8 * i + 8 - v.end_) hstart
    have hset : vector_set v (i : Int) x =
        { buffer_extend v (8 * i + 8 - v.end_) with
          contents := write_pointer
            (fun k => if (buffer_extend v (8 * i + 8 - v.end_)).end_ ≤ k ∧ k < 8 * i + 8 then 0
              else (buffer_extend v (8 * i + 8 - v.end_)).contents k) (8 * i) x
          end_ := 8 * i + 8 } := by
      unfold vector_set extend_total
      rw [htot, if_pos hc, hsub, hoff i (by omega)]
    rw [hset]
    have hend1 : (buffer_extend v (8 * i + 8 - v.end_)).end_ = v.end_ := by omega
    constructor
    · unfold vector_get
      simp only [e0, hoff i (by omega), hb i (by omega), hb8 i (by omega)]
      rw [if_neg (by omega)]
      exact read_write_same _ _ _ hx
    · intro j hj hin
      have hj58 : j < 2 ^ 59 := by omega
      unfold vector_get
      simp only [e0, hstart, hoff j hj58, hb j hj58, hb8 j hj58]
      rw [if_neg (by omega), if_neg (by omega), read_write_other _ _ _ _ (by omega)]
      apply read_pointer_congr
      intro k hk
      simp only [hend1]
      rw [if_neg (by omega)]
      have := e5 (8 * j + k) (by omega)
      simp only [e0, hstart, Nat.zero_add] at this
      exact this
  · have hset : vector_set v (i : Int) x =
        { v with contents := write_pointer v.contents (8 * i) x } := by
      unfold vector_set extend_total
      rw [htot, if_neg hc, hoff i (by omega)]
    rw [hset]
    constructor
    · unfold vector_get
      simp only [hstart, hoff i (by omega), hb i (by omega), hb8 i (by omega)]
      rw [if_neg (by omega)]
      exact read_write_same _ _ _ hx
    · intro j hj hin
      have hj58 : j < 2 ^ 59 := by omega
      unfold vector_get
      simp only [hstart, hoff j hj58, hb j hj58, hb8 j hj58]
      rw [if_neg (by omega), if_neg (by omega), read_write_other _ _ _ _ (by omega)]

set_option maxRecDepth 100000

/-- C23 at a failing input: in the vector made by pushing 17, 34 and 51 and
popping once, indices 0 and 1 hold 34 and 51; `vector_get(v, 0)` right after
`vector_set(v, 0, 99)` still returns 34, and right after
`vector_set(v, 1, 99)` it is index 0 that returns 99 while index 1 still
returns 51: `vector_set` writes at `contents + offset * 8`, without the
`start` that `vector_get` adds. -/
theorem vector_set_after_pop_misses :
    popped_vector.start = 8 ∧ popped_vector.end_ = 24 ∧
      vector_get popped_vector 0 = 34 ∧ vector_get popped_vector 1 = 51 ∧
      vector_get (vector_set popped_vector 0 99) 0 = 34 ∧
      vector_get (vector_set popped_vector 1 99) 1 = 51 ∧
      vector_get (vector_set popped_vector 1 99) 0 = 99 := by
  decide

end Pagecache
